import Mathlib

/-!
# Disjoint forest (union-find with contraction)

A shallow embedding of `disjoint_forest.h` / `disjoint_forest.cc`.

* A `Node<T>*` is modelled by the address of the heap object (a natural number);
  the null pointer is `none` where a pointer is an argument of the public interface.
* `std::vector<std::unique_ptr<Node<T>>> nodes` is the list of the live heap objects in
  storage order, each carrying its own address.
* Every public member function is a function from the state before the call to an
  `Outcome`: a normal return with the state after the call, an exception with the state
  at the throw, or `undefined` when the C++ program has no result (a loop that does not
  terminate, or a dereference of a pointer that is not a live node).
* Memory is unbounded: an allocation never fails. `std::vector::reserve(n)` throws
  `std::length_error` when `n` exceeds `max_size()` and otherwise makes the capacity `n`
  when it was smaller.
* `int` values that come out of a conversion from `size_t`, and the increment of
  `Node::rank` in `updateRank`, are reduced to 32 bits (two's complement).
-/

namespace DisjointForest

/-- The struct `Node<T>` together with the address of the object. -/
structure Node (T : Type) where
  addr : Nat
  data : T
  parent : Nat
  rank : Int
deriving DecidableEq, Repr

/-- The exceptions the member functions throw: `std::invalid_argument` from the argument
checks and `std::length_error` from `std::vector::reserve`. -/
inductive Exn where
  | invalidArgument
  | lengthError
deriving DecidableEq, Repr

/-- Result of a member function call on a state of type `σ`. -/
inductive Outcome (α σ : Type) where
  | ret (val : α) (st : σ)
  | throw (e : Exn) (st : σ)
  | undefined
deriving DecidableEq, Repr

end DisjointForest

/-- The private data members of `DisjointForest<T>`. The two capacities are those of the
vectors `nodes` and `ranks`. -/
structure DisjointForest (T : Type) where
  nodes : List (DisjointForest.Node T)
  ranks : List Int
  next_id : Int
  nodesCap : Nat
  ranksCap : Nat
deriving DecidableEq, Repr

namespace DisjointForest

variable {T : Type}

/-- Conversion of an integer to `int` (32 bit, two's complement). -/
def toInt32 (x : Int) : Int := (x + 2147483648) % 4294967296 - 2147483648

/-- Conversion of an integer to `size_t` (64 bit). -/
def toSizeT (x : Int) : Nat := (x % 18446744073709551616).toNat

/-- `max_size()` of `std::vector<std::unique_ptr<Node<T>>>`: the largest `ptrdiff_t`
divided by the element size of 8 bytes. -/
def maxSizeNodes : Nat := 1152921504606846975

/-- `max_size()` of `std::vector<int>`: the largest `ptrdiff_t` divided by the element
size of 4 bytes. -/
def maxSizeRanks : Nat := 2305843009213693951

/-- Capacity of a vector after `push_back` on a vector of the given size and capacity:
the vector reallocates only when it is full, and then to twice its size. -/
def pushCap (size cap : Nat) : Nat := if size = cap then size + max size 1 else cap

/-- Dereference of a pointer: the live node at address `p`. -/
def getNode (ns : List (Node T)) (p : Nat) : Option (Node T) :=
  ns.find? (fun n => decide (n.addr = p))

/-- The assignment `p->parent = q`. -/
def setParent (ns : List (Node T)) (p q : Nat) : List (Node T) :=
  ns.map (fun n => if n.addr = p then { n with parent := q } else n)

/-- The assignment `p->rank = r`. -/
def setRank (ns : List (Node T)) (p : Nat) (r : Int) : List (Node T) :=
  ns.map (fun n => if n.addr = p then { n with rank := r } else n)

/-- The addresses of the live nodes, in storage order. -/
def addrs (s : DisjointForest T) : List Nat := s.nodes.map (fun n => n.addr)

/-- Default constructor. -/
def empty : DisjointForest T :=
  { nodes := [], ranks := [], next_id := 0, nodesCap := 0, ranksCap := 0 }

/-- Constructor `DisjointForest(int initial_capacity)`. -/
def construct (initial_capacity : Int) : Except Exn (DisjointForest T) :=
  if initial_capacity < 0 then .error .invalidArgument
  else
    let n := toSizeT initial_capacity
    if n > maxSizeNodes then .error .lengthError
    else if n > maxSizeRanks then .error .lengthError
    else .ok { nodes := [], ranks := [], next_id := 0, nodesCap := n, ranksCap := n }

/-- Member `makeSet`. The argument `p` is the address `std::make_unique` returns for the
new node. -/
def makeSet (s : DisjointForest T) (p : Nat) (data : T) : Nat × DisjointForest T :=
  (p, { s with
        nodes := s.nodes ++ [{ addr := p, data := data, parent := p, rank := 0 }]
        ranks := s.ranks ++ [0]
        nodesCap := pushCap s.nodes.length s.nodesCap
        ranksCap := pushCap s.ranks.length s.ranksCap })

/-- The first loop of `find`: `while (root->parent != root) root = root->parent;`
with a bound on the number of loop tests. -/
def findRoot (ns : List (Node T)) : Nat → Nat → Option Nat
  | 0, _ => none
  | fuel + 1, root =>
    match getNode ns root with
    | none => none
    | some n => if n.parent = root then some root else findRoot ns fuel n.parent

/-- The nodes the first loop of `find` visits, from the argument up to the root. -/
def pathToRoot (ns : List (Node T)) : Nat → Nat → Option (List Nat)
  | 0, _ => none
  | fuel + 1, x =>
    match getNode ns x with
    | none => none
    | some n =>
      if n.parent = x then some [x]
      else (pathToRoot ns fuel n.parent).map (fun l => x :: l)

/-- Member `compressPath`, with a bound on the number of loop tests. -/
def compressPath (root : Nat) : Nat → List (Node T) → Nat → Option (List (Node T))
  | 0, _, _ => none
  | fuel + 1, ns, node =>
    match getNode ns node with
    | none => none
    | some n =>
      if n.parent = root then some ns
      else compressPath root fuel (setParent ns node root) n.parent

/-- Member `find`. A parent chain of live nodes that has not reached a root after as many
steps as there are nodes has entered a cycle, so the loops are run with that bound. -/
def find (s : DisjointForest T) (node : Option Nat) : Outcome Nat (DisjointForest T) :=
  match node with
  | none => .throw .invalidArgument s
  | some x =>
    match findRoot s.nodes s.nodes.length x with
    | none => .undefined
    | some root =>
      match compressPath root s.nodes.length s.nodes x with
      | none => .undefined
      | some ns => .ret root { s with nodes := ns }

/-- Member `updateRank`. The increment `root1->rank++` is on an `int`. -/
def updateRank (ns : List (Node T)) (root1 root2 : Nat) : Option (List (Node T)) :=
  match getNode ns root1, getNode ns root2 with
  | some n1, some n2 =>
    if n1.rank = n2.rank then some (setRank ns root1 (toInt32 (n1.rank + 1))) else some ns
  | _, _ => none

/-- Member `unionSets`. -/
def unionSets (s : DisjointForest T) (node1 node2 : Option Nat) :
    Outcome Unit (DisjointForest T) :=
  match node1, node2 with
  | some x, some y =>
    match find s (some x) with
    | .ret root1 s1 =>
      match find s1 (some y) with
      | .ret root2 s2 =>
        if root1 = root2 then .ret () s2
        else
          match getNode s2.nodes root1, getNode s2.nodes root2 with
          | some n1, some n2 =>
            let r1 := if n1.rank > n2.rank then root2 else root1
            let r2 := if n1.rank > n2.rank then root1 else root2
            match updateRank (setParent s2.nodes r2 r1) r1 r2 with
            | some ns => .ret () { s2 with nodes := ns }
            | none => .undefined
          | _, _ => .undefined
      | .throw e s2 => .throw e s2
      | .undefined => .undefined
    | .throw e s1 => .throw e s1
    | .undefined => .undefined
  | _, _ => .throw .invalidArgument s

/-- Member `expand`. The sum is computed in `size_t` and stored in the `int`
`new_capacity`, which `reserve` receives converted back to `size_t`. -/
def expand (s : DisjointForest T) (additional_capacity : Int) :
    Outcome Unit (DisjointForest T) :=
  if additional_capacity ≤ 0 then .throw .invalidArgument s
  else
    let new_capacity : Int := toInt32 ((s.nodesCap : Int) + additional_capacity)
    let n := toSizeT new_capacity
    if n > maxSizeNodes then .throw .lengthError s
    else
      let s1 := { s with nodesCap := max s.nodesCap n }
      if n > maxSizeRanks then .throw .lengthError s1
      else .ret () { s1 with ranksCap := max s1.ranksCap n }

/-- The loop of the root branch of `contract`; `new_parent` is the local variable. -/
def promoteLoop (node : Nat) : List (Node T) → Option Nat → List (Node T)
  | [], _ => []
  | other :: rest, new_parent =>
    if other.addr ≠ node ∧ other.parent = node then
      match new_parent with
      | none => { other with parent := other.addr } :: promoteLoop node rest (some other.addr)
      | some q => { other with parent := q } :: promoteLoop node rest (some q)
    else other :: promoteLoop node rest new_parent

/-- The loop of the non-root branch of `contract`. -/
def reparentLoop (node new_parent : Nat) (ns : List (Node T)) : List (Node T) :=
  ns.map (fun other =>
    if other.addr ≠ node ∧ other.parent = node then { other with parent := new_parent }
    else other)

/-- The removal at the end of `contract`: `std::find_if` followed by the two `erase`. -/
def eraseNode (s : DisjointForest T) (node : Nat) : DisjointForest T :=
  match s.nodes.findIdx? (fun n => decide (n.addr = node)) with
  | some index => { s with nodes := s.nodes.eraseIdx index, ranks := s.ranks.eraseIdx index }
  | none => s

/-- Member `contract`. -/
def contract (s : DisjointForest T) (node : Option Nat) : Outcome Unit (DisjointForest T) :=
  match node with
  | none => .throw .invalidArgument s
  | some x =>
    match getNode s.nodes x with
    | none => .undefined
    | some n =>
      if n.parent = x then
        .ret () (eraseNode { s with nodes := promoteLoop x s.nodes none } x)
      else
        .ret () (eraseNode { s with nodes := reparentLoop x n.parent s.nodes } x)

/-- Member `clear`. -/
def clear (s : DisjointForest T) : DisjointForest T :=
  { s with nodes := [], ranks := [], next_id := 0 }

/-- Member `size`. -/
def size (s : DisjointForest T) : Int := toInt32 s.nodes.length

/-- Member `capacity`. -/
def capacity (s : DisjointForest T) : Int := toInt32 s.nodesCap

/-- Member `isEmpty`. -/
def isEmpty (s : DisjointForest T) : Bool := s.nodes.isEmpty

/-- Member `getAllNodes`. -/
def getAllNodes (s : DisjointForest T) : List Nat := s.nodes.map (fun n => n.addr)

end DisjointForest

namespace DisjointForest

variable {T : Type}

/-- The parent pointer stored in the live node at address `p`. -/
def parentOf (ns : List (Node T)) (p : Nat) : Option Nat :=
  (getNode ns p).map (fun n => n.parent)

/-- The rank stored in the live node at address `p`. -/
def rankOf (ns : List (Node T)) (p : Nat) : Option Int :=
  (getNode ns p).map (fun n => n.rank)

/-- Following parent links from `x` ends at the self-parented node `r`; the first argument
gives the parent link of every live address. -/
inductive RootOf (P : Nat → Option Nat) : Nat → Nat → Prop where
  | root {x : Nat} : P x = some x → RootOf P x x
  | step {x y r : Nat} : P x = some y → y ≠ x → RootOf P y r → RootOf P x r

/-- The root the first loop of `find` reaches from `x`, if it reaches one. -/
def rootOf (s : DisjointForest T) (x : Nat) : Option Nat :=
  findRoot s.nodes s.nodes.length x

/-- Well-formed forest: the live nodes have pairwise different addresses, and from every
live node the parent chain stays among the live nodes and reaches a self-parented node. -/
def WellFormed (s : DisjointForest T) : Prop :=
  (addrs s).Nodup ∧ ∀ x ∈ addrs s, (rootOf s x).isSome = true

instance (s : DisjointForest T) : Decidable (WellFormed s) := by
  unfold WellFormed; infer_instance

/-- The test `forest.find(a) == forest.find(b)`, the two calls made one after the other. -/
def sameSet (s : DisjointForest T) (a b : Nat) : Option Bool :=
  match find s (some a) with
  | .ret ra s1 =>
    match find s1 (some b) with
    | .ret rb _ => some (decide (ra = rb))
    | _ => none
  | _ => none

end DisjointForest

namespace DisjointForest

variable {T : Type}

/-- The nodes after path compression along the path `l` towards the root `R`: every node
of the path other than `R` points to `R`. -/
def compressed (l : List Nat) (R : Nat) (ns : List (Node T)) : List (Node T) :=
  ns.map (fun n => if n.addr ∈ l ∧ n.addr ≠ R then { n with parent := R } else n)

end DisjointForest

namespace DisjointForest

variable {T : Type}

/-- The node the direct children of `x` point to after `contract(x)`: the parent of `x`
when `x` is not a root, and the first direct child in storage order when it is (`x` itself
when there is no child, in which case nothing is reparented). -/
def newParent (ns : List (Node T)) (x : Nat) : Nat :=
  match getNode ns x with
  | none => x
  | some n =>
    if n.parent = x then
      match ns.find? (fun m => decide (m.addr ≠ x ∧ m.parent = x)) with
      | none => x
      | some c => c.addr
    else n.parent

end DisjointForest

namespace DisjointForest

variable {T : Type}

/-- One step along a parent link: the live node `a` has parent pointer `b`. -/
def ParentStep (s : DisjointForest T) (a b : Nat) : Prop := parentOf s.nodes a = some b

/-- The chain of the test `FindWithPathCompression`: four nodes with data 1 to 4 at the
addresses 1 to 4, parents set by hand to 2 → 1, 3 → 2, 4 → 3. -/
def chain4 : DisjointForest Nat :=
  { nodes := [⟨1, 1, 1, 0⟩, ⟨2, 2, 1, 0⟩, ⟨3, 3, 2, 0⟩, ⟨4, 4, 3, 0⟩]
    ranks := [0, 0, 0, 0], next_id := 0, nodesCap := 4, ranksCap := 4 }

end DisjointForest

namespace DisjointForest

variable {T : Type}

/-- A call of the public interface that builds a forest: `makeSet` (with the address the
allocator returns) or `unionSets` on two handles. -/
inductive Op (T : Type) where
  | makeSet (p : Nat) (data : T)
  | unionSets (a b : Nat)

/-- The state after one call, if the call returns. -/
def runOp (s : DisjointForest T) : Op T → Option (DisjointForest T)
  | .makeSet p data => some (makeSet s p data).2
  | .unionSets a b =>
    match unionSets s (some a) (some b) with
    | .ret _ s' => some s'
    | _ => none

/-- The state after a sequence of calls, if every call returns. -/
def run (s : DisjointForest T) : List (Op T) → Option (DisjointForest T)
  | [] => some s
  | op :: ops =>
    match runOp s op with
    | some s' => run s' ops
    | none => none

/-- The handles returned by the `makeSet` calls of a sequence, in order. -/
def created : List (Op T) → List Nat
  | [] => []
  | .makeSet p _ :: ops => p :: created ops
  | .unionSets _ _ :: ops => created ops

/-- The pairs of handles passed to the `unionSets` calls of a sequence, in order. -/
def unionPairs : List (Op T) → List (Nat × Nat)
  | [] => []
  | .makeSet _ _ :: ops => unionPairs ops
  | .unionSets a b :: ops => (a, b) :: unionPairs ops

/-- A sequence of calls is valid from a state with the live handles `live`: the allocator
returns an address that is not live, and `unionSets` is called on live handles. -/
def validFrom (live : List Nat) : List (Op T) → Bool
  | [] => true
  | .makeSet p _ :: ops => decide (p ∉ live) && validFrom (live ++ [p]) ops
  | .unionSets a b :: ops => decide (a ∈ live) && decide (b ∈ live) && validFrom live ops

end DisjointForest

namespace DisjointForest

variable {T : Type}

/-- The state a call leaves behind, when it returns or throws. -/
def Outcome.state? {α σ : Type} : Outcome α σ → Option σ
  | .ret _ s => some s
  | .throw _ s => some s
  | .undefined => none

/-- A handle a caller may pass: the null pointer or a live node of the forest. -/
def ValidHandle (s : DisjointForest T) (h : Option Nat) : Prop :=
  ∀ n, h = some n → n ∈ addrs s

/-- The forests that arise from a constructor by calls of the public interface, with
handles that are null or live and with the allocator returning addresses that are not
live. -/
inductive Reachable : DisjointForest T → Prop where
  | empty : Reachable empty
  | construct {c : Int} {s : DisjointForest T} : construct c = .ok s → Reachable s
  | makeSet {s : DisjointForest T} {p : Nat} {d : T} :
      Reachable s → p ∉ addrs s → Reachable (makeSet s p d).2
  | find {s s' : DisjointForest T} {h : Option Nat} :
      Reachable s → ValidHandle s h → (find s h).state? = some s' → Reachable s'
  | unionSets {s s' : DisjointForest T} {h₁ h₂ : Option Nat} :
      Reachable s → ValidHandle s h₁ → ValidHandle s h₂ →
      (unionSets s h₁ h₂).state? = some s' → Reachable s'
  | contract {s s' : DisjointForest T} {h : Option Nat} :
      Reachable s → ValidHandle s h → (contract s h).state? = some s' → Reachable s'
  | expand {s s' : DisjointForest T} {n : Int} :
      Reachable s → (expand s n).state? = some s' → Reachable s'
  | clear {s : DisjointForest T} : Reachable s → Reachable (clear s)

/-- The calls of the test `ComplexDynamicScenario` up to the first `contract`: ten nodes
with data 0 to 9 at the addresses 100 to 109, the unions of the even and of the odd nodes,
and the union of nodes 0 and 1. -/
def scenarioOps : List (Op Nat) :=
  [.makeSet 100 0, .makeSet 101 1, .makeSet 102 2, .makeSet 103 3, .makeSet 104 4,
   .makeSet 105 5, .makeSet 106 6, .makeSet 107 7, .makeSet 108 8, .makeSet 109 9,
   .unionSets 100 102, .unionSets 102 104, .unionSets 104 106, .unionSets 106 108,
   .unionSets 101 103, .unionSets 103 105, .unionSets 105 107, .unionSets 107 109,
   .unionSets 100 101]

/-- The forest the calls `scenarioOps` build from the empty forest. -/
def scenario : DisjointForest Nat :=
  { nodes := [⟨100, 0, 108, 1⟩, ⟨101, 1, 109, 1⟩, ⟨102, 2, 100, 0⟩, ⟨103, 3, 101, 0⟩,
      ⟨104, 4, 108, 1⟩, ⟨105, 5, 109, 1⟩, ⟨106, 6, 104, 0⟩, ⟨107, 7, 105, 0⟩,
      ⟨108, 8, 108, 1⟩, ⟨109, 9, 108, 0⟩]
    ranks := [0, 0, 0, 0, 0, 0, 0, 0, 0, 0], next_id := 0, nodesCap := 16, ranksCap := 16 }

/-- Three singleton classes at the addresses 1, 2 and 3. -/
def threeSets : DisjointForest Nat :=
  { nodes := [⟨1, 1, 1, 0⟩, ⟨2, 2, 2, 0⟩, ⟨3, 3, 3, 0⟩]
    ranks := [0, 0, 0], next_id := 0, nodesCap := 4, ranksCap := 4 }

/-- One singleton class at the address 1, as built by `makeSet` on the empty forest. -/
def oneSet : DisjointForest Nat := (makeSet empty 1 0).2

/-- A forest of `2 ^ 31 - 1` singleton classes at the addresses `0, 1, 2, ...`. -/
def bigForest : DisjointForest Nat :=
  { nodes := (List.range 2147483647).map (fun i => ⟨i, 0, i, 0⟩)
    ranks := List.replicate 2147483647 0
    next_id := 0, nodesCap := 2147483648, ranksCap := 2147483648 }

end DisjointForest

namespace DisjointForest

variable {T : Type}

/-- The payload stored in the live node at address `p`. -/
def dataOf (ns : List (Node T)) (p : Nat) : Option T :=
  (getNode ns p).map (fun n => n.data)

/-- The nodes after the root `b` has been attached under the root `a` as `unionSets` does
it: `b->parent = a`, then `updateRank(a, b)`, where `ka` and `kb` are the ranks of `a` and
`b`. -/
def linked (ns : List (Node T)) (a b : Nat) (ka kb : Int) : List (Node T) :=
  if ka = kb then setRank (setParent ns b a) a (toInt32 (ka + 1)) else setParent ns b a

end DisjointForest

namespace DisjointForest

variable {T : Type}

/-- The calls of the test `UnionSetsWithRank`: three nodes with data 1 to 3 at the addresses
1 to 3, then `unionSets(1, 2)` and `unionSets(1, 3)`. -/
def rankOps : List (Op Nat) :=
  [.makeSet 1 1, .makeSet 2 2, .makeSet 3 3, .unionSets 1 2, .unionSets 1 3]

/-- The forest of the test `UnionSetsWithRank` after `unionSets(1, 2)`: node 1 is a root of
rank 1 with child 2, node 3 is a root of rank 0. -/
def rankBefore : DisjointForest Nat :=
  { nodes := [⟨1, 1, 1, 1⟩, ⟨2, 2, 1, 0⟩, ⟨3, 3, 3, 0⟩]
    ranks := [0, 0, 0], next_id := 0, nodesCap := 4, ranksCap := 4 }

/-- The forest of the test `UnionSetsWithRank` after `unionSets(1, 3)`. -/
def rankAfter : DisjointForest Nat :=
  { nodes := [⟨1, 1, 3, 1⟩, ⟨2, 2, 1, 0⟩, ⟨3, 3, 3, 0⟩]
    ranks := [0, 0, 0], next_id := 0, nodesCap := 4, ranksCap := 4 }

/-- The number of parent links from `x` up to `r`, when `r` is on the parent chain of
`x`. -/
def stepsTo (ns : List (Node T)) (x r : Nat) : Option Nat :=
  match pathToRoot ns ns.length x with
  | none => none
  | some l => if r ∈ l then some (l.indexOf r) else none

/-- The height of the subtree rooted at `r`: the length of the longest parent chain from a
descendant up to `r`. -/
def height (ns : List (Node T)) (r : Nat) : Nat :=
  (ns.map (fun n => (stepsTo ns n.addr r).getD 0)).foldl max 0

end DisjointForest

namespace DisjointForest

/-- The chain 2 → 1, 3 → 2, 4 → 3 after `contract(node2)`: node 3 points to node 1. -/
def chain4Contracted : DisjointForest Nat :=
  { nodes := [⟨1, 1, 1, 0⟩, ⟨3, 3, 1, 0⟩, ⟨4, 4, 3, 0⟩]
    ranks := [0, 0, 0], next_id := 0, nodesCap := 4, ranksCap := 4 }

end DisjointForest

namespace DisjointForest

variable {T : Type}

/-- The address and the payload of every node, in storage order. -/
def payloads (ns : List (Node T)) : List (Nat × T) := ns.map (fun n => (n.addr, n.data))

/-- The forest `s` is reached from the empty forest by calls of `makeSet`, `find`,
`unionSets`, `expand` and `contract`, and `l` lists the handles that `makeSet` has returned
and `contract` has not removed since, in creation order. Calls on live handles are listed;
a call with a null handle throws and leaves the forest as it is. -/
inductive Tracked : DisjointForest T → List Nat → Prop where
  | empty : Tracked empty []
  | makeSet {s : DisjointForest T} {l : List Nat} {p : Nat} {d : T} :
      Tracked s l → p ∉ addrs s → Tracked (makeSet s p d).2 (l ++ [p])
  | find {s s' : DisjointForest T} {l : List Nat} {N : Nat} :
      Tracked s l → N ∈ addrs s → (find s (some N)).state? = some s' → Tracked s' l
  | unionSets {s s' : DisjointForest T} {l : List Nat} {A B : Nat} :
      Tracked s l → A ∈ addrs s → B ∈ addrs s →
      (unionSets s (some A) (some B)).state? = some s' → Tracked s' l
  | expand {s s' : DisjointForest T} {l : List Nat} {n : Int} :
      Tracked s l → (expand s n).state? = some s' → Tracked s' l
  | contract {s s' : DisjointForest T} {l : List Nat} {N : Nat} :
      Tracked s l → N ∈ addrs s → (contract s (some N)).state? = some s' →
      Tracked s' (l.filter (fun a => decide (a ≠ N)))

/-- The forest after `n` calls of `makeSet` on the empty forest, the allocator returning
the addresses `0, 1, 2, ...`. -/
def manySets : Nat → DisjointForest Nat
  | 0 => empty
  | n + 1 => (makeSet (manySets n) n 0).2

end DisjointForest

namespace DisjointForest

/-- Two singleton classes at the addresses 1 and 2, as built by `makeSet` twice. -/
def twoSets : DisjointForest Nat := (makeSet (makeSet empty 1 0).2 2 0).2

/-- The forest `twoSets` after `contract` on the node at address 1. -/
def twoSetsContracted : DisjointForest Nat :=
  { nodes := [⟨2, 0, 2, 0⟩], ranks := [0], next_id := 0, nodesCap := 2, ranksCap := 2 }

end DisjointForest

namespace DisjointForest

/-- Two singleton classes at the addresses 1 and 2 whose ranks have been set by hand to the
largest `int`. -/
def maxRank : DisjointForest Nat :=
  { nodes := [⟨1, 1, 1, 2147483647⟩, ⟨2, 2, 2, 2147483647⟩]
    ranks := [0, 0], next_id := 0, nodesCap := 2, ranksCap := 2 }

/-- The forest `maxRank` after `unionSets` on its two nodes: the rank of node 1 has wrapped
to the smallest `int`. -/
def maxRankUnited : DisjointForest Nat :=
  { nodes := [⟨1, 1, 1, -2147483648⟩, ⟨2, 2, 1, 2147483647⟩]
    ranks := [0, 0], next_id := 0, nodesCap := 2, ranksCap := 2 }

end DisjointForest

namespace DisjointForest

variable {T : Type}

/-! ### Lookup -/

theorem getNode_some {ns : List (Node T)} {p : Nat} {n : Node T}
    (h : getNode ns p = some n) : n.addr = p ∧ n ∈ ns := by
  unfold getNode at h
  have h1 := List.find?_some h
  have h2 := List.mem_of_find?_eq_some h
  exact ⟨by simpa using h1, h2⟩

theorem getNode_eq_none_iff {ns : List (Node T)} {p : Nat} :
    getNode ns p = none ↔ p ∉ ns.map (fun n => n.addr) := by
  unfold getNode
  rw [List.find?_eq_none]
  simp

theorem getNode_isSome_iff {ns : List (Node T)} {p : Nat} :
    (getNode ns p).isSome = true ↔ p ∈ ns.map (fun n => n.addr) := by
  rw [← not_iff_not]
  simp [getNode_eq_none_iff]

theorem getNode_of_mem {ns : List (Node T)} (hnd : (ns.map (fun n => n.addr)).Nodup)
    {n : Node T} (hn : n ∈ ns) : getNode ns n.addr = some n := by
  induction ns with
  | nil => cases hn
  | cons a rest ih =>
    simp only [List.map_cons, List.nodup_cons] at hnd
    unfold getNode
    rw [List.find?_cons]
    rcases List.mem_cons.1 hn with rfl | hmem
    · simp
    · have hne : a.addr ≠ n.addr := by
        intro he
        exact hnd.1 (he ▸ List.mem_map_of_mem _ hmem)
      simp only [hne, decide_False]
      exact ih hnd.2 hmem

theorem getNode_map {ns : List (Node T)} (f : Node T → Node T)
    (hf : ∀ n, (f n).addr = n.addr) (p : Nat) :
    getNode (ns.map f) p = (getNode ns p).map f := by
  induction ns with
  | nil => rfl
  | cons a rest ih =>
    unfold getNode at ih ⊢
    simp only [List.map_cons, List.find?_cons, hf]
    by_cases h : a.addr = p
    · simp [h]
    · simp only [h, decide_False]
      exact ih

theorem map_addr_map {ns : List (Node T)} (f : Node T → Node T)
    (hf : ∀ n, (f n).addr = n.addr) :
    (ns.map f).map (fun n => n.addr) = ns.map (fun n => n.addr) := by
  simp [List.map_map, Function.comp, hf]

theorem parentOf_isSome_iff {ns : List (Node T)} {p : Nat} :
    (parentOf ns p).isSome = true ↔ p ∈ ns.map (fun n => n.addr) := by
  unfold parentOf
  rw [Option.isSome_map']
  exact getNode_isSome_iff

theorem mem_addrs_of_parentOf {ns : List (Node T)} {p q : Nat}
    (h : parentOf ns p = some q) : p ∈ ns.map (fun n => n.addr) :=
  parentOf_isSome_iff.1 (by simp [h])

/-! ### The root loop -/

theorem findRoot_succ (ns : List (Node T)) (k x : Nat) :
    findRoot ns (k + 1) x =
      match parentOf ns x with
      | none => none
      | some p => if p = x then some x else findRoot ns k p := by
  unfold parentOf
  rw [findRoot]
  cases getNode ns x <;> rfl

theorem pathToRoot_succ (ns : List (Node T)) (k x : Nat) :
    pathToRoot ns (k + 1) x =
      match parentOf ns x with
      | none => none
      | some p => if p = x then some [x] else (pathToRoot ns k p).map (fun l => x :: l) := by
  unfold parentOf
  rw [pathToRoot]
  cases getNode ns x <;> rfl

end DisjointForest

namespace DisjointForest

variable {T : Type}

theorem pathToRoot_mono {ns : List (Node T)} :
    ∀ {k k' x : Nat} {l : List Nat}, pathToRoot ns k x = some l → k ≤ k' →
      pathToRoot ns k' x = some l := by
  intro k
  induction k with
  | zero => intro k' x l h; simp [pathToRoot] at h
  | succ k ih =>
    intro k' x l h hk
    obtain ⟨j, rfl⟩ : ∃ j, k' = j + 1 := ⟨k' - 1, by omega⟩
    rw [pathToRoot_succ] at h ⊢
    cases hp : parentOf ns x with
    | none => simp [hp] at h
    | some p =>
      simp only [hp] at h ⊢
      by_cases hpx : p = x
      · simpa [hpx] using h
      · simp only [hpx, if_false, Option.map_eq_some'] at h ⊢
        obtain ⟨l1, hl1, rfl⟩ := h
        exact ⟨l1, ih hl1 (by omega), rfl⟩

theorem pathToRoot_det {ns : List (Node T)} {k k' x : Nat} {l l' : List Nat}
    (h : pathToRoot ns k x = some l) (h' : pathToRoot ns k' x = some l') : l = l' := by
  have h1 := pathToRoot_mono h (Nat.le_max_left k k')
  have h2 := pathToRoot_mono h' (Nat.le_max_right k k')
  rw [h1] at h2
  exact Option.some.inj h2

theorem pathToRoot_head {ns : List (Node T)} {k x : Nat} {l : List Nat}
    (h : pathToRoot ns k x = some l) : ∃ t, l = x :: t := by
  cases k with
  | zero => simp [pathToRoot] at h
  | succ k =>
    rw [pathToRoot_succ] at h
    cases hp : parentOf ns x with
    | none => simp [hp] at h
    | some p =>
      simp only [hp] at h
      by_cases hpx : p = x
      · simp only [hpx, if_true, Option.some.injEq] at h
        exact ⟨[], h.symm⟩
      · simp only [hpx, if_false, Option.map_eq_some'] at h
        obtain ⟨l1, _, rfl⟩ := h
        exact ⟨l1, rfl⟩

theorem pathToRoot_self_length {ns : List (Node T)} :
    ∀ {k x : Nat} {l : List Nat}, pathToRoot ns k x = some l →
      pathToRoot ns l.length x = some l := by
  intro k
  induction k with
  | zero => intro x l h; simp [pathToRoot] at h
  | succ k ih =>
    intro x l h
    rw [pathToRoot_succ] at h
    cases hp : parentOf ns x with
    | none => simp [hp] at h
    | some p =>
      simp only [hp] at h
      by_cases hpx : p = x
      · simp only [hpx, if_true, Option.some.injEq] at h
        subst h
        simp [pathToRoot_succ, hp, hpx]
      · simp only [hpx, if_false, Option.map_eq_some'] at h
        obtain ⟨l1, hl1, rfl⟩ := h
        simp only [List.length_cons]
        rw [pathToRoot_succ]
        simp [hp, hpx, ih hl1]

/-- Every node on the path is live, has its own path inside the given one, and that path
is no longer. -/
theorem pathToRoot_mem {ns : List (Node T)} :
    ∀ {k x : Nat} {l : List Nat}, pathToRoot ns k x = some l → ∀ y ∈ l,
      ∃ l', pathToRoot ns k y = some l' ∧ l'.length ≤ l.length ∧ l' ⊆ l ∧
        l'.getLast? = l.getLast? := by
  intro k
  induction k with
  | zero => intro x l h; simp [pathToRoot] at h
  | succ k ih =>
    intro x l h y hy
    have h0 := h
    rw [pathToRoot_succ] at h
    cases hp : parentOf ns x with
    | none => simp [hp] at h
    | some p =>
      simp only [hp] at h
      by_cases hpx : p = x
      · simp only [hpx, if_true, Option.some.injEq] at h
        subst h
        simp only [List.mem_singleton] at hy
        subst hy
        exact ⟨[y], h0, le_refl _, List.Subset.refl _, rfl⟩
      · simp only [hpx, if_false, Option.map_eq_some'] at h
        obtain ⟨l1, hl1, rfl⟩ := h
        rcases List.mem_cons.1 hy with rfl | hy1
        · exact ⟨y :: l1, h0, le_refl _, List.Subset.refl _, rfl⟩
        · obtain ⟨l', h1, h2, h3, h4⟩ := ih hl1 y hy1
          refine ⟨l', pathToRoot_mono h1 (Nat.le_succ k), ?_, ?_, ?_⟩
          · simp only [List.length_cons]; omega
          · exact fun z hz => List.mem_cons_of_mem _ (h3 hz)
          · rw [h4]
            obtain ⟨t, rfl⟩ := pathToRoot_head hl1
            simp [List.getLast?_cons_cons]

theorem pathToRoot_nodup {ns : List (Node T)} :
    ∀ {k x : Nat} {l : List Nat}, pathToRoot ns k x = some l → l.Nodup := by
  intro k
  induction k with
  | zero => intro x l h; simp [pathToRoot] at h
  | succ k ih =>
    intro x l h
    have h0 := h
    rw [pathToRoot_succ] at h
    cases hp : parentOf ns x with
    | none => simp [hp] at h
    | some p =>
      simp only [hp] at h
      by_cases hpx : p = x
      · simp only [hpx, if_true, Option.some.injEq] at h
        subst h
        simp
      · simp only [hpx, if_false, Option.map_eq_some'] at h
        obtain ⟨l1, hl1, rfl⟩ := h
        refine List.nodup_cons.2 ⟨?_, ih hl1⟩
        intro hx
        obtain ⟨l', h1, h2, _, _⟩ := pathToRoot_mem hl1 x hx
        have := pathToRoot_det h0 h1
        subst this
        simp at h2

theorem pathToRoot_live {ns : List (Node T)} {k x : Nat} {l : List Nat}
    (h : pathToRoot ns k x = some l) : l ⊆ ns.map (fun n => n.addr) := by
  intro y hy
  obtain ⟨l', h1, _, _, _⟩ := pathToRoot_mem h y hy
  cases k with
  | zero => simp [pathToRoot] at h
  | succ k =>
    rw [pathToRoot_succ] at h1
    cases hp : parentOf ns y with
    | none => simp [hp] at h1
    | some p => exact mem_addrs_of_parentOf hp

theorem pathToRoot_length_le_size {ns : List (Node T)} {k x : Nat} {l : List Nat}
    (h : pathToRoot ns k x = some l) : l.length ≤ ns.length := by
  have h1 := (List.subperm_of_subset (pathToRoot_nodup h) (pathToRoot_live h)).length_le
  simpa using h1

/-- A path found with any bound is found with the number of nodes as bound. -/
theorem pathToRoot_size {ns : List (Node T)} {k x : Nat} {l : List Nat}
    (h : pathToRoot ns k x = some l) : pathToRoot ns ns.length x = some l :=
  pathToRoot_mono (pathToRoot_self_length h) (pathToRoot_length_le_size h)

theorem findRoot_eq_path {ns : List (Node T)} :
    ∀ (k x : Nat), findRoot ns k x = (pathToRoot ns k x).bind (fun l => l.getLast?) := by
  intro k
  induction k with
  | zero => intro x; rfl
  | succ k ih =>
    intro x
    rw [findRoot_succ, pathToRoot_succ]
    cases hp : parentOf ns x with
    | none => rfl
    | some p =>
      by_cases hpx : p = x
      · simp [hpx]
      · simp only [hpx, if_false]
        rw [ih]
        cases hl : pathToRoot ns k p with
        | none => rfl
        | some l1 =>
          obtain ⟨t, rfl⟩ := pathToRoot_head hl
          simp [List.getLast?_cons_cons]

theorem findRoot_eq_some_iff {ns : List (Node T)} {k x r : Nat} :
    findRoot ns k x = some r ↔ ∃ l, pathToRoot ns k x = some l ∧ l.getLast? = some r := by
  rw [findRoot_eq_path]
  simp [Option.bind_eq_some]

theorem findRoot_mono {ns : List (Node T)} {k k' x r : Nat}
    (h : findRoot ns k x = some r) (hk : k ≤ k') : findRoot ns k' x = some r := by
  obtain ⟨l, h1, h2⟩ := findRoot_eq_some_iff.1 h
  exact findRoot_eq_some_iff.2 ⟨l, pathToRoot_mono h1 hk, h2⟩

/-- The bound used by `find` loses nothing: a root found with any bound is found with the
number of nodes as bound. -/
theorem findRoot_size {ns : List (Node T)} {k x r : Nat}
    (h : findRoot ns k x = some r) : findRoot ns ns.length x = some r := by
  obtain ⟨l, h1, h2⟩ := findRoot_eq_some_iff.1 h
  exact findRoot_eq_some_iff.2 ⟨l, pathToRoot_size h1, h2⟩

end DisjointForest

namespace DisjointForest

variable {T : Type}

/-! ### Roots as a relation on the parent links -/

theorem RootOf.isRoot {P : Nat → Option Nat} {x r : Nat} (h : RootOf P x r) :
    P r = some r := by
  induction h with
  | root h => exact h
  | step _ _ _ ih => exact ih

theorem RootOf.unique {P : Nat → Option Nat} {x r r' : Nat} (h : RootOf P x r)
    (h' : RootOf P x r') : r = r' := by
  induction h with
  | root hx =>
    cases h' with
    | root _ => rfl
    | step hy hne _ => rw [hx] at hy; exact absurd (Option.some.inj hy).symm hne
  | step hy hne _ ih =>
    cases h' with
    | root hx => rw [hx] at hy; exact absurd (Option.some.inj hy).symm hne
    | step hy' _ h2 =>
      rw [hy] at hy'
      cases Option.some.inj hy'
      exact ih h2

theorem RootOf.live {P : Nat → Option Nat} {x r : Nat} (h : RootOf P x r) :
    ∃ y, P x = some y := by
  cases h with
  | root h => exact ⟨_, h⟩
  | step h _ _ => exact ⟨_, h⟩

theorem RootOf.of_root {P : Nat → Option Nat} {x r : Nat} (h : RootOf P x r)
    (hx : P x = some x) : r = x :=
  (RootOf.unique (RootOf.root hx) h).symm

/-- The parent of a node has the same root. -/
theorem RootOf.parent {P : Nat → Option Nat} {x y r : Nat} (h : RootOf P x r)
    (hy : P x = some y) : RootOf P y r := by
  cases h with
  | root hx => rw [hx] at hy; cases Option.some.inj hy; exact RootOf.root hx
  | step hy' _ h2 => rw [hy] at hy'; cases Option.some.inj hy'; exact h2

theorem RootOf.of_parent {P : Nat → Option Nat} {x y r : Nat} (hy : P x = some y)
    (h : RootOf P y r) : RootOf P x r := by
  by_cases hxy : y = x
  · subst hxy; exact h
  · exact RootOf.step hy hxy h

theorem RootOf.congr {P Q : Nat → Option Nat} (hPQ : ∀ x, P x = Q x) {x r : Nat}
    (h : RootOf P x r) : RootOf Q x r := by
  induction h with
  | root h => exact RootOf.root (hPQ _ ▸ h)
  | step h hne _ ih => exact RootOf.step (hPQ _ ▸ h) hne ih

theorem rootOf_of_findRoot {ns : List (Node T)} :
    ∀ {k x r : Nat}, findRoot ns k x = some r → RootOf (parentOf ns) x r := by
  intro k
  induction k with
  | zero => intro x r h; simp [findRoot] at h
  | succ k ih =>
    intro x r h
    rw [findRoot_succ] at h
    cases hp : parentOf ns x with
    | none => simp [hp] at h
    | some p =>
      simp only [hp] at h
      by_cases hpx : p = x
      · simp only [hpx, if_true, Option.some.injEq] at h
        subst h
        exact RootOf.root (hpx ▸ hp)
      · simp only [hpx, if_false] at h
        exact RootOf.step hp hpx (ih h)

theorem findRoot_of_rootOf {ns : List (Node T)} {x r : Nat}
    (h : RootOf (parentOf ns) x r) : findRoot ns ns.length x = some r := by
  have : ∃ k, findRoot ns k x = some r := by
    induction h with
    | root h => exact ⟨1, by simp [findRoot_succ, h]⟩
    | step h hne _ ih =>
      obtain ⟨k, hk⟩ := ih
      exact ⟨k + 1, by simp [findRoot_succ, h, hne, hk]⟩
  obtain ⟨k, hk⟩ := this
  exact findRoot_size hk

theorem findRoot_iff_rootOf {ns : List (Node T)} {x r : Nat} :
    findRoot ns ns.length x = some r ↔ RootOf (parentOf ns) x r :=
  ⟨rootOf_of_findRoot, findRoot_of_rootOf⟩

theorem rootOf_eq_some_iff {s : DisjointForest T} {x r : Nat} :
    rootOf s x = some r ↔ RootOf (parentOf s.nodes) x r :=
  findRoot_iff_rootOf

theorem wellFormed_iff {s : DisjointForest T} :
    WellFormed s ↔
      (addrs s).Nodup ∧ ∀ x ∈ addrs s, ∃ r, RootOf (parentOf s.nodes) x r := by
  unfold WellFormed
  constructor
  · rintro ⟨h1, h2⟩
    refine ⟨h1, fun x hx => ?_⟩
    obtain ⟨r, hr⟩ := Option.isSome_iff_exists.1 (h2 x hx)
    exact ⟨r, rootOf_eq_some_iff.1 hr⟩
  · rintro ⟨h1, h2⟩
    refine ⟨h1, fun x hx => ?_⟩
    obtain ⟨r, hr⟩ := h2 x hx
    exact Option.isSome_iff_exists.2 ⟨r, rootOf_eq_some_iff.2 hr⟩

theorem WellFormed.exists_root {s : DisjointForest T} (h : WellFormed s) {x : Nat}
    (hx : x ∈ addrs s) : ∃ r, rootOf s x = some r :=
  Option.isSome_iff_exists.1 (h.2 x hx)

theorem rootOf_mem_addrs {s : DisjointForest T} {x r : Nat} (h : rootOf s x = some r) :
    x ∈ addrs s ∧ r ∈ addrs s := by
  have h1 := rootOf_eq_some_iff.1 h
  obtain ⟨y, hy⟩ := h1.live
  exact ⟨mem_addrs_of_parentOf hy, mem_addrs_of_parentOf h1.isRoot⟩

end DisjointForest

namespace DisjointForest

variable {T : Type}

/-! ### Path compression -/

theorem getNode_setParent (ns : List (Node T)) (p q y : Nat) :
    getNode (setParent ns p q) y =
      (getNode ns y).map (fun n => if n.addr = p then { n with parent := q } else n) := by
  unfold setParent
  exact getNode_map _ (fun n => by by_cases h : n.addr = p <;> simp [h]) y

theorem parentOf_setParent (ns : List (Node T)) (p q y : Nat) :
    parentOf (setParent ns p q) y =
      if y = p then (parentOf ns y).map (fun _ => q) else parentOf ns y := by
  unfold parentOf
  rw [getNode_setParent]
  cases h : getNode ns y with
  | none => simp
  | some n =>
    have hn := (getNode_some h).1
    by_cases hy : y = p
    · simp [hy, hn ▸ hy]
    · have : n.addr ≠ p := fun he => hy (hn ▸ he)
      simp [hy, this]

theorem addrs_setParent (ns : List (Node T)) (p q : Nat) :
    (setParent ns p q).map (fun n => n.addr) = ns.map (fun n => n.addr) := by
  unfold setParent
  exact map_addr_map _ (fun n => by by_cases h : n.addr = p <;> simp [h])

theorem pathToRoot_congr {ns ns' : List (Node T)} :
    ∀ {k x : Nat} {l : List Nat}, pathToRoot ns k x = some l →
      (∀ y ∈ l, parentOf ns' y = parentOf ns y) → pathToRoot ns' k x = some l := by
  intro k
  induction k with
  | zero => intro x l h; simp [pathToRoot] at h
  | succ k ih =>
    intro x l h hl
    obtain ⟨t, rfl⟩ := pathToRoot_head h
    rw [pathToRoot_succ] at h ⊢
    rw [hl x (List.mem_cons_self _ _)]
    cases hp : parentOf ns x with
    | none => simp [hp] at h
    | some p =>
      simp only [hp] at h ⊢
      by_cases hpx : p = x
      · simpa [hpx] using h
      · simp only [hpx, if_false, Option.map_eq_some'] at h ⊢
        obtain ⟨l1, hl1, he⟩ := h
        have : l1 = t := by simpa using he
        subst this
        exact ⟨l1, ih hl1 (fun y hy => hl y (List.mem_cons_of_mem _ hy)), rfl⟩

theorem pathToRoot_last_isRoot {ns : List (Node T)} {k x R : Nat} {l : List Nat}
    (h : pathToRoot ns k x = some l) (hR : l.getLast? = some R) :
    parentOf ns R = some R :=
  (rootOf_of_findRoot (findRoot_eq_some_iff.2 ⟨l, h, hR⟩)).isRoot

theorem pathToRoot_of_isRoot {ns : List (Node T)} {k R : Nat} {l : List Nat}
    (h : pathToRoot ns k R = some l) (hR : parentOf ns R = some R) : l = [R] := by
  cases k with
  | zero => simp [pathToRoot] at h
  | succ k =>
    rw [pathToRoot_succ] at h
    simpa [hR] using h.symm

theorem map_eq_self {α : Type} {f : α → α} {l : List α} (h : ∀ x ∈ l, f x = x) :
    l.map f = l := by
  conv_rhs => rw [← List.map_id l]
  exact List.map_congr_left h

theorem compressed_nil_eq (R : Nat) (ns : List (Node T)) : compressed [R] R ns = ns := by
  unfold compressed
  apply List.map_id''
  intro n
  by_cases h : n.addr = R <;> simp [h]

theorem compressPath_eq (R : Nat) :
    ∀ (k : Nat) (ns : List (Node T)) (x : Nat) (l : List Nat),
      (ns.map (fun n => n.addr)).Nodup → pathToRoot ns k x = some l →
      l.getLast? = some R → compressPath R k ns x = some (compressed l R ns) := by
  intro k
  induction k with
  | zero => intro ns x l _ h; simp [pathToRoot] at h
  | succ k ih =>
    intro ns x l hnd h hR
    have hRroot := pathToRoot_last_isRoot h hR
    have hlnd := pathToRoot_nodup h
    rw [pathToRoot_succ] at h
    cases hp : parentOf ns x with
    | none => simp [hp] at h
    | some p =>
      simp only [hp] at h
      obtain ⟨n, hn, hnp⟩ : ∃ n, getNode ns x = some n ∧ n.parent = p := by
        unfold parentOf at hp
        simpa [Option.map_eq_some'] using hp
      rw [compressPath]
      simp only [hn]
      by_cases hpx : p = x
      · simp only [hpx, if_true, Option.some.injEq] at h
        subst h
        have hxR : x = R := by simpa using hR
        subst hxR
        simp [hnp, hpx, compressed_nil_eq]
      · simp only [hpx, if_false, Option.map_eq_some'] at h
        obtain ⟨l1, hl1, rfl⟩ := h
        have hR1 : l1.getLast? = some R := by
          obtain ⟨t, rfl⟩ := pathToRoot_head hl1
          simpa [List.getLast?_cons_cons] using hR
        have hxR : x ≠ R := by
          intro he
          rw [he, hRroot] at hp
          exact hpx (by rw [he]; exact (Option.some.inj hp).symm)
        by_cases hpR : p = R
        · have hl1R : l1 = [R] := pathToRoot_of_isRoot (hpR ▸ hl1) hRroot
          subst hl1R
          simp only [hnp, hpR, if_true, Option.some.injEq]
          unfold compressed
          symm
          apply map_eq_self
          intro m hm
          by_cases hmx : m.addr = x
          · have h1 := getNode_of_mem hnd hm
            rw [hmx, hn] at h1
            cases Option.some.inj h1
            have hpar : n.parent = R := hnp.trans hpR
            cases n
            simp_all
          · have : ¬ (m.addr ∈ [x, R] ∧ m.addr ≠ R) := by
              simp only [List.mem_cons, List.mem_singleton, List.not_mem_nil, or_false]
              tauto
            simp only [this, if_false]
        · simp only [hnp, hpR, if_false]
          have hxl1 : x ∉ l1 := (List.nodup_cons.1 hlnd).1
          have hpath : pathToRoot (setParent ns x R) k p = some l1 := by
            apply pathToRoot_congr hl1
            intro y hy
            rw [parentOf_setParent]
            have : y ≠ x := fun he => hxl1 (he ▸ hy)
            simp [this]
          rw [ih (setParent ns x R) p l1 (by rw [addrs_setParent]; exact hnd) hpath hR1]
          unfold compressed setParent
          rw [List.map_map]
          congr 1
          apply List.map_congr_left
          intro m _
          simp only [Function.comp]
          by_cases hm : m.addr = x
          · simp [hm, hxl1, hxR]
          · simp [hm]

end DisjointForest

namespace DisjointForest

variable {T : Type}

theorem getNode_compressed (l : List Nat) (R : Nat) (ns : List (Node T)) (y : Nat) :
    getNode (compressed l R ns) y =
      (getNode ns y).map
        (fun n => if n.addr ∈ l ∧ n.addr ≠ R then { n with parent := R } else n) := by
  unfold compressed
  exact getNode_map _ (fun n => by by_cases h : n.addr ∈ l ∧ n.addr ≠ R <;> simp [h]) y

theorem parentOf_compressed (l : List Nat) (R : Nat) (ns : List (Node T)) (y : Nat) :
    parentOf (compressed l R ns) y =
      if y ∈ l ∧ y ≠ R then (parentOf ns y).map (fun _ => R) else parentOf ns y := by
  unfold parentOf
  rw [getNode_compressed]
  cases h : getNode ns y with
  | none => simp
  | some n =>
    have hn := (getNode_some h).1
    subst hn
    by_cases hy : n.addr ∈ l ∧ n.addr ≠ R <;> simp [hy]

theorem rankOf_compressed (l : List Nat) (R : Nat) (ns : List (Node T)) (y : Nat) :
    rankOf (compressed l R ns) y = rankOf ns y := by
  unfold rankOf
  rw [getNode_compressed]
  cases h : getNode ns y with
  | none => simp
  | some n => by_cases hy : n.addr ∈ l ∧ n.addr ≠ R <;> simp [hy]

theorem addrs_compressed (l : List Nat) (R : Nat) (ns : List (Node T)) :
    (compressed l R ns).map (fun n => n.addr) = ns.map (fun n => n.addr) := by
  unfold compressed
  exact map_addr_map _ (fun n => by by_cases h : n.addr ∈ l ∧ n.addr ≠ R <;> simp [h])

theorem length_compressed (l : List Nat) (R : Nat) (ns : List (Node T)) :
    (compressed l R ns).length = ns.length := by
  simp [compressed]

/-- Redirecting nodes to their own root keeps every root. -/
theorem RootOf.redirect {P Q : Nat → Option Nat}
    (hQ : ∀ z, Q z = P z ∨ ∃ r, RootOf P z r ∧ Q z = some r) {x r : Nat}
    (h : RootOf P x r) : RootOf Q x r := by
  have hroot : ∀ z, P z = some z → Q z = some z := by
    intro z hz
    rcases hQ z with h1 | ⟨r', h1, h2⟩
    · rw [h1, hz]
    · rw [h2, h1.of_root hz]
  induction h with
  | root hx => exact RootOf.root (hroot _ hx)
  | @step x y r hy hne hyr ih =>
    rcases hQ x with h1 | ⟨r', h1, h2⟩
    · exact RootOf.step (h1.trans hy) hne ih
    · have hr : r' = r := RootOf.unique h1 (RootOf.step hy hne hyr)
      subst hr
      exact RootOf.of_parent h2 (RootOf.root (hroot _ hyr.isRoot))

theorem pathToRoot_rootOf {ns : List (Node T)} {k x R : Nat} {l : List Nat}
    (h : pathToRoot ns k x = some l) (hR : l.getLast? = some R) :
    ∀ y ∈ l, RootOf (parentOf ns) y R := by
  intro y hy
  obtain ⟨l', h1, _, _, h4⟩ := pathToRoot_mem h y hy
  exact rootOf_of_findRoot (findRoot_eq_some_iff.2 ⟨l', h1, h4.trans hR⟩)

theorem rootOf_compressed {ns : List (Node T)} {k x R : Nat} {l : List Nat}
    (h : pathToRoot ns k x = some l) (hR : l.getLast? = some R) {z r : Nat}
    (hz : RootOf (parentOf ns) z r) : RootOf (parentOf (compressed l R ns)) z r := by
  apply RootOf.redirect _ hz
  intro y
  rw [parentOf_compressed]
  by_cases hy : y ∈ l ∧ y ≠ R
  · right
    have hyR := pathToRoot_rootOf h hR y hy.1
    obtain ⟨p, hp⟩ := hyR.live
    exact ⟨R, hyR, by simp [hy, hp]⟩
  · left
    simp [hy]

/-- What `find` does on a live node of a well-formed forest. -/
theorem find_spec {s : DisjointForest T} (hwf : WellFormed s) {x : Nat}
    (hx : x ∈ addrs s) :
    ∃ l R, pathToRoot s.nodes s.nodes.length x = some l ∧ l.getLast? = some R ∧
      rootOf s x = some R ∧
      find s (some x) = .ret R { s with nodes := compressed l R s.nodes } := by
  obtain ⟨R, hR⟩ := hwf.exists_root hx
  obtain ⟨l, hl, hlast⟩ := findRoot_eq_some_iff.1 hR
  refine ⟨l, R, hl, hlast, hR, ?_⟩
  unfold rootOf at hR
  simp only [find, hR, compressPath_eq R _ _ _ _ hwf.1 hl hlast]

theorem wellFormed_compressed {s : DisjointForest T} (hwf : WellFormed s) {k x R : Nat}
    {l : List Nat} (h : pathToRoot s.nodes k x = some l) (hR : l.getLast? = some R) :
    WellFormed { s with nodes := compressed l R s.nodes } := by
  rw [wellFormed_iff] at hwf ⊢
  simp only [addrs, addrs_compressed] at hwf ⊢
  refine ⟨hwf.1, fun z hz => ?_⟩
  obtain ⟨r, hr⟩ := hwf.2 z hz
  exact ⟨r, rootOf_compressed h hR hr⟩

theorem rootOf_compressed_eq {s : DisjointForest T} (hwf : WellFormed s) {k x R : Nat}
    {l : List Nat} (h : pathToRoot s.nodes k x = some l) (hR : l.getLast? = some R)
    (z : Nat) : rootOf { s with nodes := compressed l R s.nodes } z = rootOf s z := by
  by_cases hz : z ∈ addrs s
  · obtain ⟨r, hr⟩ := hwf.exists_root hz
    rw [hr]
    exact rootOf_eq_some_iff.2 (rootOf_compressed h hR (rootOf_eq_some_iff.1 hr))
  · have h1 : rootOf s z = none := by
      cases hr : rootOf s z with
      | none => rfl
      | some r => exact absurd (rootOf_mem_addrs hr).1 hz
    have h2 : rootOf { s with nodes := compressed l R s.nodes } z = none := by
      cases hr : rootOf { s with nodes := compressed l R s.nodes } z with
      | none => rfl
      | some r =>
        have := (rootOf_mem_addrs hr).1
        simp only [addrs, addrs_compressed] at this
        exact absurd this hz
    rw [h1, h2]

end DisjointForest

namespace DisjointForest

variable {T : Type}

/-! ### Linking two roots -/

theorem getNode_setRank (ns : List (Node T)) (p : Nat) (r : Int) (y : Nat) :
    getNode (setRank ns p r) y =
      (getNode ns y).map (fun n => if n.addr = p then { n with rank := r } else n) := by
  unfold setRank
  exact getNode_map _ (fun n => by by_cases h : n.addr = p <;> simp [h]) y

theorem parentOf_setRank (ns : List (Node T)) (p : Nat) (r : Int) (y : Nat) :
    parentOf (setRank ns p r) y = parentOf ns y := by
  unfold parentOf
  rw [getNode_setRank]
  cases h : getNode ns y with
  | none => simp
  | some n => by_cases hy : n.addr = p <;> simp [hy]

theorem addrs_setRank (ns : List (Node T)) (p : Nat) (r : Int) :
    (setRank ns p r).map (fun n => n.addr) = ns.map (fun n => n.addr) := by
  unfold setRank
  exact map_addr_map _ (fun n => by by_cases h : n.addr = p <;> simp [h])

/-- What `updateRank` returns when both pointers are live. -/
theorem updateRank_spec {ns : List (Node T)} {a b : Nat}
    (ha : a ∈ ns.map (fun n => n.addr)) (hb : b ∈ ns.map (fun n => n.addr)) :
    ∃ ns', updateRank ns a b = some ns' ∧
      ns'.map (fun n => n.addr) = ns.map (fun n => n.addr) ∧
      ∀ y, parentOf ns' y = parentOf ns y := by
  obtain ⟨n1, h1⟩ := Option.isSome_iff_exists.1 (getNode_isSome_iff.2 ha)
  obtain ⟨n2, h2⟩ := Option.isSome_iff_exists.1 (getNode_isSome_iff.2 hb)
  unfold updateRank
  simp only [h1, h2]
  by_cases hr : n1.rank = n2.rank
  · simp only [hr, if_true]
    exact ⟨_, rfl, addrs_setRank _ _ _, parentOf_setRank _ _ _⟩
  · simp only [hr, if_false]
    exact ⟨_, rfl, rfl, fun _ => rfl⟩

/-- Attaching the root `b` under the root `a` moves the class of `b` to the root `a` and
keeps every other root. -/
theorem RootOf.link {P Q : Nat → Option Nat} {a b : Nat} (ha : P a = some a)
    (hb : P b = some b) (hab : a ≠ b) (hQb : Q b = some a) (hQ : ∀ z, z ≠ b → Q z = P z) {x r : Nat}
    (h : RootOf P x r) : RootOf Q x (if r = b then a else r) := by
  have hra : RootOf Q a a := RootOf.root ((hQ a hab).trans ha)
  induction h with
  | @root x hx =>
    by_cases hxb : x = b
    · subst hxb
      simp only [if_true]
      exact RootOf.step hQb hab hra
    · simp only [hxb, if_false]
      exact RootOf.root ((hQ x hxb).trans hx)
  | @step x y r hy hne hyr ih =>
    by_cases hxb : x = b
    · subst hxb
      rw [hb] at hy
      exact absurd (Option.some.inj hy).symm hne
    · exact RootOf.step ((hQ x hxb).trans hy) hne ih

end DisjointForest

namespace DisjointForest

variable {T : Type}

theorem rootOf_eq_none_of_not_mem {s : DisjointForest T} {z : Nat} (hz : z ∉ addrs s) :
    rootOf s z = none := by
  cases hr : rootOf s z with
  | none => rfl
  | some r => exact absurd (rootOf_mem_addrs hr).1 hz

/-- The outcome of `find` on a live node of a well-formed forest: it returns the root, only
parent pointers change, the forest stays well-formed, and every node keeps its root. -/
theorem find_ok {s : DisjointForest T} (hwf : WellFormed s) {x : Nat} (hx : x ∈ addrs s) :
    ∃ R s', find s (some x) = .ret R s' ∧ rootOf s x = some R ∧ WellFormed s' ∧
      addrs s' = addrs s ∧ { s' with nodes := s.nodes } = s ∧
      (∀ z, rootOf s' z = rootOf s z) ∧ (∀ z, rankOf s'.nodes z = rankOf s.nodes z) := by
  obtain ⟨l, R, hl, hlast, hR, hfind⟩ := find_spec hwf hx
  refine ⟨R, _, hfind, hR, wellFormed_compressed hwf hl hlast, ?_, rfl,
    rootOf_compressed_eq hwf hl hlast, rankOf_compressed l R s.nodes⟩
  simp [addrs, addrs_compressed]

/-- The outcome of `unionSets` on live nodes of a well-formed forest: the root `b` of one
argument is attached under the root `a` of the other. -/
theorem unionSets_ok {s : DisjointForest T} (hwf : WellFormed s) {x y : Nat}
    (hx : x ∈ addrs s) (hy : y ∈ addrs s) :
    ∃ rx ry s', rootOf s x = some rx ∧ rootOf s y = some ry ∧
      unionSets s (some x) (some y) = .ret () s' ∧ WellFormed s' ∧ addrs s' = addrs s ∧
      { s' with nodes := s.nodes } = s ∧
      ∃ a b, ((a = rx ∧ b = ry) ∨ (a = ry ∧ b = rx)) ∧
        ∀ z, rootOf s' z = (rootOf s z).map (fun r => if r = b then a else r) := by
  obtain ⟨rx, s1, hf1, hrx, hwf1, ha1, hs1, hroot1, _⟩ := find_ok hwf hx
  obtain ⟨ry, s2, hf2, hry, hwf2, ha2, hs2, hroot2, _⟩ := find_ok hwf1 (ha1 ▸ hy)
  rw [hroot1] at hry
  have hroots : ∀ z, rootOf s2 z = rootOf s z := fun z => (hroot2 z).trans (hroot1 z)
  have hs2' : { s2 with nodes := s.nodes } = s := by
    rw [← hs1, ← hs2]
  refine ⟨rx, ry, ?_⟩
  unfold unionSets
  simp only [hf1, hf2]
  by_cases hxy : rx = ry
  · subst hxy
    refine ⟨s2, hrx, hry, by simp, hwf2, ha2.trans ha1, hs2', rx, rx, Or.inl ⟨rfl, rfl⟩, ?_⟩
    intro z
    rw [hroots]
    cases rootOf s z with
    | none => rfl
    | some r => by_cases h : r = rx <;> simp [h]
  · simp only [hxy, if_false]
    have hRx : RootOf (parentOf s2.nodes) x rx := rootOf_eq_some_iff.1 ((hroots x).trans hrx)
    have hRy : RootOf (parentOf s2.nodes) y ry := rootOf_eq_some_iff.1 ((hroots y).trans hry)
    have hpx := hRx.isRoot
    have hpy := hRy.isRoot
    obtain ⟨n1, hn1⟩ := Option.isSome_iff_exists.1
      (getNode_isSome_iff.2 (mem_addrs_of_parentOf hpx))
    obtain ⟨n2, hn2⟩ := Option.isSome_iff_exists.1
      (getNode_isSome_iff.2 (mem_addrs_of_parentOf hpy))
    simp only [hn1, hn2]
    -- the two roots after the swap
    generalize ha : (if n1.rank > n2.rank then ry else rx) = a
    generalize hb : (if n1.rank > n2.rank then rx else ry) = b
    have hab : ((a = rx ∧ b = ry) ∨ (a = ry ∧ b = rx)) := by
      by_cases hr : n1.rank > n2.rank
      · simp only [hr, if_true] at ha hb; exact Or.inr ⟨ha.symm, hb.symm⟩
      · simp only [hr, if_false] at ha hb; exact Or.inl ⟨ha.symm, hb.symm⟩
    have hne : a ≠ b := by
      rcases hab with ⟨h1, h2⟩ | ⟨h1, h2⟩
      · rw [h1, h2]; exact hxy
      · rw [h1, h2]; exact fun h => hxy h.symm
    have hPa : parentOf s2.nodes a = some a := by
      rcases hab with ⟨h1, _⟩ | ⟨h1, _⟩ <;> rw [h1] <;> assumption
    have hPb : parentOf s2.nodes b = some b := by
      rcases hab with ⟨_, h2⟩ | ⟨_, h2⟩ <;> rw [h2] <;> assumption
    have hla : a ∈ (setParent s2.nodes b a).map (fun n => n.addr) := by
      rw [addrs_setParent]; exact mem_addrs_of_parentOf hPa
    have hlb : b ∈ (setParent s2.nodes b a).map (fun n => n.addr) := by
      rw [addrs_setParent]; exact mem_addrs_of_parentOf hPb
    obtain ⟨ns', hup, haddr, hpar⟩ := updateRank_spec hla hlb
    simp only [hup]
    have hQb : parentOf ns' b = some a := by
      rw [hpar, parentOf_setParent]; simp [hPb]
    have hQ : ∀ z, z ≠ b → parentOf ns' z = parentOf s2.nodes z := by
      intro z hz
      rw [hpar, parentOf_setParent]; simp [hz]
    have haddrs : addrs { s2 with nodes := ns' } = addrs s := by
      simp only [addrs, haddr, addrs_setParent]
      exact ha2.trans ha1
    have hmap : ∀ z r, rootOf s z = some r →
        rootOf { s2 with nodes := ns' } z = some (if r = b then a else r) := by
      intro z r hz
      apply rootOf_eq_some_iff.2
      exact RootOf.link hPa hPb hne hQb hQ (rootOf_eq_some_iff.1 ((hroots z).trans hz))
    refine ⟨{ s2 with nodes := ns' }, hrx, hry, rfl, ?_, haddrs, hs2', a, b, hab, ?_⟩
    · refine ⟨?_, ?_⟩
      · rw [haddrs]; exact hwf.1
      · intro z hz
        rw [haddrs] at hz
        obtain ⟨r, hr⟩ := hwf.exists_root hz
        rw [hmap z r hr]; rfl
    · intro z
      by_cases hz : z ∈ addrs s
      · obtain ⟨r, hr⟩ := hwf.exists_root hz
        rw [hmap z r hr, hr]; rfl
      · rw [rootOf_eq_none_of_not_mem hz, rootOf_eq_none_of_not_mem (haddrs ▸ hz)]; rfl

end DisjointForest

namespace DisjointForest

variable {T : Type}

/-- The loop bound in `find` loses nothing: in a forest with pairwise different addresses,
whenever the first loop reaches a root with some bound, `find` returns. -/
theorem find_bound_adequate {s : DisjointForest T} (hnd : (addrs s).Nodup) {x k R : Nat}
    (h : findRoot s.nodes k x = some R) :
    ∃ s', find s (some x) = .ret R s' := by
  have h1 := findRoot_size h
  obtain ⟨l, hl, hlast⟩ := findRoot_eq_some_iff.1 h1
  refine ⟨{ s with nodes := compressed l R s.nodes }, ?_⟩
  simp only [find, h1, compressPath_eq R _ _ _ _ hnd hl hlast]

end DisjointForest

namespace DisjointForest

variable {T : Type}

/-! ### Contraction -/

theorem promoteLoop_some (x q : Nat) (ns : List (Node T)) :
    promoteLoop x ns (some q) = reparentLoop x q ns := by
  induction ns with
  | nil => rfl
  | cons a rest ih =>
    unfold reparentLoop at ih ⊢
    rw [promoteLoop]
    by_cases h : a.addr ≠ x ∧ a.parent = x
    · simp only [h, and_self, if_true, List.map_cons, ne_eq, not_false_eq_true]
      rw [ih]
    · simp only [h, if_false, List.map_cons]
      rw [ih]

theorem promoteLoop_none (x : Nat) (ns : List (Node T)) :
    promoteLoop x ns none =
      match ns.find? (fun m => decide (m.addr ≠ x ∧ m.parent = x)) with
      | none => ns
      | some c => reparentLoop x c.addr ns := by
  induction ns with
  | nil => rfl
  | cons a rest ih =>
    rw [promoteLoop, List.find?_cons]
    by_cases h : a.addr ≠ x ∧ a.parent = x
    · simp only [h, and_self, if_true, decide_True, ne_eq, not_false_eq_true]
      rw [promoteLoop_some]
      simp [reparentLoop, h]
    · simp only [h, if_false, decide_False]
      rw [ih]
      cases hc : rest.find? (fun m => decide (m.addr ≠ x ∧ m.parent = x)) with
      | none => rfl
      | some c => simp [reparentLoop, h]

theorem reparentLoop_eq_self_of_no_child (x q : Nat) (ns : List (Node T))
    (h : ns.find? (fun m => decide (m.addr ≠ x ∧ m.parent = x)) = none) :
    reparentLoop x q ns = ns := by
  unfold reparentLoop
  apply map_eq_self
  intro m hm
  have := List.find?_eq_none.1 h m hm
  simp only [decide_eq_true_eq] at this
  simp [this]

/-- The two branches of `contract` as one reparenting step followed by the removal. -/
theorem contract_eq {s : DisjointForest T} {x : Nat} (hx : x ∈ addrs s) :
    contract s (some x) =
      .ret () (eraseNode { s with nodes := reparentLoop x (newParent s.nodes x) s.nodes } x) := by
  obtain ⟨n, hn⟩ := Option.isSome_iff_exists.1 (getNode_isSome_iff.2 hx)
  unfold contract newParent
  simp only [hn]
  by_cases hroot : n.parent = x
  · simp only [hroot, if_true]
    rw [promoteLoop_none]
    cases hc : s.nodes.find? (fun m => decide (m.addr ≠ x ∧ m.parent = x)) with
    | none => simp only []; rw [reparentLoop_eq_self_of_no_child x x s.nodes hc]
    | some c => rfl
  · simp only [hroot, if_false]

theorem eraseIdx_findIdx {ns : List (Node T)} (x : Nat)
    (hnd : (ns.map (fun n => n.addr)).Nodup) :
    (match ns.findIdx? (fun n => decide (n.addr = x)) with
      | some i => ns.eraseIdx i
      | none => ns) = ns.filter (fun n => decide (n.addr ≠ x)) := by
  induction ns with
  | nil => rfl
  | cons a rest ih =>
    simp only [List.map_cons, List.nodup_cons] at hnd
    rw [List.findIdx?_cons, List.filter_cons]
    by_cases ha : a.addr = x
    · simp only [ha, decide_True, if_true, List.eraseIdx_cons_zero, ne_eq, not_true_eq_false,
        decide_False, Bool.false_eq_true, if_false]
      symm
      apply List.filter_eq_self.2
      intro m hm
      have : m.addr ≠ x := by
        intro he
        exact hnd.1 (by rw [ha, ← he]; exact List.mem_map_of_mem _ hm)
      simp [this]
    · simp only [ha, decide_False, Bool.false_eq_true, if_false, ne_eq, not_false_eq_true,
        decide_True, if_true, List.findIdx?_succ, Nat.zero_add]
      have ih' := ih hnd.2
      cases hf : rest.findIdx? (fun n => decide (n.addr = x)) with
      | none => simp only [hf] at ih'; simpa using ih'
      | some i => simp only [hf] at ih'; simpa using ih'

theorem eraseNode_nodes {s : DisjointForest T} (x : Nat) (hnd : (addrs s).Nodup) :
    (eraseNode s x).nodes = s.nodes.filter (fun n => decide (n.addr ≠ x)) := by
  rw [← eraseIdx_findIdx x hnd]
  unfold eraseNode
  cases s.nodes.findIdx? (fun n => decide (n.addr = x)) <;> rfl

theorem getNode_filter_ne (ns : List (Node T)) (x y : Nat) :
    getNode (ns.filter (fun n => decide (n.addr ≠ x))) y =
      if y = x then none else getNode ns y := by
  unfold getNode
  rw [List.find?_filter]
  by_cases hy : y = x
  · subst hy
    simp only [if_true]
    apply List.find?_eq_none.2
    intro m _
    by_cases h : m.addr = y <;> simp [h]
  · simp only [hy, if_false]
    congr 1
    funext m
    by_cases h : m.addr = y
    · simp [h, hy]
    · simp [h]

theorem getNode_reparentLoop (x q : Nat) (ns : List (Node T)) (y : Nat) :
    getNode (reparentLoop x q ns) y =
      (getNode ns y).map (fun n =>
        if n.addr ≠ x ∧ n.parent = x then { n with parent := q } else n) := by
  unfold reparentLoop
  exact getNode_map _ (fun n => by by_cases h : n.addr ≠ x ∧ n.parent = x <;> simp [h]) y

theorem addrs_reparentLoop (x q : Nat) (ns : List (Node T)) :
    (reparentLoop x q ns).map (fun n => n.addr) = ns.map (fun n => n.addr) := by
  unfold reparentLoop
  exact map_addr_map _ (fun n => by by_cases h : n.addr ≠ x ∧ n.parent = x <;> simp [h])

theorem parentOf_reparentLoop (x q : Nat) (ns : List (Node T)) (y : Nat) :
    parentOf (reparentLoop x q ns) y =
      if y ≠ x ∧ parentOf ns y = some x then some q else parentOf ns y := by
  unfold parentOf
  rw [getNode_reparentLoop]
  cases h : getNode ns y with
  | none => simp
  | some n =>
    have hn := (getNode_some h).1
    subst hn
    by_cases hy : n.addr ≠ x ∧ n.parent = x
    · simp [hy]
    · simp only [Option.map_some', hy, if_false, Option.some.injEq]

/-- The nodes after `contract(x)` in a forest with pairwise different addresses. -/
theorem contract_nodes {s : DisjointForest T} (hnd : (addrs s).Nodup) {x : Nat}
    (hx : x ∈ addrs s) :
    ∃ s', contract s (some x) = .ret () s' ∧
      s'.nodes = (reparentLoop x (newParent s.nodes x) s.nodes).filter
        (fun n => decide (n.addr ≠ x)) ∧
      s'.next_id = s.next_id ∧ s'.nodesCap = s.nodesCap ∧ s'.ranksCap = s.ranksCap := by
  refine ⟨_, contract_eq hx, ?_, ?_, ?_, ?_⟩
  · rw [eraseNode_nodes]
    simp only [addrs, addrs_reparentLoop]
    exact hnd
  all_goals
    unfold eraseNode
    cases List.findIdx? (fun n => decide (n.addr = x))
      (reparentLoop x (newParent s.nodes x) s.nodes) <;> rfl

/-- The parent links after `contract(x)`. -/
theorem parentOf_contract {s s' : DisjointForest T} {x : Nat}
    (hs' : s'.nodes = (reparentLoop x (newParent s.nodes x) s.nodes).filter
        (fun n => decide (n.addr ≠ x))) (y : Nat) :
    parentOf s'.nodes y =
      if y = x then none
      else if parentOf s.nodes y = some x then some (newParent s.nodes x)
      else parentOf s.nodes y := by
  rw [hs']
  unfold parentOf
  rw [getNode_filter_ne]
  by_cases hy : y = x
  · simp [hy]
  · simp only [hy, if_false]
    have := parentOf_reparentLoop x (newParent s.nodes x) s.nodes y
    unfold parentOf at this
    rw [this]
    simp [hy]

end DisjointForest

namespace DisjointForest

variable {T : Type}

/-- The three situations of `contract(x)` on a live node: `x` is not a root; `x` is a root
with a direct child; `x` is a root without a direct child. -/
theorem newParent_cases {ns : List (Node T)} (hnd : (ns.map (fun n => n.addr)).Nodup)
    {x : Nat} (hx : x ∈ ns.map (fun n => n.addr)) :
    (parentOf ns x = some (newParent ns x) ∧ newParent ns x ≠ x) ∨
    (parentOf ns x = some x ∧ parentOf ns (newParent ns x) = some x ∧ newParent ns x ≠ x) ∨
    (parentOf ns x = some x ∧ newParent ns x = x ∧ ∀ z, z ≠ x → parentOf ns z ≠ some x) := by
  obtain ⟨n, hn⟩ := Option.isSome_iff_exists.1 (getNode_isSome_iff.2 hx)
  have hP : parentOf ns x = some n.parent := by simp [parentOf, hn]
  unfold newParent
  simp only [hn]
  by_cases hroot : n.parent = x
  · simp only [hroot, if_true]
    rw [hroot] at hP
    right
    cases hc : ns.find? (fun m => decide (m.addr ≠ x ∧ m.parent = x)) with
    | none =>
      right
      refine ⟨hP, rfl, ?_⟩
      intro z hz hPz
      unfold parentOf at hPz
      obtain ⟨m, hm, hmp⟩ := Option.map_eq_some'.1 hPz
      obtain ⟨hma, hmem⟩ := getNode_some hm
      have := List.find?_eq_none.1 hc m hmem
      simp only [decide_eq_true_eq] at this
      exact this ⟨hma ▸ hz, hmp⟩
    | some c =>
      left
      have h1 := List.find?_some hc
      have h2 := List.mem_of_find?_eq_some hc
      simp only [decide_eq_true_eq] at h1
      refine ⟨hP, ?_, h1.1⟩
      simp [parentOf, getNode_of_mem hnd h2, h1.2]
  · simp only [hroot, if_false]
    exact Or.inl ⟨hP, hroot⟩

/-- Roots after the removal of `x`, whose direct children are moved to `q`: only the root
`x` itself is replaced, by `q`. -/
theorem RootOf.contract {P Q : Nat → Option Nat} {x q : Nat}
    (hcase : (P x = some q ∧ q ≠ x) ∨ (P x = some x ∧ P q = some x ∧ q ≠ x) ∨
      (P x = some x ∧ q = x ∧ ∀ z, z ≠ x → P z ≠ some x))
    (hQ : ∀ z, z ≠ x → Q z = if P z = some x then some q else P z) {z r : Nat}
    (h : RootOf P z r) :
    RootOf Q (if z = x then q else z) (if r = x then q else r) ∨ (z = x ∧ P x = some x) := by
  induction h with
  | @root z hz =>
    by_cases hzx : z = x
    · exact Or.inr ⟨hzx, hzx ▸ hz⟩
    · left
      simp only [hzx, if_false]
      apply RootOf.root
      rw [hQ z hzx, hz]
      simp [hzx]
  | @step z y r hy hne hyr ih =>
    by_cases hzx : z = x
    · subst hzx
      rcases hcase with ⟨h1, h2⟩ | ⟨h1, _⟩ | ⟨h1, _⟩
      · rw [h1] at hy
        cases Option.some.inj hy
        left
        simp only [if_true]
        rcases ih with ih | ⟨h3, _⟩
        · simpa [h2] using ih
        · exact absurd h3 h2
      · rw [h1] at hy; exact absurd (Option.some.inj hy).symm hne
      · rw [h1] at hy; exact absurd (Option.some.inj hy).symm hne
    · left
      simp only [hzx, if_false]
      by_cases hyx : y = x
      · subst hyx
        have hQz : Q z = some q := by rw [hQ z hzx, hy]; simp
        rcases ih with ih | ⟨_, h3⟩
        · simp only [if_true] at ih
          exact RootOf.of_parent hQz ih
        · have hr : r = y := hyr.of_root h3
          subst hr
          simp only [if_true]
          rcases hcase with ⟨h1, h2⟩ | ⟨_, h1, h2⟩ | ⟨_, _, h1⟩
          · rw [h1] at h3; exact absurd (Option.some.inj h3) h2
          · have : Q q = some q := by rw [hQ q h2, h1]; simp
            exact RootOf.of_parent hQz (RootOf.root this)
          · exact absurd hy (h1 z hzx)
      · have hQz : Q z = some y := by
          rw [hQ z hzx, hy]
          simp [hyx]
        rcases ih with ih | ⟨h3, _⟩
        · simp only [hyx, if_false] at ih
          exact RootOf.step hQz hne ih
        · exact absurd h3 hyx

/-- A root other than `x` is not the node that replaces `x`. -/
theorem newParent_ne_root {P : Nat → Option Nat} {x q r : Nat}
    (hcase : (P x = some q ∧ q ≠ x) ∨ (P x = some x ∧ P q = some x ∧ q ≠ x) ∨
      (P x = some x ∧ q = x ∧ ∀ z, z ≠ x → P z ≠ some x))
    (hx : P x = some x) (hr : P r = some r) (hrx : r ≠ x) : q ≠ r := by
  rcases hcase with ⟨h1, h2⟩ | ⟨_, h1, _⟩ | ⟨_, h1, _⟩
  · rw [hx] at h1; exact absurd (Option.some.inj h1).symm h2
  · intro he; rw [he, hr] at h1; exact hrx (Option.some.inj h1)
  · rw [h1]; exact fun he => hrx he.symm

end DisjointForest

namespace DisjointForest

variable {T : Type}

/-- The outcome of `contract` on a live node of a well-formed forest. -/
theorem contract_ok {s : DisjointForest T} (hwf : WellFormed s) {x : Nat}
    (hx : x ∈ addrs s) :
    ∃ s', contract s (some x) = .ret () s' ∧ WellFormed s' ∧
      addrs s' = (addrs s).filter (fun a => decide (a ≠ x)) ∧
      s'.nodes = (reparentLoop x (newParent s.nodes x) s.nodes).filter
        (fun n => decide (n.addr ≠ x)) ∧
      (∀ z, z ≠ x → rootOf s' z =
        (rootOf s z).map (fun r => if r = x then newParent s.nodes x else r)) ∧
      (∀ z₁ z₂, z₁ ∈ addrs s → z₂ ∈ addrs s → z₁ ≠ x → z₂ ≠ x →
        (rootOf s' z₁ = rootOf s' z₂ ↔ rootOf s z₁ = rootOf s z₂)) := by
  obtain ⟨s', hc, hnodes, _, _, _⟩ := contract_nodes hwf.1 hx
  have hcase := newParent_cases hwf.1 hx
  have hQ : ∀ z, z ≠ x → parentOf s'.nodes z =
      if parentOf s.nodes z = some x then some (newParent s.nodes x)
      else parentOf s.nodes z := by
    intro z hz
    rw [parentOf_contract hnodes]
    simp [hz]
  have haddrs : addrs s' = (addrs s).filter (fun a => decide (a ≠ x)) := by
    simp only [addrs, hnodes]
    rw [← addrs_reparentLoop x (newParent s.nodes x) s.nodes, List.filter_map]
    rfl
  have hcase' : (parentOf s.nodes x = some (newParent s.nodes x) ∧ newParent s.nodes x ≠ x) ∨
      (parentOf s.nodes x = some x ∧ parentOf s.nodes (newParent s.nodes x) = some x ∧
        newParent s.nodes x ≠ x) ∨
      (parentOf s.nodes x = some x ∧ newParent s.nodes x = x ∧
        ∀ z, z ≠ x → parentOf s.nodes z ≠ some x) := hcase
  have hmap : ∀ z r, z ≠ x → rootOf s z = some r →
      rootOf s' z = some (if r = x then newParent s.nodes x else r) := by
    intro z r hz hr
    apply rootOf_eq_some_iff.2
    rcases RootOf.contract hcase' hQ (rootOf_eq_some_iff.1 hr) with h | ⟨h, _⟩
    · simpa [hz] using h
    · exact absurd h hz
  have hroots : ∀ z, z ≠ x → rootOf s' z =
      (rootOf s z).map (fun r => if r = x then newParent s.nodes x else r) := by
    intro z hz
    by_cases hzl : z ∈ addrs s
    · obtain ⟨r, hr⟩ := hwf.exists_root hzl
      rw [hmap z r hz hr, hr]; rfl
    · have : z ∉ addrs s' := by
        rw [haddrs]
        exact fun h => hzl (List.mem_filter.1 h).1
      rw [rootOf_eq_none_of_not_mem hzl, rootOf_eq_none_of_not_mem this]; rfl
  refine ⟨s', hc, ⟨?_, ?_⟩, haddrs, hnodes, hroots, ?_⟩
  · rw [haddrs]; exact hwf.1.filter _
  · intro z hz
    rw [haddrs] at hz
    obtain ⟨hz1, hz2⟩ := List.mem_filter.1 hz
    simp only [decide_eq_true_eq] at hz2
    obtain ⟨r, hr⟩ := hwf.exists_root hz1
    rw [hmap z r hz2 hr]; rfl
  · intro z₁ z₂ h1 h2 hz1 hz2
    obtain ⟨r1, hr1⟩ := hwf.exists_root h1
    obtain ⟨r2, hr2⟩ := hwf.exists_root h2
    rw [hmap z₁ r1 hz1 hr1, hmap z₂ r2 hz2 hr2, hr1, hr2]
    simp only [Option.some.injEq]
    have hR1 := (rootOf_eq_some_iff.1 hr1).isRoot
    have hR2 := (rootOf_eq_some_iff.1 hr2).isRoot
    constructor
    · intro h
      by_cases e1 : r1 = x <;> by_cases e2 : r2 = x
      · rw [e1, e2]
      · simp only [e1, e2, if_true, if_false] at h
        exact absurd h (newParent_ne_root hcase' (e1 ▸ hR1) hR2 e2)
      · simp only [e1, e2, if_true, if_false] at h
        exact absurd h.symm (newParent_ne_root hcase' (e2 ▸ hR2) hR1 e1)
      · simpa [e1, e2] using h
    · intro h; rw [h]

end DisjointForest

namespace DisjointForest

variable {T : Type}

/-! ### `makeSet` -/

theorem addrs_makeSet (s : DisjointForest T) (p : Nat) (d : T) :
    addrs (makeSet s p d).2 = addrs s ++ [p] := by
  simp [addrs, makeSet]

theorem getNode_append_of_mem {ns ms : List (Node T)} {z : Nat}
    (hz : z ∈ ns.map (fun n => n.addr)) : getNode (ns ++ ms) z = getNode ns z := by
  obtain ⟨n, hn⟩ := Option.isSome_iff_exists.1 (getNode_isSome_iff.2 hz)
  unfold getNode at hn ⊢
  rw [List.find?_append, hn]
  rfl

theorem getNode_append_of_not_mem {ns ms : List (Node T)} {z : Nat}
    (hz : z ∉ ns.map (fun n => n.addr)) : getNode (ns ++ ms) z = getNode ms z := by
  have hn := getNode_eq_none_iff.2 hz
  unfold getNode at hn ⊢
  rw [List.find?_append, hn]
  rfl

theorem parentOf_makeSet_old {s : DisjointForest T} {p : Nat} {d : T} {z : Nat}
    (hz : z ∈ addrs s) : parentOf (makeSet s p d).2.nodes z = parentOf s.nodes z := by
  unfold parentOf
  simp only [makeSet]
  rw [getNode_append_of_mem hz]

theorem rankOf_makeSet_old {s : DisjointForest T} {p : Nat} {d : T} {z : Nat}
    (hz : z ∈ addrs s) : rankOf (makeSet s p d).2.nodes z = rankOf s.nodes z := by
  unfold rankOf
  simp only [makeSet]
  rw [getNode_append_of_mem hz]

theorem getNode_makeSet_new {s : DisjointForest T} {p : Nat} {d : T} (hp : p ∉ addrs s) :
    getNode (makeSet s p d).2.nodes p =
      some { addr := p, data := d, parent := p, rank := 0 } := by
  simp only [makeSet]
  rw [getNode_append_of_not_mem hp]
  simp [getNode]

theorem parentOf_makeSet_new {s : DisjointForest T} {p : Nat} {d : T} (hp : p ∉ addrs s) :
    parentOf (makeSet s p d).2.nodes p = some p := by
  simp [parentOf, getNode_makeSet_new hp]

theorem RootOf.mono {P Q : Nat → Option Nat} (hPQ : ∀ z y, P z = some y → Q z = some y)
    {x r : Nat} (h : RootOf P x r) : RootOf Q x r := by
  induction h with
  | root h => exact RootOf.root (hPQ _ _ h)
  | step h hne _ ih => exact RootOf.step (hPQ _ _ h) hne ih

/-- The outcome of `makeSet` with a fresh address on a well-formed forest. -/
theorem makeSet_ok {s : DisjointForest T} (hwf : WellFormed s) {p : Nat} (hp : p ∉ addrs s)
    (d : T) :
    WellFormed (makeSet s p d).2 ∧ (makeSet s p d).1 = p ∧
      rootOf (makeSet s p d).2 p = some p ∧
      ∀ z ∈ addrs s, rootOf (makeSet s p d).2 z = rootOf s z := by
  have hold : ∀ z r, rootOf s z = some r → rootOf (makeSet s p d).2 z = some r := by
    intro z r hr
    apply rootOf_eq_some_iff.2
    apply RootOf.mono _ (rootOf_eq_some_iff.1 hr)
    intro a b hab
    rw [parentOf_makeSet_old (mem_addrs_of_parentOf hab)]
    exact hab
  have hnew : rootOf (makeSet s p d).2 p = some p :=
    rootOf_eq_some_iff.2 (RootOf.root (parentOf_makeSet_new hp))
  refine ⟨⟨?_, ?_⟩, rfl, hnew, ?_⟩
  · rw [addrs_makeSet]
    exact List.Nodup.append hwf.1 (List.nodup_singleton p) (by simpa using hp)
  · intro z hz
    rw [addrs_makeSet] at hz
    rcases List.mem_append.1 hz with h | h
    · obtain ⟨r, hr⟩ := hwf.exists_root h
      rw [hold z r hr]; rfl
    · have : z = p := by simpa using h
      rw [this, hnew]; rfl
  · intro z hz
    obtain ⟨r, hr⟩ := hwf.exists_root hz
    rw [hold z r hr, hr]

theorem wellFormed_empty : WellFormed (empty : DisjointForest T) := by
  refine ⟨?_, ?_⟩
  · simp [addrs, empty]
  · intro x hx
    simp [addrs, empty] at hx

/-! ### Classes -/

/-- The test `find(a) == find(b)` compares the roots. -/
theorem sameSet_eq {s : DisjointForest T} (hwf : WellFormed s) {a b : Nat}
    (ha : a ∈ addrs s) (hb : b ∈ addrs s) :
    ∃ ra rb, rootOf s a = some ra ∧ rootOf s b = some rb ∧
      sameSet s a b = some (decide (ra = rb)) := by
  obtain ⟨ra, s1, hf1, hra, hwf1, ha1, _, hroot1, _⟩ := find_ok hwf ha
  obtain ⟨rb, s2, hf2, hrb, _⟩ := find_ok hwf1 (ha1 ▸ hb)
  rw [hroot1] at hrb
  refine ⟨ra, rb, hra, hrb, ?_⟩
  simp [sameSet, hf1, hf2]

theorem sameSet_iff {s : DisjointForest T} (hwf : WellFormed s) {a b : Nat}
    (ha : a ∈ addrs s) (hb : b ∈ addrs s) :
    sameSet s a b = some (decide (rootOf s a = rootOf s b)) := by
  obtain ⟨ra, rb, h1, h2, h3⟩ := sameSet_eq hwf ha hb
  rw [h3, h1, h2]
  simp

/-- Renaming the root `b` to `a` identifies exactly the two classes. -/
theorem link_eq_iff {a b r r' : Nat} :
    ((if r = b then a else r) = (if r' = b then a else r')) ↔
      r = r' ∨ ((r = a ∨ r = b) ∧ (r' = a ∨ r' = b)) := by
  split_ifs <;> omega

end DisjointForest

namespace DisjointForest

variable {T : Type}

/-! ### `find` -/

theorem rootOf_iff_reaches {s : DisjointForest T} {x r : Nat} :
    RootOf (parentOf s.nodes) x r ↔
      Relation.ReflTransGen (ParentStep s) x r ∧ parentOf s.nodes r = some r := by
  constructor
  · intro h
    refine ⟨?_, h.isRoot⟩
    induction h with
    | root _ => exact Relation.ReflTransGen.refl
    | step hy _ _ ih => exact Relation.ReflTransGen.head hy ih
  · rintro ⟨h, hr⟩
    induction h using Relation.ReflTransGen.head_induction_on with
    | refl => exact RootOf.root hr
    | head hab _ ih => exact RootOf.of_parent hab ih

theorem compressed_eq_self {l : List Nat} {R : Nat} {ns : List (Node T)}
    (hnd : (ns.map (fun n => n.addr)).Nodup)
    (h : ∀ y ∈ l, y ≠ R → parentOf ns y = some R) : compressed l R ns = ns := by
  unfold compressed
  apply map_eq_self
  intro m hm
  by_cases hc : m.addr ∈ l ∧ m.addr ≠ R
  · have h1 := h m.addr hc.1 hc.2
    simp only [parentOf, getNode_of_mem hnd hm, Option.map_some', Option.some.injEq] at h1
    simp only [hc, and_self, if_true, ne_eq, not_false_eq_true]
    cases m
    simp_all
  · simp [hc]

/-- A node whose parent is the root `R` has the path `[x, R]`. -/
theorem pathToRoot_child {ns : List (Node T)} {k x R : Nat} {l : List Nat}
    (h : pathToRoot ns k x = some l) (hx : parentOf ns x = some R)
    (hR : parentOf ns R = some R) : ∀ y ∈ l, y = x ∨ y = R := by
  cases k with
  | zero => simp [pathToRoot] at h
  | succ k =>
    rw [pathToRoot_succ] at h
    simp only [hx] at h
    by_cases hRx : R = x
    · simp only [hRx, if_true, Option.some.injEq] at h
      subst h
      intro y hy
      exact Or.inl (by simpa using hy)
    · simp only [hRx, if_false, Option.map_eq_some'] at h
      obtain ⟨l1, hl1, rfl⟩ := h
      have := pathToRoot_of_isRoot hl1 hR
      subst this
      intro y hy
      simpa using hy

/-- C3. On a well-formed forest `find` on a live node `N` returns: the result `R` is reached
from `N` along parent links and is its own parent, it is the only self-parented node so
reached, it is its own parent in the state after the call, and a self-parented `N` (in
particular the node of a singleton class) is returned itself. -/
theorem find_returns_root (s : DisjointForest T) (hwf : WellFormed s) (N : Nat)
    (hN : N ∈ addrs s) :
    ∃ R s', find s (some N) = .ret R s' ∧
      Relation.ReflTransGen (ParentStep s) N R ∧ parentOf s.nodes R = some R ∧
      (∀ R', Relation.ReflTransGen (ParentStep s) N R' → parentOf s.nodes R' = some R' →
        R' = R) ∧
      parentOf s'.nodes R = some R ∧
      (parentOf s.nodes N = some N → R = N) := by
  obtain ⟨R, s', hf, hR, _, _, _, hroots, _⟩ := find_ok hwf hN
  have h1 := rootOf_eq_some_iff.1 hR
  have h2 := rootOf_iff_reaches.1 h1
  refine ⟨R, s', hf, h2.1, h2.2, ?_, ?_, ?_⟩
  · intro R' hreach hself
    exact RootOf.unique (rootOf_iff_reaches.2 ⟨hreach, hself⟩) h1
  · have : rootOf s' R = some R := by
      rw [hroots]
      exact rootOf_eq_some_iff.2 (RootOf.root h2.2)
    exact (rootOf_eq_some_iff.1 this).isRoot
  · intro hself
    exact h1.of_root hself

/-- Instance of C3 on the chain 4 → 3 → 2 → 1. -/
theorem find_returns_root_witness :
    WellFormed chain4 ∧ 4 ∈ addrs chain4 ∧
    ∃ R s', find chain4 (some 4) = .ret R s' ∧
      Relation.ReflTransGen (ParentStep chain4) 4 R ∧ parentOf chain4.nodes R = some R ∧
      (∀ R', Relation.ReflTransGen (ParentStep chain4) 4 R' →
        parentOf chain4.nodes R' = some R' → R' = R) ∧
      parentOf s'.nodes R = some R ∧
      (parentOf chain4.nodes 4 = some 4 → R = 4) :=
  ⟨by decide, by decide, find_returns_root chain4 (by decide) 4 (by decide)⟩

/-- The state after `find` on a live node of a well-formed forest, with the path walked. -/
theorem find_path {s : DisjointForest T} (hwf : WellFormed s) {N : Nat} (hN : N ∈ addrs s) :
    ∃ R s' l, find s (some N) = .ret R s' ∧
      pathToRoot s.nodes s.nodes.length N = some l ∧ l.getLast? = some R ∧
      WellFormed s' ∧ addrs s' = addrs s ∧
      (∀ M, parentOf s'.nodes M =
        if M ∈ l ∧ M ≠ R then (parentOf s.nodes M).map (fun _ => R)
        else parentOf s.nodes M) ∧
      (∀ M ∈ l, rootOf s' M = some R) ∧ parentOf s'.nodes R = some R := by
  obtain ⟨l, R, hl, hlast, hR, hfind⟩ := find_spec hwf hN
  have hwf' := wellFormed_compressed hwf hl hlast
  have hroots := rootOf_compressed_eq hwf hl hlast
  refine ⟨R, _, l, hfind, hl, hlast, hwf', by simp [addrs, addrs_compressed],
    parentOf_compressed l R s.nodes, ?_, ?_⟩
  · intro M hM
    rw [hroots]
    exact rootOf_eq_some_iff.2 (pathToRoot_rootOf hl hlast M hM)
  · have hRR := pathToRoot_last_isRoot hl hlast
    rw [parentOf_compressed]
    simp [hRR]

/-- C8. `find` is idempotent: after `find(A)` has returned `R` and left the state `s'`,
`find` on `R`, on `A` and on every node `M` of the path walked from `A` returns `R` and
leaves `s'` exactly as it is. -/
theorem find_idempotent (s : DisjointForest T) (hwf : WellFormed s) (A : Nat)
    (hA : A ∈ addrs s) :
    ∃ R s' l, find s (some A) = .ret R s' ∧
      pathToRoot s.nodes s.nodes.length A = some l ∧
      find s' (some R) = .ret R s' ∧ find s' (some A) = .ret R s' ∧
      ∀ M ∈ l, find s' (some M) = .ret R s' := by
  obtain ⟨R, s', l, hf, hl, hlast, hwf', haddr, hpar, hroot, hRR⟩ := find_path hwf hA
  have hlive := pathToRoot_live hl
  have key : ∀ M ∈ l, find s' (some M) = .ret R s' := by
    intro M hM
    have hM' : M ∈ addrs s' := by rw [haddr]; exact hlive hM
    obtain ⟨l', R', hl', hlast', hR', hfind'⟩ := find_spec hwf' hM'
    have hRR' : R' = R := by
      rw [hroot M hM] at hR'
      exact (Option.some.inj hR').symm
    subst hRR'
    rw [hfind']
    have hMpar : M ≠ R' → parentOf s'.nodes M = some R' := by
      intro hne
      rw [hpar]
      obtain ⟨p, hp⟩ := (pathToRoot_rootOf hl hlast M hM).live
      simp [hM, hne, hp]
    have hfix : compressed l' R' s'.nodes = s'.nodes := by
      apply compressed_eq_self hwf'.1
      intro y hy hyR
      by_cases hMR : M = R'
      · subst hMR
        have := pathToRoot_of_isRoot hl' hRR
        subst this
        simp only [List.mem_singleton] at hy
        exact absurd hy hyR
      · rcases pathToRoot_child hl' (hMpar hMR) hRR y hy with h | h
        · rw [h]; exact hMpar hMR
        · exact absurd h hyR
    rw [hfix]
  have hAl : A ∈ l := by
    obtain ⟨t, rfl⟩ := pathToRoot_head hl
    exact List.mem_cons_self _ _
  have hRl : R ∈ l := List.mem_of_getLast?_eq_some hlast
  exact ⟨R, s', l, hf, hl, key R hRl, key A hAl, key⟩

/-- Instance of C8 on the chain 4 → 3 → 2 → 1. -/
theorem find_idempotent_witness :
    WellFormed chain4 ∧ 4 ∈ addrs chain4 ∧
    ∃ R s' l, find chain4 (some 4) = .ret R s' ∧
      pathToRoot chain4.nodes chain4.nodes.length 4 = some l ∧
      find s' (some R) = .ret R s' ∧ find s' (some 4) = .ret R s' ∧
      ∀ M ∈ l, find s' (some M) = .ret R s' :=
  ⟨by decide, by decide, find_idempotent chain4 (by decide) 4 (by decide)⟩

/-- C9. Path compression: after `find(N)` every node on the path walked from `N`, other
than the root `R`, has parent `R`; `R` is still its own parent; every node off the path
has the parent it had before. -/
theorem find_compresses_path (s : DisjointForest T) (hwf : WellFormed s) (N : Nat)
    (hN : N ∈ addrs s) :
    ∃ R s' l, find s (some N) = .ret R s' ∧
      pathToRoot s.nodes s.nodes.length N = some l ∧ l.getLast? = some R ∧
      (∀ M ∈ l, M ≠ R → parentOf s'.nodes M = some R) ∧
      parentOf s'.nodes R = some R ∧
      (∀ M, M ∉ l → parentOf s'.nodes M = parentOf s.nodes M) := by
  obtain ⟨R, s', l, hf, hl, hlast, _, _, hpar, _, hRR⟩ := find_path hwf hN
  refine ⟨R, s', l, hf, hl, hlast, ?_, hRR, ?_⟩
  · intro M hM hne
    rw [hpar]
    obtain ⟨p, hp⟩ := (pathToRoot_rootOf hl hlast M hM).live
    simp [hM, hne, hp]
  · intro M hM
    rw [hpar]
    simp [hM]

/-- Instance of C9 on the chain 4 → 3 → 2 → 1 of the test `FindWithPathCompression`. -/
theorem find_compresses_path_witness :
    WellFormed chain4 ∧ 4 ∈ addrs chain4 ∧
    ∃ R s' l, find chain4 (some 4) = .ret R s' ∧
      pathToRoot chain4.nodes chain4.nodes.length 4 = some l ∧ l.getLast? = some R ∧
      (∀ M ∈ l, M ≠ R → parentOf s'.nodes M = some R) ∧
      parentOf s'.nodes R = some R ∧
      (∀ M, M ∉ l → parentOf s'.nodes M = parentOf chain4.nodes M) :=
  ⟨by decide, by decide, find_compresses_path chain4 (by decide) 4 (by decide)⟩

/-- The test `FindWithPathCompression` evaluated: `find(node4)` returns node 1 and the
nodes 2, 3 and 4 all point to node 1 afterwards. -/
theorem find_chain4 :
    find chain4 (some 4) = .ret 1
      { chain4 with nodes := [⟨1, 1, 1, 0⟩, ⟨2, 2, 1, 0⟩, ⟨3, 3, 1, 0⟩, ⟨4, 4, 1, 0⟩] } := by
  decide

/-- C10. `find` changes neither set membership nor rank: after `find(N)` the live nodes are
the same, every live node has the root it had before (so `find` on it returns the same node
as it would have before), and every rank, in the nodes and in the vector `ranks`, is as
before. -/
theorem find_preserves_roots_and_ranks (s : DisjointForest T) (hwf : WellFormed s) (N : Nat)
    (hN : N ∈ addrs s) :
    ∃ R s', find s (some N) = .ret R s' ∧ addrs s' = addrs s ∧
      (∀ M ∈ addrs s, rootOf s' M = rootOf s M) ∧
      (∀ M ∈ addrs s, ∃ r t t', find s (some M) = .ret r t ∧ find s' (some M) = .ret r t') ∧
      (∀ M ∈ addrs s, rankOf s'.nodes M = rankOf s.nodes M) ∧
      s'.ranks = s.ranks := by
  obtain ⟨R, s', hf, _, hwf', haddr, hs, hroots, hranks⟩ := find_ok hwf hN
  refine ⟨R, s', hf, haddr, fun M _ => hroots M, ?_, fun M _ => hranks M, ?_⟩
  · intro M hM
    obtain ⟨r, t, h1, h2, _⟩ := find_ok hwf hM
    obtain ⟨r', t', h1', h2', _⟩ := find_ok hwf' (haddr ▸ hM)
    rw [hroots, h2] at h2'
    cases Option.some.inj h2'
    exact ⟨r, t, t', h1, h1'⟩
  · rw [← hs]

/-- Instance of C10 on the chain 4 → 3 → 2 → 1. -/
theorem find_preserves_roots_and_ranks_witness :
    WellFormed chain4 ∧ 4 ∈ addrs chain4 ∧
    ∃ R s', find chain4 (some 4) = .ret R s' ∧ addrs s' = addrs chain4 ∧
      (∀ M ∈ addrs chain4, rootOf s' M = rootOf chain4 M) ∧
      (∀ M ∈ addrs chain4, ∃ r t t',
        find chain4 (some M) = .ret r t ∧ find s' (some M) = .ret r t') ∧
      (∀ M ∈ addrs chain4, rankOf s'.nodes M = rankOf chain4.nodes M) ∧
      s'.ranks = chain4.ranks :=
  ⟨by decide, by decide, find_preserves_roots_and_ranks chain4 (by decide) 4 (by decide)⟩

end DisjointForest

namespace DisjointForest

variable {T : Type}

/-! ### `unionSets` and the partition -/

/-- The classes after `unionSets(x, y)` in terms of the roots before the call. -/
theorem unionSets_classes {s : DisjointForest T} (hwf : WellFormed s) {x y : Nat}
    (hx : x ∈ addrs s) (hy : y ∈ addrs s) :
    ∃ s', unionSets s (some x) (some y) = .ret () s' ∧ WellFormed s' ∧
      addrs s' = addrs s ∧
      (∀ X ∈ addrs s, ∀ Y ∈ addrs s,
        (rootOf s' X = rootOf s' Y ↔
          rootOf s X = rootOf s Y ∨
            ((rootOf s X = rootOf s x ∨ rootOf s X = rootOf s y) ∧
              (rootOf s Y = rootOf s x ∨ rootOf s Y = rootOf s y)))) ∧
      (∀ X ∈ addrs s, rootOf s X ≠ rootOf s x → rootOf s X ≠ rootOf s y →
        rootOf s' X = rootOf s X) := by
  obtain ⟨rx, ry, s', hrx, hry, hu, hwf', haddr, _, a, b, hab, hmap⟩ :=
    unionSets_ok hwf hx hy
  refine ⟨s', hu, hwf', haddr, ?_, ?_⟩
  · intro X hX Y hY
    obtain ⟨rX, hrX⟩ := hwf.exists_root hX
    obtain ⟨rY, hrY⟩ := hwf.exists_root hY
    rw [hmap X, hmap Y, hrX, hrY, hrx, hry]
    simp only [Option.map_some', Option.some.injEq]
    rw [link_eq_iff]
    rcases hab with ⟨h1, h2⟩ | ⟨h1, h2⟩ <;> subst h1 <;> subst h2 <;> tauto
  · intro X hX h1 h2
    obtain ⟨rX, hrX⟩ := hwf.exists_root hX
    rw [hmap X, hrX]
    rw [hrX, hrx] at h1
    rw [hrX, hry] at h2
    have h1' : rX ≠ rx := fun h => h1 (by rw [h])
    have h2' : rX ≠ ry := fun h => h2 (by rw [h])
    have : rX ≠ b := by
      rcases hab with ⟨_, h⟩ | ⟨_, h⟩ <;> rw [h] <;> assumption
    simp [this]

/-- C2. `unionSets` merges exactly two classes: on a well-formed forest and live nodes `A`
and `B` the call returns, the live nodes are the same, two live nodes have the same root
afterwards exactly when they had the same root before or each of them was in the class of
`A` or of `B`; `find(A) == find(B)` holds afterwards, and a node outside the two classes
keeps its root. -/
theorem unionSets_merges_two_classes (s : DisjointForest T) (hwf : WellFormed s) (A B : Nat)
    (hA : A ∈ addrs s) (hB : B ∈ addrs s) :
    ∃ s', unionSets s (some A) (some B) = .ret () s' ∧ addrs s' = addrs s ∧
      (∀ X ∈ addrs s, ∀ Y ∈ addrs s,
        (rootOf s' X = rootOf s' Y ↔
          rootOf s X = rootOf s Y ∨
            ((rootOf s X = rootOf s A ∨ rootOf s X = rootOf s B) ∧
              (rootOf s Y = rootOf s A ∨ rootOf s Y = rootOf s B)))) ∧
      sameSet s' A B = some true ∧
      (∀ X ∈ addrs s, rootOf s X ≠ rootOf s A → rootOf s X ≠ rootOf s B →
        rootOf s' X = rootOf s X) := by
  obtain ⟨s', hu, hwf', haddr, hiff, hother⟩ := unionSets_classes hwf hA hB
  refine ⟨s', hu, haddr, hiff, ?_, hother⟩
  rw [sameSet_iff hwf' (haddr ▸ hA) (haddr ▸ hB)]
  have : rootOf s' A = rootOf s' B := (hiff A hA B hB).2 (Or.inr ⟨Or.inl rfl, Or.inr rfl⟩)
  simp [this]

/-- Adding one pair to a relation joins the two classes of its equivalence closure. -/
theorem eqvGen_add_pair {α : Type} (r : α → α → Prop) (a b X Y : α) :
    Relation.EqvGen (fun x y => r x y ∨ (x = a ∧ y = b)) X Y ↔
      Relation.EqvGen r X Y ∨
        ((Relation.EqvGen r X a ∨ Relation.EqvGen r X b) ∧
          (Relation.EqvGen r Y a ∨ Relation.EqvGen r Y b)) := by
  have sy : ∀ {u v : α}, Relation.EqvGen r u v → Relation.EqvGen r v u :=
    fun h => Relation.EqvGen.symm _ _ h
  have tr : ∀ {u v w : α}, Relation.EqvGen r u v → Relation.EqvGen r v w →
      Relation.EqvGen r u w := fun h1 h2 => Relation.EqvGen.trans _ _ _ h1 h2
  constructor
  · intro h
    induction h with
    | rel x y hxy =>
      rcases hxy with h | ⟨h1, h2⟩
      · exact Or.inl (Relation.EqvGen.rel _ _ h)
      · subst h1; subst h2
        exact Or.inr ⟨Or.inl (Relation.EqvGen.refl _), Or.inr (Relation.EqvGen.refl _)⟩
    | refl x => exact Or.inl (Relation.EqvGen.refl _)
    | symm x y _ ih =>
      rcases ih with h | ⟨h1, h2⟩
      · exact Or.inl (sy h)
      · exact Or.inr ⟨h2, h1⟩
    | trans x y z _ _ ih1 ih2 =>
      rcases ih1 with h | ⟨h1, h2⟩
      · rcases ih2 with h' | ⟨h1', h2'⟩
        · exact Or.inl (tr h h')
        · refine Or.inr ⟨?_, h2'⟩
          rcases h1' with h3 | h3
          · exact Or.inl (tr h h3)
          · exact Or.inr (tr h h3)
      · rcases ih2 with h' | ⟨_, h2'⟩
        · refine Or.inr ⟨h1, ?_⟩
          rcases h2 with h3 | h3
          · exact Or.inl (tr (sy h') h3)
          · exact Or.inr (tr (sy h') h3)
        · exact Or.inr ⟨h1, h2'⟩
  · have up : ∀ {u v : α}, Relation.EqvGen r u v →
        Relation.EqvGen (fun x y => r x y ∨ (x = a ∧ y = b)) u v :=
      fun h => Relation.EqvGen.mono (fun _ _ h => Or.inl h) h
    have hab : Relation.EqvGen (fun x y => r x y ∨ (x = a ∧ y = b)) a b :=
      Relation.EqvGen.rel _ _ (Or.inr ⟨rfl, rfl⟩)
    have sy' := fun {u v : α} (h : Relation.EqvGen (fun x y => r x y ∨ (x = a ∧ y = b)) u v) =>
      Relation.EqvGen.symm _ _ h
    have tr' := fun {u v w : α}
      (h1 : Relation.EqvGen (fun x y => r x y ∨ (x = a ∧ y = b)) u v)
      (h2 : Relation.EqvGen (fun x y => r x y ∨ (x = a ∧ y = b)) v w) =>
      Relation.EqvGen.trans _ _ _ h1 h2
    rintro (h | ⟨h1 | h1, h2 | h2⟩)
    · exact up h
    · exact tr' (up h1) (sy' (up h2))
    · exact tr' (up h1) (tr' hab (sy' (up h2)))
    · exact tr' (up h1) (tr' (sy' hab) (sy' (up h2)))
    · exact tr' (up h1) (sy' (up h2))

/-- An element outside the field of a relation is related only to itself. -/
theorem eqvGen_field {α : Type} {r : α → α → Prop} {S : α → Prop}
    (hr : ∀ x y, r x y → S x ∧ S y) {X Y : α} (h : Relation.EqvGen r X Y) :
    X = Y ∨ (S X ∧ S Y) := by
  induction h with
  | rel x y hxy => exact Or.inr (hr x y hxy)
  | refl x => exact Or.inl rfl
  | symm x y _ ih =>
    rcases ih with h | ⟨h1, h2⟩
    · exact Or.inl h.symm
    · exact Or.inr ⟨h2, h1⟩
  | trans x y z _ _ ih1 ih2 =>
    rcases ih1 with h | ⟨h1, h2⟩
    · subst h; exact ih2
    · rcases ih2 with h' | ⟨_, h2'⟩
      · subst h'; exact Or.inr ⟨h1, h2⟩
      · exact Or.inr ⟨h1, h2'⟩

/-- The partition invariant along a valid sequence of `makeSet` and `unionSets` calls. -/
theorem run_partition (ops : List (Op T)) :
    ∀ (s : DisjointForest T) (us : List (Nat × Nat)), WellFormed s →
      (∀ q ∈ us, q.1 ∈ addrs s ∧ q.2 ∈ addrs s) →
      (∀ A ∈ addrs s, ∀ B ∈ addrs s,
        (rootOf s A = rootOf s B ↔ Relation.EqvGen (fun a b => (a, b) ∈ us) A B)) →
      validFrom (addrs s) ops = true →
      ∃ s', run s ops = some s' ∧ WellFormed s' ∧ addrs s' = addrs s ++ created ops ∧
        ∀ A ∈ addrs s', ∀ B ∈ addrs s',
          (rootOf s' A = rootOf s' B ↔
            Relation.EqvGen (fun a b => (a, b) ∈ us ++ unionPairs ops) A B) := by
  induction ops with
  | nil =>
    intro s us hwf _ hinv _
    exact ⟨s, rfl, hwf, by simp [created], by simpa [unionPairs] using hinv⟩
  | cons op ops ih =>
    intro s us hwf hus hinv hv
    cases op with
    | makeSet p d =>
      simp only [validFrom, Bool.and_eq_true, decide_eq_true_eq] at hv
      obtain ⟨hp, hv⟩ := hv
      obtain ⟨hwf1, _, hnew, hold⟩ := makeSet_ok hwf hp d
      have haddr1 := addrs_makeSet s p d
      have hinv1 : ∀ A ∈ addrs (makeSet s p d).2, ∀ B ∈ addrs (makeSet s p d).2,
          (rootOf (makeSet s p d).2 A = rootOf (makeSet s p d).2 B ↔
            Relation.EqvGen (fun a b => (a, b) ∈ us) A B) := by
        have hfield : ∀ {X Y : Nat}, Relation.EqvGen (fun a b => (a, b) ∈ us) X Y →
            X = Y ∨ (X ∈ addrs s ∧ Y ∈ addrs s) :=
          fun h => eqvGen_field (S := fun z => z ∈ addrs s) (fun x y hxy => hus (x, y) hxy) h
        have hsep : ∀ z ∈ addrs s, rootOf (makeSet s p d).2 z ≠ some p := by
          intro z hz
          rw [hold z hz]
          intro h
          exact hp (rootOf_mem_addrs h).2
        intro A hA B hB
        rw [haddr1] at hA hB
        simp only [List.mem_append, List.mem_singleton] at hA hB
        rcases hA with hA | hA <;> rcases hB with hB | hB
        · rw [hold A hA, hold B hB]
          exact hinv A hA B hB
        · subst hB
          rw [hnew]
          constructor
          · intro h; exact absurd h (hsep A hA)
          · intro h
            rcases hfield h with h1 | ⟨_, h2⟩
            · exact absurd (h1 ▸ hA) hp
            · exact absurd h2 hp
        · subst hA
          rw [hnew]
          constructor
          · intro h; exact absurd h.symm (hsep B hB)
          · intro h
            rcases hfield h with h1 | ⟨h2, _⟩
            · exact absurd (h1 ▸ hB) hp
            · exact absurd h2 hp
        · subst hA; subst hB
          exact ⟨fun _ => Relation.EqvGen.refl _, fun _ => rfl⟩
      have hus1 : ∀ q ∈ us, q.1 ∈ addrs (makeSet s p d).2 ∧ q.2 ∈ addrs (makeSet s p d).2 := by
        intro q hq
        rw [haddr1]
        exact ⟨List.mem_append_left _ (hus q hq).1, List.mem_append_left _ (hus q hq).2⟩
      obtain ⟨s', hrun, hwf', haddr', hfin⟩ :=
        ih (makeSet s p d).2 us hwf1 hus1 hinv1 (by rw [haddr1]; exact hv)
      refine ⟨s', by simp [run, runOp, hrun], hwf', ?_, ?_⟩
      · rw [haddr', haddr1]; simp [created]
      · simpa [unionPairs] using hfin
    | unionSets a b =>
      simp only [validFrom, Bool.and_eq_true, decide_eq_true_eq] at hv
      obtain ⟨⟨ha, hb⟩, hv⟩ := hv
      obtain ⟨s1, hu, hwf1, haddr1, hiff, _⟩ := unionSets_classes hwf ha hb
      have hinv1 : ∀ A ∈ addrs s1, ∀ B ∈ addrs s1,
          (rootOf s1 A = rootOf s1 B ↔
            Relation.EqvGen (fun x y => (x, y) ∈ us ++ [(a, b)]) A B) := by
        intro A hA B hB
        rw [haddr1] at hA hB
        rw [hiff A hA B hB]
        have hrel : (fun x y => (x, y) ∈ us ++ [(a, b)]) =
            (fun x y => (x, y) ∈ us ∨ (x = a ∧ y = b)) := by
          funext x y
          simp
        rw [hrel, eqvGen_add_pair, hinv A hA B hB, hinv A hA a ha, hinv A hA b hb,
          hinv B hB a ha, hinv B hB b hb]
      have hus1 : ∀ q ∈ us ++ [(a, b)], q.1 ∈ addrs s1 ∧ q.2 ∈ addrs s1 := by
        intro q hq
        rw [haddr1]
        rcases List.mem_append.1 hq with h | h
        · exact hus q h
        · have : q = (a, b) := by simpa using h
          subst this
          exact ⟨ha, hb⟩
      obtain ⟨s', hrun, hwf', haddr', hfin⟩ :=
        ih s1 (us ++ [(a, b)]) hwf1 hus1 hinv1 (by rw [haddr1]; exact hv)
      refine ⟨s', by simp [run, runOp, hu, hrun], hwf', ?_, ?_⟩
      · rw [haddr', haddr1]; simp [created]
      · simpa [unionPairs] using hfin

/-- C1. Partition property: a valid sequence of `makeSet` and `unionSets` calls run from
the empty forest returns at every call, the live nodes are the created ones, and for two
created nodes `A` and `B` the calls `find(A)` and `find(B)` return the same node exactly
when `(A, B)` is in the reflexive, symmetric and transitive closure of the pairs passed to
`unionSets`. -/
theorem partition_property (ops : List (Op T)) (hv : validFrom [] ops = true) :
    ∃ s, run (empty : DisjointForest T) ops = some s ∧ addrs s = created ops ∧
      ∀ A ∈ created ops, ∀ B ∈ created ops,
        ∃ rA s₁ rB s₂, find s (some A) = .ret rA s₁ ∧ find s₁ (some B) = .ret rB s₂ ∧
          (rA = rB ↔ Relation.EqvGen (fun a b => (a, b) ∈ unionPairs ops) A B) := by
  obtain ⟨s, hrun, hwf, haddr, hfin⟩ :=
    run_partition ops (empty : DisjointForest T) [] wellFormed_empty (by simp)
      (by simp [addrs, empty]) (by simpa [addrs, empty] using hv)
  have haddr' : addrs s = created ops := by simpa [addrs, empty] using haddr
  refine ⟨s, hrun, haddr', ?_⟩
  intro A hA B hB
  rw [← haddr'] at hA hB
  obtain ⟨rA, s1, hf1, hrA, hwf1, ha1, _, hroot1, _⟩ := find_ok hwf hA
  obtain ⟨rB, s2, hf2, hrB, _⟩ := find_ok hwf1 (ha1 ▸ hB)
  rw [hroot1] at hrB
  refine ⟨rA, s1, rB, s2, hf1, hf2, ?_⟩
  have := hfin A hA B hB
  rw [hrA, hrB] at this
  simpa using this

end DisjointForest

namespace DisjointForest

variable {T : Type}

/-! ### `contract` and well-formedness -/

/-- C4. `contract` preserves the connectivity of the remaining nodes: on a well-formed
forest and a live node `N` the call returns, the live nodes are the former ones without
`N`, and for live nodes `X` and `Y` other than `N` the test `find(X) == find(Y)` has the
same result after the call as before. -/
theorem contract_preserves_connectivity (s : DisjointForest T) (hwf : WellFormed s)
    (N : Nat) (hN : N ∈ addrs s) :
    ∃ s', contract s (some N) = .ret () s' ∧
      addrs s' = (addrs s).filter (fun a => decide (a ≠ N)) ∧
      ∀ X ∈ addrs s, ∀ Y ∈ addrs s, X ≠ N → Y ≠ N →
        ∃ b, sameSet s' X Y = some b ∧ sameSet s X Y = some b := by
  obtain ⟨s', hc, hwf', haddr, _, _, hiff⟩ := contract_ok hwf hN
  refine ⟨s', hc, haddr, ?_⟩
  intro X hX Y hY hXN hYN
  have hX' : X ∈ addrs s' := by
    rw [haddr]; exact List.mem_filter.2 ⟨hX, by simpa using hXN⟩
  have hY' : Y ∈ addrs s' := by
    rw [haddr]; exact List.mem_filter.2 ⟨hY, by simpa using hYN⟩
  refine ⟨decide (rootOf s X = rootOf s Y), ?_, sameSet_iff hwf hX hY⟩
  rw [sameSet_iff hwf' hX' hY']
  congr 1
  exact decide_eq_decide.2 (hiff X Y hX hY hXN hYN)

/-- The forest of the test `ComplexDynamicScenario` before the first `contract` is the one
the calls of the test build. -/
theorem run_scenarioOps : run empty scenarioOps = some scenario := by decide

/-- Instance of C4 on the end-to-end scenario: the node holding 5 is contracted. -/
theorem contract_preserves_connectivity_witness :
    WellFormed scenario ∧ 105 ∈ addrs scenario ∧
    ∃ s', contract scenario (some 105) = .ret () s' ∧
      addrs s' = (addrs scenario).filter (fun a => decide (a ≠ 105)) ∧
      ∀ X ∈ addrs scenario, ∀ Y ∈ addrs scenario, X ≠ 105 → Y ≠ 105 →
        ∃ b, sameSet s' X Y = some b ∧ sameSet scenario X Y = some b :=
  ⟨by decide, by decide, contract_preserves_connectivity scenario (by decide) 105 (by decide)⟩

/-- The end of the test `ComplexDynamicScenario`: after the nodes holding 5 and 7 are
contracted, eight nodes remain and every one of them has the root of node 0. -/
theorem scenario_after_contract :
    ∃ s₁ s₂, contract scenario (some 105) = .ret () s₁ ∧
      contract s₁ (some 107) = .ret () s₂ ∧ size s₂ = 8 ∧
      ∀ X ∈ addrs s₂, sameSet s₂ X 100 = some true := by
  refine ⟨_, _, rfl, rfl, by decide, by decide⟩

theorem wellFormed_of_nodes_eq {s s' : DisjointForest T} (h : s'.nodes = s.nodes)
    (hwf : WellFormed s) : WellFormed s' := by
  unfold WellFormed addrs rootOf at hwf ⊢
  rw [h]
  exact hwf

theorem reaches_of_isRoot {s : DisjointForest T} {r y : Nat}
    (hr : parentOf s.nodes r = some r) (h : Relation.ReflTransGen (ParentStep s) r y) :
    y = r := by
  induction h with
  | refl => rfl
  | tail _ hstep ih =>
    subst ih
    unfold ParentStep at hstep
    rw [hr] at hstep
    exact (Option.some.inj hstep).symm

/-- A node with a root lies on no cycle of parent links, unless it is the root itself. -/
theorem RootOf.acyclic {s : DisjointForest T} {x r : Nat}
    (h : RootOf (parentOf s.nodes) x r) (hc : Relation.TransGen (ParentStep s) x x) :
    parentOf s.nodes x = some x := by
  induction h with
  | root hx => exact hx
  | @step x y r hy hne _ ih =>
    obtain ⟨b, hb, hbx⟩ := Relation.TransGen.head'_iff.1 hc
    unfold ParentStep at hb
    rw [hy] at hb
    cases Option.some.inj hb
    have hyy : Relation.TransGen (ParentStep s) y y :=
      Relation.TransGen.tail' hbx hy
    exact absurd (reaches_of_isRoot (ih hyy) hbx).symm hne

/-- The meaning of `WellFormed`: the addresses are pairwise different, and every live node
has a live parent, reaches exactly one self-parented node along parent links, and lies on
no cycle of parent links other than the self-loop of a root. -/
theorem wellFormed_meaning (s : DisjointForest T) :
    WellFormed s ↔
      (addrs s).Nodup ∧ ∀ x ∈ addrs s,
        (∃ p ∈ addrs s, parentOf s.nodes x = some p) ∧
        (∃ r, Relation.ReflTransGen (ParentStep s) x r ∧ parentOf s.nodes r = some r ∧
          ∀ r', Relation.ReflTransGen (ParentStep s) x r' → parentOf s.nodes r' = some r' →
            r' = r) ∧
        (Relation.TransGen (ParentStep s) x x → parentOf s.nodes x = some x) := by
  rw [wellFormed_iff]
  constructor
  · rintro ⟨hnd, h⟩
    refine ⟨hnd, fun x hx => ?_⟩
    obtain ⟨r, hr⟩ := h x hx
    refine ⟨?_, ?_, hr.acyclic⟩
    · obtain ⟨p, hp⟩ := hr.live
      obtain ⟨q, hq⟩ := (hr.parent hp).live
      exact ⟨p, mem_addrs_of_parentOf hq, hp⟩
    · have h2 := rootOf_iff_reaches.1 hr
      exact ⟨r, h2.1, h2.2, fun r' h1 h3 => RootOf.unique (rootOf_iff_reaches.2 ⟨h1, h3⟩) hr⟩
  · rintro ⟨hnd, h⟩
    refine ⟨hnd, fun x hx => ?_⟩
    obtain ⟨_, ⟨r, h1, h2, _⟩, _⟩ := h x hx
    exact ⟨r, rootOf_iff_reaches.2 ⟨h1, h2⟩⟩

theorem wellFormed_construct {c : Int} {s : DisjointForest T}
    (h : construct c = .ok s) : WellFormed s := by
  unfold construct at h
  split at h
  · cases h
  · simp only at h
    split at h
    · cases h
    · split at h
      · cases h
      · cases h
        exact wellFormed_of_nodes_eq (s := empty) rfl wellFormed_empty

theorem find_null (s : DisjointForest T) : find s none = .throw .invalidArgument s := rfl

theorem contract_null (s : DisjointForest T) :
    contract s none = .throw .invalidArgument s := rfl

theorem unionSets_null_left (s : DisjointForest T) (h : Option Nat) :
    unionSets s none h = .throw .invalidArgument s := by
  cases h <;> rfl

theorem unionSets_null_right (s : DisjointForest T) (h : Option Nat) :
    unionSets s h none = .throw .invalidArgument s := by
  cases h <;> rfl

/-- The nodes are the same after `expand`, whether it returns or throws. -/
theorem expand_nodes {s s' : DisjointForest T} {n : Int}
    (h : (expand s n).state? = some s') :
    s'.nodes = s.nodes ∧ s'.ranks = s.ranks ∧ s'.next_id = s.next_id := by
  unfold expand at h
  split at h
  · cases h; exact ⟨rfl, rfl, rfl⟩
  · simp only at h
    split at h
    · cases h; exact ⟨rfl, rfl, rfl⟩
    · split at h
      · cases h; exact ⟨rfl, rfl, rfl⟩
      · cases h; exact ⟨rfl, rfl, rfl⟩

/-- Every reachable forest is well-formed. -/
theorem Reachable.wellFormed {s : DisjointForest T} (h : Reachable s) : WellFormed s := by
  induction h with
  | empty => exact wellFormed_empty
  | construct hc => exact wellFormed_construct hc
  | makeSet _ hp ih => exact (makeSet_ok ih hp _).1
  | @find s s' h _ hv hs ih =>
    cases h with
    | none =>
      rw [find_null] at hs
      cases hs; exact ih
    | some n =>
      obtain ⟨R, t, hf, _, hwf', _⟩ := find_ok ih (hv n rfl)
      rw [hf] at hs
      cases hs; exact hwf'
  | @unionSets s s' h₁ h₂ _ hv₁ hv₂ hs ih =>
    cases h₁ with
    | none =>
      rw [unionSets_null_left] at hs
      cases hs; exact ih
    | some a =>
      cases h₂ with
      | none =>
        rw [unionSets_null_right] at hs
        cases hs; exact ih
      | some b =>
        obtain ⟨_, _, t, _, _, hu, hwf', _⟩ := unionSets_ok ih (hv₁ a rfl) (hv₂ b rfl)
        rw [hu] at hs
        cases hs; exact hwf'
  | @contract s s' h _ hv hs ih =>
    cases h with
    | none =>
      rw [contract_null] at hs
      cases hs; exact ih
    | some n =>
      obtain ⟨t, hc, hwf', _⟩ := contract_ok ih (hv n rfl)
      rw [hc] at hs
      cases hs; exact hwf'
  | expand _ hs ih => exact wellFormed_of_nodes_eq (expand_nodes hs).1 ih
  | clear _ _ =>
    exact wellFormed_of_nodes_eq (s := (DisjointForest.empty : DisjointForest T)) rfl
      wellFormed_empty

/-- C5. Well-formedness is an invariant: the empty forest is well-formed; `makeSet` (with a
fresh address), `find`, `unionSets` and `contract` on live handles of a well-formed forest
return and leave a well-formed forest; after `contract(N)` the node `N` is gone and no
remaining node has `N` as parent; hence every reachable forest is well-formed. The last part
spells out what well-formed means: every live node has a live parent, its parent chain
reaches exactly one self-parented node, and it lies on no cycle other than the self-loop of
a root. -/
theorem wellFormed_invariant :
    WellFormed (empty : DisjointForest T) ∧
    (∀ (s : DisjointForest T) (p : Nat) (d : T), WellFormed s → p ∉ addrs s →
      WellFormed (makeSet s p d).2) ∧
    (∀ (s : DisjointForest T) (N : Nat), WellFormed s → N ∈ addrs s →
      ∃ R s', find s (some N) = .ret R s' ∧ WellFormed s') ∧
    (∀ (s : DisjointForest T) (A B : Nat), WellFormed s → A ∈ addrs s → B ∈ addrs s →
      ∃ s', unionSets s (some A) (some B) = .ret () s' ∧ WellFormed s') ∧
    (∀ (s : DisjointForest T) (N : Nat), WellFormed s → N ∈ addrs s →
      ∃ s', contract s (some N) = .ret () s' ∧ WellFormed s' ∧ N ∉ addrs s' ∧
        ∀ M ∈ addrs s', parentOf s'.nodes M ≠ some N) ∧
    (∀ s : DisjointForest T, Reachable s → WellFormed s) ∧
    (∀ s : DisjointForest T, WellFormed s ↔
      (addrs s).Nodup ∧ ∀ x ∈ addrs s,
        (∃ p ∈ addrs s, parentOf s.nodes x = some p) ∧
        (∃ r, Relation.ReflTransGen (ParentStep s) x r ∧ parentOf s.nodes r = some r ∧
          ∀ r', Relation.ReflTransGen (ParentStep s) x r' → parentOf s.nodes r' = some r' →
            r' = r) ∧
        (Relation.TransGen (ParentStep s) x x → parentOf s.nodes x = some x)) := by
  refine ⟨wellFormed_empty, fun s p d hwf hp => (makeSet_ok hwf hp d).1, ?_, ?_, ?_,
    fun s h => h.wellFormed, wellFormed_meaning⟩
  · intro s N hwf hN
    obtain ⟨R, s', hf, _, hwf', _⟩ := find_ok hwf hN
    exact ⟨R, s', hf, hwf'⟩
  · intro s A B hwf hA hB
    obtain ⟨_, _, s', _, _, hu, hwf', _⟩ := unionSets_ok hwf hA hB
    exact ⟨s', hu, hwf'⟩
  · intro s N hwf hN
    obtain ⟨s', hc, hwf', haddr, _⟩ := contract_ok hwf hN
    have hgone : N ∉ addrs s' := by
      rw [haddr]
      intro h
      simpa using (List.mem_filter.1 h).2
    refine ⟨s', hc, hwf', hgone, ?_⟩
    intro M hM hpar
    obtain ⟨r, hr⟩ := hwf'.exists_root hM
    have h1 := (rootOf_eq_some_iff.1 hr).parent hpar
    obtain ⟨q, hq⟩ := h1.live
    exact hgone (mem_addrs_of_parentOf hq)

/-- Instance of C5: the root of the three-node class of the end-to-end scenario is
contracted. -/
theorem wellFormed_invariant_witness :
    WellFormed scenario ∧ 108 ∈ addrs scenario ∧
    ∃ s', contract scenario (some 108) = .ret () s' ∧ WellFormed s' ∧ 108 ∉ addrs s' ∧
      ∀ M ∈ addrs s', parentOf s'.nodes M ≠ some 108 :=
  ⟨by decide, by decide,
    (wellFormed_invariant (T := Nat)).2.2.2.2.1 scenario 108 (by decide) (by decide)⟩

end DisjointForest

namespace DisjointForest

variable {T : Type}

/-- Instance of C1 on the calls of the end-to-end scenario. -/
theorem partition_property_witness :
    validFrom [] scenarioOps = true ∧
    ∃ s, run (empty : DisjointForest Nat) scenarioOps = some s ∧
      addrs s = created scenarioOps ∧
      ∀ A ∈ created scenarioOps, ∀ B ∈ created scenarioOps,
        ∃ rA s₁ rB s₂, find s (some A) = .ret rA s₁ ∧ find s₁ (some B) = .ret rB s₂ ∧
          (rA = rB ↔ Relation.EqvGen (fun a b => (a, b) ∈ unionPairs scenarioOps) A B) :=
  ⟨by decide, partition_property scenarioOps (by decide)⟩

/-- Instance of C2 on three singleton classes, as in the test `UnionSets`. -/
theorem unionSets_merges_two_classes_witness :
    WellFormed threeSets ∧ 1 ∈ addrs threeSets ∧ 2 ∈ addrs threeSets ∧
    ∃ s', unionSets threeSets (some 1) (some 2) = .ret () s' ∧ addrs s' = addrs threeSets ∧
      (∀ X ∈ addrs threeSets, ∀ Y ∈ addrs threeSets,
        (rootOf s' X = rootOf s' Y ↔
          rootOf threeSets X = rootOf threeSets Y ∨
            ((rootOf threeSets X = rootOf threeSets 1 ∨
                rootOf threeSets X = rootOf threeSets 2) ∧
              (rootOf threeSets Y = rootOf threeSets 1 ∨
                rootOf threeSets Y = rootOf threeSets 2)))) ∧
      sameSet s' 1 2 = some true ∧
      (∀ X ∈ addrs threeSets, rootOf threeSets X ≠ rootOf threeSets 1 →
        rootOf threeSets X ≠ rootOf threeSets 2 → rootOf s' X = rootOf threeSets X) :=
  ⟨by decide, by decide, by decide,
    unionSets_merges_two_classes threeSets (by decide) 1 2 (by decide) (by decide)⟩

/-! ### Argument checks -/

theorem toInt32_of_lt {x : Int} (h0 : 0 ≤ x) (h1 : x < 2147483648) : toInt32 x = x := by
  unfold toInt32
  omega

theorem toSizeT_of_nonneg {x : Int} (h0 : 0 ≤ x) (h1 : x < 2147483648) :
    ((toSizeT x : Nat) : Int) = x := by
  unfold toSizeT
  have : x % 18446744073709551616 = x := Int.emod_eq_of_lt h0 (by omega)
  rw [this]
  exact Int.toNat_of_nonneg h0

/-- The part of C6 that holds. Every argument check throws `InvalidArgument` and leaves the
state as it was: `find`, `unionSets` and `contract` on a null handle, `expand` on an amount
that is not positive, the constructor on a negative capacity. On live handles of a
well-formed forest `find`, `unionSets` and `contract` return; the constructor returns on
every `int` that is not negative; `expand` returns on a positive amount as long as the sum
of the capacity and the amount fits in an `int`. -/
theorem argument_checks :
    (∀ s : DisjointForest T, find s none = .throw .invalidArgument s) ∧
    (∀ (s : DisjointForest T) (h : Option Nat),
      unionSets s none h = .throw .invalidArgument s ∧
      unionSets s h none = .throw .invalidArgument s) ∧
    (∀ s : DisjointForest T, contract s none = .throw .invalidArgument s) ∧
    (∀ (s : DisjointForest T) (n : Int), n ≤ 0 → expand s n = .throw .invalidArgument s) ∧
    (∀ c : Int, c < 0 → (construct c : Except Exn (DisjointForest T)) =
      .error .invalidArgument) ∧
    (∀ (s : DisjointForest T) (N : Nat), WellFormed s → N ∈ addrs s →
      ∃ R s', find s (some N) = .ret R s') ∧
    (∀ (s : DisjointForest T) (A B : Nat), WellFormed s → A ∈ addrs s → B ∈ addrs s →
      ∃ s', unionSets s (some A) (some B) = .ret () s') ∧
    (∀ (s : DisjointForest T) (N : Nat), N ∈ addrs s →
      ∃ s', contract s (some N) = .ret () s') ∧
    (∀ c : Int, 0 ≤ c → c < 2147483648 →
      ∃ s : DisjointForest T, construct c = .ok s) ∧
    (∀ (s : DisjointForest T) (n : Int), 0 < n → (s.nodesCap : Int) + n < 2147483648 →
      ∃ s', expand s n = .ret () s') := by
  refine ⟨find_null, fun s h => ⟨unionSets_null_left s h, unionSets_null_right s h⟩,
    contract_null, ?_, ?_, ?_, ?_, ?_, ?_, ?_⟩
  · intro s n hn
    simp [expand, hn]
  · intro c hc
    simp [construct, hc]
  · intro s N hwf hN
    obtain ⟨R, s', hf, _⟩ := find_ok hwf hN
    exact ⟨R, s', hf⟩
  · intro s A B hwf hA hB
    obtain ⟨_, _, s', _, _, hu, _⟩ := unionSets_ok hwf hA hB
    exact ⟨s', hu⟩
  · intro s N hN
    exact ⟨_, contract_eq hN⟩
  · intro c h0 h1
    have hs := toSizeT_of_nonneg h0 h1
    have h2 : ¬ toSizeT c > maxSizeNodes := by
      unfold maxSizeNodes; omega
    have h3 : ¬ toSizeT c > maxSizeRanks := by
      unfold maxSizeRanks; omega
    exact ⟨_, by simp only [construct, not_lt.2 h0, if_false, h2, h3]; rfl⟩
  · intro s n h0 h1
    have hc : (0 : Int) ≤ (s.nodesCap : Int) := Int.ofNat_nonneg _
    have hx := toInt32_of_lt (x := (s.nodesCap : Int) + n) (by omega) h1
    have hs := toSizeT_of_nonneg (x := (s.nodesCap : Int) + n) (by omega) h1
    have h2 : ¬ toSizeT ((s.nodesCap : Int) + n) > maxSizeNodes := by
      unfold maxSizeNodes; omega
    have h3 : ¬ toSizeT ((s.nodesCap : Int) + n) > maxSizeRanks := by
      unfold maxSizeRanks; omega
    exact ⟨_, by simp only [expand, not_le.2 h0, if_false, hx, h2, h3]; rfl⟩

/-- C6, the failing call. On the forest with one node (capacity 1) the valid call
`expand(2147483647)` does not return: the sum `1 + 2147483647` does not fit in the `int`
`new_capacity`, the wrapped negative value becomes a huge `size_t`, and `reserve` throws
`std::length_error`. -/
theorem expand_overflow_lengthError :
    oneSet.nodesCap = 1 ∧ WellFormed oneSet ∧
    expand oneSet 2147483647 = .throw .lengthError oneSet := by
  decide

/-! ### Size accounting -/

theorem size_eq (s : DisjointForest T) : size s = toInt32 (s.nodes.length : Int) := rfl

theorem size_makeSet (s : DisjointForest T) (p : Nat) (d : T) :
    size (makeSet s p d).2 = toInt32 ((s.nodes.length + 1 : Nat) : Int) := by
  simp [size, makeSet]

theorem bigForest_length : bigForest.nodes.length = 2147483647 := by
  simp only [bigForest, List.length_map, List.length_range]

/-- C7 as stated fails: on a forest of `2 ^ 31 - 1` nodes `size()` is `2147483647`, and
after one more `makeSet` the conversion to `int` gives `-2147483648`. -/
theorem size_makeSet_wraps :
    size bigForest = 2147483647 ∧ size (makeSet bigForest 2147483647 0).2 = -2147483648 ∧
    size (makeSet bigForest 2147483647 0).2 ≠ size bigForest + 1 := by
  rw [size_makeSet, size_eq, bigForest_length]
  decide

theorem compressPath_length (R : Nat) :
    ∀ (k : Nat) (ns : List (Node T)) (x : Nat) (ns' : List (Node T)),
      compressPath R k ns x = some ns' → ns'.length = ns.length := by
  intro k
  induction k with
  | zero => intro ns x ns' h; simp [compressPath] at h
  | succ k ih =>
    intro ns x ns' h
    rw [compressPath] at h
    split at h
    · cases h
    · split at h
      · cases h; rfl
      · rw [ih _ _ _ h]
        simp [setParent]

theorem find_state_length {s s' : DisjointForest T} {h : Option Nat}
    (hs : (find s h).state? = some s') : s'.nodes.length = s.nodes.length := by
  unfold find at hs
  split at hs
  · cases hs; rfl
  · split at hs
    · cases hs
    · split at hs
      · cases hs
      · next ns hns =>
        cases hs
        exact compressPath_length _ _ _ _ _ hns

theorem updateRank_length {ns ns' : List (Node T)} {a b : Nat}
    (h : updateRank ns a b = some ns') : ns'.length = ns.length := by
  unfold updateRank at h
  split at h
  · split at h
    · cases h; simp [setRank]
    · cases h; rfl
  · cases h

theorem unionSets_state_length {s s' : DisjointForest T} {h₁ h₂ : Option Nat}
    (hs : (unionSets s h₁ h₂).state? = some s') : s'.nodes.length = s.nodes.length := by
  unfold unionSets at hs
  split at hs
  · next x y =>
    split at hs
    · next root1 s1 hf1 =>
      have l1 : s1.nodes.length = s.nodes.length :=
        find_state_length (h := some x) (by rw [hf1]; rfl)
      split at hs
      · next root2 s2 hf2 =>
        have l2 : s2.nodes.length = s1.nodes.length :=
          find_state_length (h := some y) (by rw [hf2]; rfl)
        split at hs
        · cases hs; exact l2.trans l1
        · split at hs
          · simp only at hs
            split at hs
            · next ns hns =>
              cases hs
              simp only
              rw [updateRank_length hns]
              simp only [setParent, List.length_map]
              exact l2.trans l1
            · cases hs
          · cases hs
      · next e s2 hf2 =>
        have l2 : s2.nodes.length = s1.nodes.length :=
          find_state_length (h := some y) (by rw [hf2]; rfl)
        cases hs; exact l2.trans l1
      · cases hs
    · next e s1 hf1 =>
      have l1 : s1.nodes.length = s.nodes.length :=
        find_state_length (h := some x) (by rw [hf1]; rfl)
      cases hs; exact l1
    · cases hs
  · cases hs; rfl

theorem eraseIdx_findIdx_length {α : Type} (p : α → Bool) (l : List α)
    (h : ∃ a ∈ l, p a = true) :
    (match l.findIdx? p with
      | some i => l.eraseIdx i
      | none => l).length + 1 = l.length := by
  induction l with
  | nil => obtain ⟨a, ha, _⟩ := h; cases ha
  | cons b rest ih =>
    rw [List.findIdx?_cons]
    by_cases hb : p b = true
    · simp [hb]
    · simp only [hb, Bool.false_eq_true, if_false, List.findIdx?_succ, Nat.zero_add]
      have h' : ∃ a ∈ rest, p a = true := by
        obtain ⟨a, ha, hpa⟩ := h
        rcases List.mem_cons.1 ha with rfl | ha'
        · exact absurd hpa hb
        · exact ⟨a, ha', hpa⟩
      have ih' := ih h'
      cases hf : rest.findIdx? p with
      | none => simp only [hf] at ih'; simp at ih'
      | some i => simp only [hf] at ih'; simpa using ih'

theorem contract_length {s : DisjointForest T} {x : Nat} (hx : x ∈ addrs s) :
    ∃ s', contract s (some x) = .ret () s' ∧ s'.nodes.length + 1 = s.nodes.length := by
  refine ⟨_, contract_eq hx, ?_⟩
  have h1 := eraseIdx_findIdx_length (fun n : Node T => decide (n.addr = x))
    (reparentLoop x (newParent s.nodes x) s.nodes) (by
      have hx' : x ∈ (reparentLoop x (newParent s.nodes x) s.nodes).map (fun n => n.addr) := by
        rw [addrs_reparentLoop]; exact hx
      obtain ⟨n, hn, hna⟩ := List.mem_map.1 hx'
      exact ⟨n, hn, by simpa using hna⟩)
  have h2 : (reparentLoop x (newParent s.nodes x) s.nodes).length = s.nodes.length := by
    simp [reparentLoop]
  rw [h2] at h1
  rw [← h1]
  unfold eraseNode
  simp only
  cases List.findIdx? (fun n : Node T => decide (n.addr = x))
    (reparentLoop x (newParent s.nodes x) s.nodes) <;> rfl

/-- C7, amended. Size accounting holds as long as the number of nodes fits in the `int`
that `size()` returns: on a forest with fewer than `2 ^ 31 - 1` nodes `makeSet` increases
`size()` by one; on a forest with fewer than `2 ^ 31` nodes `contract` on a live node
returns and decreases `size()` by one; after `clear` the size is 0 and `isEmpty()` is true;
`find`, `unionSets` and `expand` leave `size()` unchanged, whether they return or throw, and
on live handles of a well-formed forest `find` and `unionSets` do return. -/
theorem size_accounting :
    (∀ (s : DisjointForest T) (p : Nat) (d : T), s.nodes.length + 1 < 2147483648 →
      size (makeSet s p d).2 = size s + 1) ∧
    (∀ (s : DisjointForest T) (N : Nat), N ∈ addrs s → s.nodes.length < 2147483648 →
      ∃ s', contract s (some N) = .ret () s' ∧ size s' = size s - 1) ∧
    (∀ s : DisjointForest T, size (clear s) = 0 ∧ isEmpty (clear s) = true) ∧
    (∀ (s s' : DisjointForest T) (h : Option Nat),
      (find s h).state? = some s' → size s' = size s) ∧
    (∀ (s s' : DisjointForest T) (h₁ h₂ : Option Nat),
      (unionSets s h₁ h₂).state? = some s' → size s' = size s) ∧
    (∀ (s s' : DisjointForest T) (n : Int),
      (expand s n).state? = some s' → size s' = size s) ∧
    (∀ (s : DisjointForest T) (N : Nat), WellFormed s → N ∈ addrs s →
      ∃ R s', find s (some N) = .ret R s' ∧ size s' = size s) ∧
    (∀ (s : DisjointForest T) (A B : Nat), WellFormed s → A ∈ addrs s → B ∈ addrs s →
      ∃ s', unionSets s (some A) (some B) = .ret () s' ∧ size s' = size s) := by
  refine ⟨?_, ?_, fun s => ⟨by simp [size, clear, toInt32], rfl⟩, ?_, ?_, ?_, ?_, ?_⟩
  · intro s p d h
    rw [size_makeSet, size_eq, toInt32_of_lt (by omega) (by omega),
      toInt32_of_lt (by omega) (by omega)]
    omega
  · intro s N hN h
    obtain ⟨s', hc, hl⟩ := contract_length hN
    refine ⟨s', hc, ?_⟩
    rw [size_eq, size_eq, toInt32_of_lt (by omega) (by omega),
      toInt32_of_lt (by omega) (by omega)]
    omega
  · intro s s' h hs
    rw [size_eq, size_eq, find_state_length hs]
  · intro s s' h₁ h₂ hs
    rw [size_eq, size_eq, unionSets_state_length hs]
  · intro s s' n hs
    rw [size_eq, size_eq, (expand_nodes hs).1]
  · intro s N hwf hN
    obtain ⟨R, s', hf, _⟩ := find_ok hwf hN
    refine ⟨R, s', hf, ?_⟩
    rw [size_eq, size_eq, find_state_length (h := some N) (by rw [hf]; rfl)]
  · intro s A B hwf hA hB
    obtain ⟨_, _, s', _, _, hu, _⟩ := unionSets_ok hwf hA hB
    refine ⟨s', hu, ?_⟩
    have hst : (unionSets s (some A) (some B)).state? = some s' := by rw [hu]; rfl
    rw [size_eq, size_eq, unionSets_state_length hst]

/-- Instance of C7, amended, on the end-to-end scenario: the node holding 5 is
contracted. -/
theorem size_accounting_witness :
    105 ∈ addrs scenario ∧ scenario.nodes.length < 2147483648 ∧
    ∃ s', contract scenario (some 105) = .ret () s' ∧ size s' = size scenario - 1 :=
  ⟨by decide, by simp [scenario],
    (size_accounting (T := Nat)).2.1 scenario 105 (by decide) (by simp [scenario])⟩

end DisjointForest

namespace DisjointForest

variable {T : Type}

/-! ### Ranks and payloads under the assignments -/

theorem rankOf_setParent (ns : List (Node T)) (p q y : Nat) :
    rankOf (setParent ns p q) y = rankOf ns y := by
  unfold rankOf
  rw [getNode_setParent]
  cases h : getNode ns y with
  | none => simp
  | some n => by_cases hy : n.addr = p <;> simp [hy]

theorem rankOf_setRank (ns : List (Node T)) (p : Nat) (r : Int) (y : Nat) :
    rankOf (setRank ns p r) y = if y = p then (rankOf ns y).map (fun _ => r) else rankOf ns y := by
  unfold rankOf
  rw [getNode_setRank]
  cases h : getNode ns y with
  | none => simp
  | some n =>
    have hn := (getNode_some h).1
    subst hn
    by_cases hy : n.addr = p <;> simp [hy]

theorem dataOf_setParent (ns : List (Node T)) (p q y : Nat) :
    dataOf (setParent ns p q) y = dataOf ns y := by
  unfold dataOf
  rw [getNode_setParent]
  cases h : getNode ns y with
  | none => simp
  | some n => by_cases hy : n.addr = p <;> simp [hy]

theorem dataOf_setRank (ns : List (Node T)) (p : Nat) (r : Int) (y : Nat) :
    dataOf (setRank ns p r) y = dataOf ns y := by
  unfold dataOf
  rw [getNode_setRank]
  cases h : getNode ns y with
  | none => simp
  | some n => by_cases hy : n.addr = p <;> simp [hy]

theorem dataOf_compressed (l : List Nat) (R : Nat) (ns : List (Node T)) (y : Nat) :
    dataOf (compressed l R ns) y = dataOf ns y := by
  unfold dataOf
  rw [getNode_compressed]
  cases h : getNode ns y with
  | none => simp
  | some n => by_cases hy : n.addr ∈ l ∧ n.addr ≠ R <;> simp [hy]

theorem updateRank_setParent {ns : List (Node T)} {a b : Nat} {na nb : Node T}
    (ha : getNode ns a = some na) (hb : getNode ns b = some nb) :
    updateRank (setParent ns b a) a b = some (linked ns a b na.rank nb.rank) := by
  unfold updateRank linked
  rw [getNode_setParent, getNode_setParent, ha, hb]
  simp only [Option.map_some']
  have h1 : (if na.addr = b then { na with parent := a } else na).rank = na.rank := by
    by_cases h : na.addr = b <;> simp [h]
  have h2 : (if nb.addr = b then { nb with parent := a } else nb).rank = nb.rank := by
    by_cases h : nb.addr = b <;> simp [h]
  rw [h1, h2]
  by_cases h : na.rank = nb.rank <;> simp [h]

theorem addrs_linked (ns : List (Node T)) (a b : Nat) (ka kb : Int) :
    (linked ns a b ka kb).map (fun n => n.addr) = ns.map (fun n => n.addr) := by
  unfold linked
  by_cases h : ka = kb
  · simp only [h, if_true, addrs_setRank, addrs_setParent]
  · simp only [h, if_false, addrs_setParent]

theorem parentOf_linked (ns : List (Node T)) (a b : Nat) (ka kb : Int) (y : Nat) :
    parentOf (linked ns a b ka kb) y =
      if y = b then (parentOf ns y).map (fun _ => a) else parentOf ns y := by
  unfold linked
  by_cases h : ka = kb
  · simp only [h, if_true, parentOf_setRank, parentOf_setParent]
  · simp only [h, if_false, parentOf_setParent]

theorem rankOf_linked (ns : List (Node T)) (a b : Nat) (ka kb : Int) (y : Nat) :
    rankOf (linked ns a b ka kb) y =
      if y = a ∧ ka = kb then (rankOf ns y).map (fun _ => toInt32 (ka + 1))
      else rankOf ns y := by
  unfold linked
  by_cases h : ka = kb
  · simp only [h, if_true, rankOf_setRank, rankOf_setParent, and_true]
  · simp only [h, if_false, rankOf_setParent, and_false]

theorem dataOf_linked (ns : List (Node T)) (a b : Nat) (ka kb : Int) (y : Nat) :
    dataOf (linked ns a b ka kb) y = dataOf ns y := by
  unfold linked
  by_cases h : ka = kb
  · simp only [h, if_true, dataOf_setRank, dataOf_setParent]
  · simp only [h, if_false, dataOf_setParent]

/-- The forest after two different roots have been linked. -/
theorem linked_ok {s : DisjointForest T} (hwf : WellFormed s) {a b : Nat} (hab : a ≠ b)
    (ha : parentOf s.nodes a = some a) (hb : parentOf s.nodes b = some b) (ka kb : Int) :
    WellFormed { s with nodes := linked s.nodes a b ka kb } ∧
      addrs { s with nodes := linked s.nodes a b ka kb } = addrs s ∧
      (∀ z, rootOf { s with nodes := linked s.nodes a b ka kb } z =
        (rootOf s z).map (fun r => if r = b then a else r)) ∧
      parentOf (linked s.nodes a b ka kb) a = some a ∧
      parentOf (linked s.nodes a b ka kb) b = some a := by
  have haddrs : addrs { s with nodes := linked s.nodes a b ka kb } = addrs s := by
    simp only [addrs, addrs_linked]
  have hQb : parentOf (linked s.nodes a b ka kb) b = some a := by
    rw [parentOf_linked]; simp [hb]
  have hQ : ∀ z, z ≠ b → parentOf (linked s.nodes a b ka kb) z = parentOf s.nodes z := by
    intro z hz
    rw [parentOf_linked]; simp [hz]
  have hmap : ∀ z r, rootOf s z = some r →
      rootOf { s with nodes := linked s.nodes a b ka kb } z =
        some (if r = b then a else r) := by
    intro z r hz
    apply rootOf_eq_some_iff.2
    exact RootOf.link ha hb hab hQb hQ (rootOf_eq_some_iff.1 hz)
  refine ⟨⟨?_, ?_⟩, haddrs, ?_, (hQ a hab).trans ha, hQb⟩
  · rw [haddrs]; exact hwf.1
  · intro z hz
    rw [haddrs] at hz
    obtain ⟨r, hr⟩ := hwf.exists_root hz
    rw [hmap z r hr]; rfl
  · intro z
    by_cases hz : z ∈ addrs s
    · obtain ⟨r, hr⟩ := hwf.exists_root hz
      rw [hmap z r hr, hr]; rfl
    · rw [rootOf_eq_none_of_not_mem hz, rootOf_eq_none_of_not_mem (haddrs ▸ hz)]; rfl

/-- The outcome of `find`, with the payloads. -/
theorem find_ok_data {s : DisjointForest T} (hwf : WellFormed s) {x : Nat}
    (hx : x ∈ addrs s) :
    ∃ R s', find s (some x) = .ret R s' ∧ rootOf s x = some R ∧ WellFormed s' ∧
      addrs s' = addrs s ∧ { s' with nodes := s.nodes } = s ∧
      (∀ z, rootOf s' z = rootOf s z) ∧ (∀ z, rankOf s'.nodes z = rankOf s.nodes z) ∧
      (∀ z, dataOf s'.nodes z = dataOf s.nodes z) := by
  obtain ⟨l, R, hl, hlast, hR, hfind⟩ := find_spec hwf hx
  refine ⟨R, _, hfind, hR, wellFormed_compressed hwf hl hlast, ?_, rfl,
    rootOf_compressed_eq hwf hl hlast, rankOf_compressed l R s.nodes,
    dataOf_compressed l R s.nodes⟩
  simp [addrs, addrs_compressed]

/-- The outcome of `unionSets` in full: with `kx` and `ky` the ranks of the roots `rx` and
`ry` of the arguments, nothing but path compression happens when the roots are equal;
otherwise the root `b` is attached under the root `a`, where `a` is `ry` when `kx > ky` and
`rx` otherwise, and the rank of `a` is incremented as an `int` when the ranks are equal. -/
theorem unionSets_detail {s : DisjointForest T} (hwf : WellFormed s) {x y : Nat}
    (hx : x ∈ addrs s) (hy : y ∈ addrs s) :
    ∃ rx ry kx ky s', rootOf s x = some rx ∧ rootOf s y = some ry ∧
      rankOf s.nodes rx = some kx ∧ rankOf s.nodes ry = some ky ∧
      unionSets s (some x) (some y) = .ret () s' ∧ WellFormed s' ∧ addrs s' = addrs s ∧
      { s' with nodes := s.nodes } = s ∧ (∀ z, dataOf s'.nodes z = dataOf s.nodes z) ∧
      (rx = ry →
        (∀ z, rootOf s' z = rootOf s z) ∧ ∀ z, rankOf s'.nodes z = rankOf s.nodes z) ∧
      (rx ≠ ry → ∀ a b, a = (if kx > ky then ry else rx) → b = (if kx > ky then rx else ry) →
        (∀ z, rootOf s' z = (rootOf s z).map (fun r => if r = b then a else r)) ∧
        parentOf s'.nodes a = some a ∧ parentOf s'.nodes b = some a ∧
        ∀ z, rankOf s'.nodes z =
          if z = a ∧ kx = ky then some (toInt32 (kx + 1)) else rankOf s.nodes z) := by
  obtain ⟨rx, s1, hf1, hrx, hwf1, ha1, hs1, hroot1, hrank1, hdata1⟩ := find_ok_data hwf hx
  obtain ⟨ry, s2, hf2, hry, hwf2, ha2, hs2, hroot2, hrank2, hdata2⟩ :=
    find_ok_data hwf1 (ha1 ▸ hy)
  rw [hroot1] at hry
  have hroots : ∀ z, rootOf s2 z = rootOf s z := fun z => (hroot2 z).trans (hroot1 z)
  have hranks : ∀ z, rankOf s2.nodes z = rankOf s.nodes z :=
    fun z => (hrank2 z).trans (hrank1 z)
  have hdatas : ∀ z, dataOf s2.nodes z = dataOf s.nodes z :=
    fun z => (hdata2 z).trans (hdata1 z)
  have hs2' : { s2 with nodes := s.nodes } = s := by
    rw [← hs1, ← hs2]
  have hRx : RootOf (parentOf s2.nodes) x rx := rootOf_eq_some_iff.1 ((hroots x).trans hrx)
  have hRy : RootOf (parentOf s2.nodes) y ry := rootOf_eq_some_iff.1 ((hroots y).trans hry)
  have hpx := hRx.isRoot
  have hpy := hRy.isRoot
  obtain ⟨n1, hn1⟩ := Option.isSome_iff_exists.1
    (getNode_isSome_iff.2 (mem_addrs_of_parentOf hpx))
  obtain ⟨n2, hn2⟩ := Option.isSome_iff_exists.1
    (getNode_isSome_iff.2 (mem_addrs_of_parentOf hpy))
  have hk1 : rankOf s.nodes rx = some n1.rank := by
    rw [← hranks]; simp [rankOf, hn1]
  have hk2 : rankOf s.nodes ry = some n2.rank := by
    rw [← hranks]; simp [rankOf, hn2]
  refine ⟨rx, ry, n1.rank, n2.rank, ?_⟩
  by_cases hxy : rx = ry
  · have hu : unionSets s (some x) (some y) = .ret () s2 := by
      simp [unionSets, hf1, hf2, hxy]
    exact ⟨s2, hrx, hry, hk1, hk2, hu, hwf2, ha2.trans ha1, hs2', hdatas,
      fun _ => ⟨hroots, hranks⟩, fun h => absurd hxy h⟩
  · by_cases hr : n1.rank > n2.rank
    · have hu : unionSets s (some x) (some y) =
          .ret () { s2 with nodes := linked s2.nodes ry rx n2.rank n1.rank } := by
        simp only [unionSets, hf1, hf2, hxy, if_false, hn1, hn2, hr, if_true]
        rw [updateRank_setParent hn2 hn1]
      obtain ⟨h1, h2, h3, h4, h5⟩ :=
        linked_ok hwf2 (fun h => hxy h.symm) hpy hpx n2.rank n1.rank
      refine ⟨_, hrx, hry, hk1, hk2, hu, h1, h2.trans (ha2.trans ha1), hs2', ?_,
        fun h => absurd h hxy, ?_⟩
      · intro z
        simp only [dataOf_linked]
        exact hdatas z
      · intro _ a b ha hb
        simp only [hr, if_true] at ha hb
        rw [ha, hb]
        refine ⟨?_, h4, h5, ?_⟩
        · intro z
          rw [h3 z, hroots]
        · intro z
          simp only [rankOf_linked, hranks]
          have hne : n1.rank ≠ n2.rank := by omega
          have hne' : n2.rank ≠ n1.rank := fun h => hne h.symm
          simp [hne, hne']
    · have hu : unionSets s (some x) (some y) =
          .ret () { s2 with nodes := linked s2.nodes rx ry n1.rank n2.rank } := by
        simp only [unionSets, hf1, hf2, hxy, if_false, hn1, hn2, hr]
        rw [updateRank_setParent hn1 hn2]
      obtain ⟨h1, h2, h3, h4, h5⟩ := linked_ok hwf2 hxy hpx hpy n1.rank n2.rank
      refine ⟨_, hrx, hry, hk1, hk2, hu, h1, h2.trans (ha2.trans ha1), hs2', ?_,
        fun h => absurd h hxy, ?_⟩
      · intro z
        simp only [dataOf_linked]
        exact hdatas z
      · intro _ a b ha hb
        simp only [hr, if_false] at ha hb
        rw [ha, hb]
        refine ⟨?_, h4, h5, ?_⟩
        · intro z
          rw [h3 z, hroots]
        · intro z
          simp only [rankOf_linked, hranks]
          by_cases hz : z = rx ∧ n1.rank = n2.rank
          · simp only [hz, and_self, if_true]
            rw [← hz.1, ← hz.2]
            have := hk1
            rw [← hz.1] at this
            simp [this]
          · simp only [hz, if_false]

end DisjointForest

namespace DisjointForest

variable {T : Type}

/-! ### `unionSets` and ranks -/

/-- C11. `unionSets` is idempotent: on a well-formed forest and live nodes `A` and `B` that
are in the same class (in particular `B = A`) the call returns, every node keeps its root
and every rank is unchanged; and a second `unionSets(A, B)` right after a first one changes
neither a root nor a rank. -/
theorem unionSets_idempotent (s : DisjointForest T) (hwf : WellFormed s) (A B : Nat)
    (hA : A ∈ addrs s) (hB : B ∈ addrs s) :
    (rootOf s A = rootOf s B →
      ∃ s', unionSets s (some A) (some B) = .ret () s' ∧ addrs s' = addrs s ∧
        (∀ M ∈ addrs s, rootOf s' M = rootOf s M) ∧
        (∀ M ∈ addrs s, rankOf s'.nodes M = rankOf s.nodes M) ∧ s'.ranks = s.ranks) ∧
    (∃ s', unionSets s (some A) (some A) = .ret () s' ∧ addrs s' = addrs s ∧
        (∀ M ∈ addrs s, rootOf s' M = rootOf s M) ∧
        (∀ M ∈ addrs s, rankOf s'.nodes M = rankOf s.nodes M) ∧ s'.ranks = s.ranks) ∧
    (∃ s₁ s₂, unionSets s (some A) (some B) = .ret () s₁ ∧
        unionSets s₁ (some A) (some B) = .ret () s₂ ∧ addrs s₂ = addrs s₁ ∧
        (∀ M ∈ addrs s₁, rootOf s₂ M = rootOf s₁ M) ∧
        (∀ M ∈ addrs s₁, rankOf s₂.nodes M = rankOf s₁.nodes M) ∧ s₂.ranks = s₁.ranks) := by
  have same : ∀ (t : DisjointForest T), WellFormed t → ∀ X Y : Nat, X ∈ addrs t →
      Y ∈ addrs t → rootOf t X = rootOf t Y →
      ∃ t', unionSets t (some X) (some Y) = .ret () t' ∧ addrs t' = addrs t ∧
        (∀ M ∈ addrs t, rootOf t' M = rootOf t M) ∧
        (∀ M ∈ addrs t, rankOf t'.nodes M = rankOf t.nodes M) ∧ t'.ranks = t.ranks := by
    intro t ht X Y hX hY hXY
    obtain ⟨rx, ry, _, _, t', hrx, hry, _, _, hu, _, haddr, hst, _, hsame, _⟩ :=
      unionSets_detail ht hX hY
    have hr : rx = ry := by
      rw [hrx, hry] at hXY
      exact Option.some.inj hXY
    obtain ⟨h1, h2⟩ := hsame hr
    refine ⟨t', hu, haddr, fun M _ => h1 M, fun M _ => h2 M, ?_⟩
    rw [← hst]
  refine ⟨same s hwf A B hA hB, same s hwf A A hA hA rfl, ?_⟩
  obtain ⟨s₁, hu, hwf₁, haddr, hiff, _⟩ := unionSets_classes hwf hA hB
  have hAB : rootOf s₁ A = rootOf s₁ B :=
    (hiff A hA B hB).2 (Or.inr ⟨Or.inl rfl, Or.inr rfl⟩)
  obtain ⟨s₂, hu₂, h1, h2, h3, h4⟩ :=
    same s₁ hwf₁ A B (haddr ▸ hA) (haddr ▸ hB) hAB
  exact ⟨s₁, s₂, hu, hu₂, h1, h2, h3, h4⟩

/-- Instance of C11 on three singleton classes, as in the test `UnionSetsSameSet`. -/
theorem unionSets_idempotent_witness :
    WellFormed threeSets ∧ 1 ∈ addrs threeSets ∧ 2 ∈ addrs threeSets ∧
    ∃ s₁ s₂, unionSets threeSets (some 1) (some 2) = .ret () s₁ ∧
        unionSets s₁ (some 1) (some 2) = .ret () s₂ ∧ addrs s₂ = addrs s₁ ∧
        (∀ M ∈ addrs s₁, rootOf s₂ M = rootOf s₁ M) ∧
        (∀ M ∈ addrs s₁, rankOf s₂.nodes M = rankOf s₁.nodes M) ∧ s₂.ranks = s₁.ranks :=
  ⟨by decide, by decide, by decide,
    (unionSets_idempotent threeSets (by decide) 1 2 (by decide) (by decide)).2.2⟩

/-- What `unionSets` does with roots of different ranks: the root of the larger rank is
attached under the root of the smaller rank, which becomes the common root and keeps its
rank, so the rank of the common root is the minimum of the two ranks. -/
theorem unionSets_different_ranks (s : DisjointForest T) (hwf : WellFormed s) (A B : Nat)
    (hA : A ∈ addrs s) (hB : B ∈ addrs s) (rA rB : Nat) (kA kB : Int)
    (hrA : rootOf s A = some rA) (hrB : rootOf s B = some rB)
    (hkA : rankOf s.nodes rA = some kA) (hkB : rankOf s.nodes rB = some kB)
    (hne : rA ≠ rB) (hk : kA ≠ kB) :
    ∃ s' small large, unionSets s (some A) (some B) = .ret () s' ∧
      small = (if kA < kB then rA else rB) ∧ large = (if kA < kB then rB else rA) ∧
      rootOf s' A = some small ∧ rootOf s' B = some small ∧
      parentOf s'.nodes large = some small ∧ parentOf s'.nodes small = some small ∧
      rankOf s'.nodes small = some (min kA kB) ∧ rankOf s'.nodes large = some (max kA kB) := by
  obtain ⟨rx, ry, kx, ky, s', hrx, hry, hkx, hky, hu, _, _, _, _, _, hdiff⟩ :=
    unionSets_detail hwf hA hB
  rw [hrA] at hrx
  rw [hrB] at hry
  cases Option.some.inj hrx
  cases Option.some.inj hry
  rw [hkA] at hkx
  rw [hkB] at hky
  cases Option.some.inj hkx
  cases Option.some.inj hky
  obtain ⟨hroot, hpa, hpb, hrank⟩ := hdiff hne _ _ rfl rfl
  refine ⟨s', _, _, hu, rfl, rfl, ?_⟩
  by_cases hlt : kA < kB
  · have hgt : ¬ kA > kB := by omega
    simp only [hgt, if_false] at hroot hpa hpb hrank
    simp only [hlt, if_true]
    refine ⟨?_, ?_, hpb, hpa, ?_, ?_⟩
    · rw [hroot, hrA]; simp [hne]
    · rw [hroot, hrB]; simp
    · rw [hrank, hkA]; simp [hk]; omega
    · rw [hrank, hkB]; simp [hk]; omega
  · have hgt : kA > kB := by omega
    simp only [hgt, if_true] at hroot hpa hpb hrank
    simp only [hlt, if_false]
    refine ⟨?_, ?_, hpb, hpa, ?_, ?_⟩
    · rw [hroot, hrA]; simp
    · rw [hroot, hrB]; simp [fun h : rB = rA => hne h.symm]
    · rw [hrank, hkB]; simp [hk]; omega
    · rw [hrank, hkA]; simp [hk]; omega

/-- C12, the failing call. In the test `UnionSetsWithRank`, after `unionSets(1, 2)` node 1
is a root of rank 1 and node 3 a root of rank 0; `unionSets(1, 3)` then attaches node 1,
the root of the larger rank, under node 3: the common root is node 3 and its rank is 0,
not the maximum 1 of the two ranks. -/
theorem unionSets_rank_inverted :
    run empty [.makeSet 1 1, .makeSet 2 2, .makeSet 3 3, .unionSets 1 2] = some rankBefore ∧
    rootOf rankBefore 1 = some 1 ∧ rankOf rankBefore.nodes 1 = some 1 ∧
    rootOf rankBefore 3 = some 3 ∧ rankOf rankBefore.nodes 3 = some 0 ∧
    unionSets rankBefore (some 1) (some 3) = .ret () rankAfter ∧
    parentOf rankAfter.nodes 1 = some 3 ∧ rootOf rankAfter 1 = some 3 ∧
    rootOf rankAfter 3 = some 3 ∧ rankOf rankAfter.nodes 3 = some 0 := by
  decide

theorem toInt32_of_int {x : Int} (h0 : -2147483648 ≤ x) (h1 : x < 2147483648) :
    toInt32 x = x := by
  unfold toInt32
  omega

/-- C13 as stated fails: in the well-formed forest `maxRank` the two roots have the same
rank 2147483647, and after `unionSets` the rank of the common root is `-2147483648`, not
`2147483647 + 1`: the increment is on an `int`. -/
theorem unionSets_equal_rank_wraps :
    WellFormed maxRank ∧ rootOf maxRank 1 = some 1 ∧ rootOf maxRank 2 = some 2 ∧
    rankOf maxRank.nodes 1 = some 2147483647 ∧ rankOf maxRank.nodes 2 = some 2147483647 ∧
    unionSets maxRank (some 1) (some 2) = .ret () maxRankUnited ∧
    rootOf maxRankUnited 1 = some 1 ∧ rootOf maxRankUnited 2 = some 1 ∧
    rankOf maxRankUnited.nodes 1 = some (-2147483648) ∧
    rankOf maxRankUnited.nodes 1 ≠ some (2147483647 + 1) := by
  decide

/-- C13, amended. Equal-rank union: when the roots `rA` and `rB` of `A` and `B` are
different and have the same rank `r`, an `int` below the largest `int`, after
`unionSets(A, B)` the common root is `rA`, the root of the first argument, with rank
`r + 1`; the other former root `rB` keeps rank `r` and is a child of `rA`. -/
theorem unionSets_equal_rank (s : DisjointForest T) (hwf : WellFormed s) (A B : Nat)
    (hA : A ∈ addrs s) (hB : B ∈ addrs s) (rA rB : Nat) (r : Int)
    (hrA : rootOf s A = some rA) (hrB : rootOf s B = some rB) (hne : rA ≠ rB)
    (hkA : rankOf s.nodes rA = some r) (hkB : rankOf s.nodes rB = some r)
    (hlo : -2147483648 ≤ r) (hhi : r < 2147483647) :
    ∃ s', unionSets s (some A) (some B) = .ret () s' ∧
      rootOf s' A = some rA ∧ rootOf s' B = some rA ∧
      rankOf s'.nodes rA = some (r + 1) ∧ rankOf s'.nodes rB = some r ∧
      parentOf s'.nodes rA = some rA ∧ parentOf s'.nodes rB = some rA := by
  obtain ⟨rx, ry, kx, ky, s', hrx, hry, hkx, hky, hu, _, _, _, _, _, hdiff⟩ :=
    unionSets_detail hwf hA hB
  rw [hrA] at hrx
  rw [hrB] at hry
  cases Option.some.inj hrx
  cases Option.some.inj hry
  rw [hkA] at hkx
  rw [hkB] at hky
  cases Option.some.inj hkx
  cases Option.some.inj hky
  obtain ⟨hroot, hpa, hpb, hrank⟩ := hdiff hne _ _ rfl rfl
  have hgt : ¬ r > r := by omega
  simp only [hgt, if_false] at hroot hpa hpb hrank
  refine ⟨s', hu, ?_, ?_, ?_, ?_, hpa, hpb⟩
  · rw [hroot, hrA]; simp [hne]
  · rw [hroot, hrB]; simp
  · rw [hrank]
    simp only [and_self, if_true]
    rw [toInt32_of_int (by omega) (by omega)]
  · rw [hrank, hkB]
    have : rB ≠ rA := fun h => hne h.symm
    simp [this]

/-- Instance of C13, amended: after `makeSet` twice and `unionSets(1, 2)`, node 1 is the
root with rank 1 and node 2 is its child with rank 0. -/
theorem unionSets_equal_rank_witness :
    WellFormed threeSets ∧ 1 ∈ addrs threeSets ∧ 2 ∈ addrs threeSets ∧
    rootOf threeSets 1 = some 1 ∧ rootOf threeSets 2 = some 2 ∧ (1 : Nat) ≠ 2 ∧
    rankOf threeSets.nodes 1 = some 0 ∧ rankOf threeSets.nodes 2 = some 0 ∧
    (-2147483648 : Int) ≤ 0 ∧ (0 : Int) < 2147483647 ∧
    ∃ s', unionSets threeSets (some 1) (some 2) = .ret () s' ∧
      rootOf s' 1 = some 1 ∧ rootOf s' 2 = some 1 ∧
      rankOf s'.nodes 1 = some (0 + 1) ∧ rankOf s'.nodes 2 = some 0 ∧
      parentOf s'.nodes 1 = some 1 ∧ parentOf s'.nodes 2 = some 1 :=
  ⟨by decide, by decide, by decide, by decide, by decide, by decide, by decide, by decide,
    by decide, by decide,
    unionSets_equal_rank threeSets (by decide) 1 2 (by decide) (by decide) 1 2 0
      (by decide) (by decide) (by decide) (by decide) (by decide) (by decide) (by decide)⟩

end DisjointForest

namespace DisjointForest

variable {T : Type}

/-! ### The nodes after `contract` -/

theorem getNode_contract {s s' : DisjointForest T} {x : Nat}
    (hs' : s'.nodes = (reparentLoop x (newParent s.nodes x) s.nodes).filter
        (fun n => decide (n.addr ≠ x))) (y : Nat) :
    getNode s'.nodes y =
      if y = x then none
      else (getNode s.nodes y).map (fun n =>
        if n.addr ≠ x ∧ n.parent = x then { n with parent := newParent s.nodes x } else n) := by
  rw [hs', getNode_filter_ne, getNode_reparentLoop]

theorem rankOf_contract {s s' : DisjointForest T} {x : Nat}
    (hs' : s'.nodes = (reparentLoop x (newParent s.nodes x) s.nodes).filter
        (fun n => decide (n.addr ≠ x))) {y : Nat} (hy : y ≠ x) :
    rankOf s'.nodes y = rankOf s.nodes y := by
  unfold rankOf
  rw [getNode_contract hs']
  simp only [hy, if_false]
  cases h : getNode s.nodes y with
  | none => simp
  | some n => by_cases hc : n.addr ≠ x ∧ n.parent = x <;> simp [hc]

theorem dataOf_contract {s s' : DisjointForest T} {x : Nat}
    (hs' : s'.nodes = (reparentLoop x (newParent s.nodes x) s.nodes).filter
        (fun n => decide (n.addr ≠ x))) {y : Nat} (hy : y ≠ x) :
    dataOf s'.nodes y = dataOf s.nodes y := by
  unfold dataOf
  rw [getNode_contract hs']
  simp only [hy, if_false]
  cases h : getNode s.nodes y with
  | none => simp
  | some n => by_cases hc : n.addr ≠ x ∧ n.parent = x <;> simp [hc]

/-- The first direct child of `x` in storage order, as `newParent` finds it. -/
theorem newParent_of_root {ns : List (Node T)} {x : Nat} (hx : parentOf ns x = some x) :
    newParent ns x =
      match ns.find? (fun m => decide (m.addr ≠ x ∧ m.parent = x)) with
      | none => x
      | some c => c.addr := by
  unfold parentOf at hx
  obtain ⟨n, hn, hnp⟩ := Option.map_eq_some'.1 hx
  unfold newParent
  simp only [hn, hnp, if_true]

theorem newParent_of_nonroot {ns : List (Node T)} {x p : Nat} (hx : parentOf ns x = some p)
    (hp : p ≠ x) : newParent ns x = p := by
  unfold parentOf at hx
  obtain ⟨n, hn, hnp⟩ := Option.map_eq_some'.1 hx
  unfold newParent
  simp only [hn, hnp, hp, if_false]

end DisjointForest

namespace DisjointForest

variable {T : Type}

/-! ### The two branches of `contract`, and `makeSet` -/

/-- C14. `contract` of a node `N` that is not a root, with parent `P`: the call returns,
every node whose parent was `N` has parent `P` afterwards, every other remaining node has
the parent it had, and every remaining node has the root it had. -/
theorem contract_nonroot (s : DisjointForest T) (hwf : WellFormed s) (N P : Nat)
    (hN : N ∈ addrs s) (hP : parentOf s.nodes N = some P) (hne : P ≠ N) :
    ∃ s', contract s (some N) = .ret () s' ∧
      addrs s' = (addrs s).filter (fun a => decide (a ≠ N)) ∧
      (∀ M ∈ addrs s, M ≠ N → parentOf s.nodes M = some N → parentOf s'.nodes M = some P) ∧
      (∀ M ∈ addrs s, M ≠ N → parentOf s.nodes M ≠ some N →
        parentOf s'.nodes M = parentOf s.nodes M) ∧
      (∀ M ∈ addrs s, M ≠ N → rootOf s' M = rootOf s M) := by
  obtain ⟨s', hc, _, haddr, hnodes, hroots, _⟩ := contract_ok hwf hN
  have hq : newParent s.nodes N = P := newParent_of_nonroot hP hne
  refine ⟨s', hc, haddr, ?_, ?_, ?_⟩
  · intro M _ hMN hpar
    rw [parentOf_contract hnodes, hq]
    simp [hMN, hpar]
  · intro M _ hMN hpar
    rw [parentOf_contract hnodes]
    simp [hMN, hpar]
  · intro M hM hMN
    obtain ⟨r, hr⟩ := hwf.exists_root hM
    rw [hroots M hMN, hr]
    have hrN : r ≠ N := by
      intro h
      have := (rootOf_eq_some_iff.1 hr).isRoot
      rw [h, hP] at this
      exact hne (Option.some.inj this)
    simp [hrN]

/-- Instance of C14 on the chain 2 → 1, 3 → 2, 4 → 3: node 2 is contracted. -/
theorem contract_nonroot_witness :
    WellFormed chain4 ∧ 2 ∈ addrs chain4 ∧ parentOf chain4.nodes 2 = some 1 ∧ (1 : Nat) ≠ 2 ∧
    ∃ s', contract chain4 (some 2) = .ret () s' ∧
      addrs s' = (addrs chain4).filter (fun a => decide (a ≠ 2)) ∧
      (∀ M ∈ addrs chain4, M ≠ 2 → parentOf chain4.nodes M = some 2 →
        parentOf s'.nodes M = some 1) ∧
      (∀ M ∈ addrs chain4, M ≠ 2 → parentOf chain4.nodes M ≠ some 2 →
        parentOf s'.nodes M = parentOf chain4.nodes M) ∧
      (∀ M ∈ addrs chain4, M ≠ 2 → rootOf s' M = rootOf chain4 M) :=
  ⟨by decide, by decide, by decide, by decide,
    contract_nonroot chain4 (by decide) 2 1 (by decide) (by decide) (by decide)⟩

/-- The scenario `Contract preserves descendants` evaluated: on the chain 2 → 1, 3 → 2,
4 → 3 the call `contract(node2)` leaves `find(3) == find(4) == node1`. -/
theorem contract_chain4 :
    contract chain4 (some 2) = .ret () chain4Contracted ∧
    find chain4Contracted (some 3) = .ret 1 chain4Contracted ∧
    find chain4Contracted (some 4) =
      .ret 1 { chain4Contracted with nodes := [⟨1, 1, 1, 0⟩, ⟨3, 3, 1, 0⟩, ⟨4, 4, 1, 0⟩] } := by
  decide

/-- C20. `contract` of a root `N`: the call returns; the first node in storage order whose
parent was `N` is its own parent afterwards, and every other node whose parent was `N` has
that node as parent; every remaining node that was not a direct child of `N` has the parent
it had; every remaining node has the rank it had; and when `N` had no direct child, the
remaining nodes are exactly as they were. -/
theorem contract_root (s : DisjointForest T) (hwf : WellFormed s) (N : Nat)
    (hN : N ∈ addrs s) (hroot : parentOf s.nodes N = some N) :
    ∃ s', contract s (some N) = .ret () s' ∧
      addrs s' = (addrs s).filter (fun a => decide (a ≠ N)) ∧
      (∀ c, s.nodes.find? (fun m => decide (m.addr ≠ N ∧ m.parent = N)) = some c →
        parentOf s'.nodes c.addr = some c.addr ∧
        ∀ M ∈ addrs s, M ≠ N → M ≠ c.addr → parentOf s.nodes M = some N →
          parentOf s'.nodes M = some c.addr) ∧
      (∀ M ∈ addrs s, M ≠ N → parentOf s.nodes M ≠ some N →
        parentOf s'.nodes M = parentOf s.nodes M) ∧
      (∀ M ∈ addrs s, M ≠ N → rankOf s'.nodes M = rankOf s.nodes M) ∧
      (s.nodes.find? (fun m => decide (m.addr ≠ N ∧ m.parent = N)) = none →
        s'.nodes = s.nodes.filter (fun n => decide (n.addr ≠ N))) := by
  obtain ⟨s', hc, _, haddr, hnodes, _, _⟩ := contract_ok hwf hN
  have hq := newParent_of_root hroot
  refine ⟨s', hc, haddr, ?_, ?_, ?_, ?_⟩
  · intro c hfind
    rw [hfind] at hq
    simp only at hq
    have h1 := List.find?_some hfind
    have h2 := List.mem_of_find?_eq_some hfind
    simp only [decide_eq_true_eq] at h1
    have hpc : parentOf s.nodes c.addr = some N := by
      simp [parentOf, getNode_of_mem hwf.1 h2, h1.2]
    refine ⟨?_, ?_⟩
    · rw [parentOf_contract hnodes, hq]
      simp [h1.1, hpc]
    · intro M _ hMN _ hpar
      rw [parentOf_contract hnodes, hq]
      simp [hMN, hpar]
  · intro M _ hMN hpar
    rw [parentOf_contract hnodes]
    simp [hMN, hpar]
  · intro M _ hMN
    exact rankOf_contract hnodes hMN
  · intro hnone
    rw [hnodes, reparentLoop_eq_self_of_no_child N _ s.nodes hnone]

/-- Instance of C20 on the end-to-end scenario: the root (the node holding 8) is
contracted. -/
theorem contract_root_witness :
    WellFormed scenario ∧ 108 ∈ addrs scenario ∧ parentOf scenario.nodes 108 = some 108 ∧
    ∃ s', contract scenario (some 108) = .ret () s' ∧
      addrs s' = (addrs scenario).filter (fun a => decide (a ≠ 108)) ∧
      (∀ c, scenario.nodes.find? (fun m => decide (m.addr ≠ 108 ∧ m.parent = 108)) = some c →
        parentOf s'.nodes c.addr = some c.addr ∧
        ∀ M ∈ addrs scenario, M ≠ 108 → M ≠ c.addr → parentOf scenario.nodes M = some 108 →
          parentOf s'.nodes M = some c.addr) ∧
      (∀ M ∈ addrs scenario, M ≠ 108 → parentOf scenario.nodes M ≠ some 108 →
        parentOf s'.nodes M = parentOf scenario.nodes M) ∧
      (∀ M ∈ addrs scenario, M ≠ 108 → rankOf s'.nodes M = rankOf scenario.nodes M) ∧
      (scenario.nodes.find? (fun m => decide (m.addr ≠ 108 ∧ m.parent = 108)) = none →
        s'.nodes = scenario.nodes.filter (fun n => decide (n.addr ≠ 108))) :=
  ⟨by decide, by decide, by decide,
    contract_root scenario (by decide) 108 (by decide) (by decide)⟩

/-- The root of the end-to-end scenario contracted: node 100, the first child in storage
order, becomes the root, and the children 104 and 109 point to it. -/
theorem contract_scenario_root :
    ∃ s', contract scenario (some 108) = .ret () s' ∧
      parentOf s'.nodes 100 = some 100 ∧ parentOf s'.nodes 104 = some 100 ∧
      parentOf s'.nodes 109 = some 100 ∧ rankOf s'.nodes 100 = some 1 := by
  refine ⟨_, rfl, ?_, ?_, ?_, ?_⟩ <;> decide

/-- C15. `makeSet` creates a fresh singleton class: with `p` the address of the new node,
which the allocator keeps apart from every live node, the call returns `p`; the new node
has the given data, is its own parent and has rank 0; every node that existed keeps its
data, parent and rank; `find` on the new handle returns the new handle and changes nothing;
and in a well-formed forest every node that existed keeps its root, which is not the new
node. -/
theorem makeSet_fresh_singleton (s : DisjointForest T) (p : Nat) (d : T)
    (hp : p ∉ addrs s) :
    (makeSet s p d).1 = p ∧ (makeSet s p d).1 ∉ addrs s ∧
    addrs (makeSet s p d).2 = addrs s ++ [p] ∧
    getNode (makeSet s p d).2.nodes p =
      some { addr := p, data := d, parent := p, rank := 0 } ∧
    (∀ z ∈ addrs s, getNode (makeSet s p d).2.nodes z = getNode s.nodes z) ∧
    find (makeSet s p d).2 (some p) = .ret p (makeSet s p d).2 ∧
    (WellFormed s → ∀ z ∈ addrs s,
      rootOf (makeSet s p d).2 z = rootOf s z ∧ rootOf (makeSet s p d).2 z ≠ some p) := by
  refine ⟨rfl, hp, addrs_makeSet s p d, getNode_makeSet_new hp, ?_, ?_, ?_⟩
  · intro z hz
    simp only [makeSet]
    exact getNode_append_of_mem hz
  · have hg := getNode_makeSet_new (d := d) hp
    have hlen : (makeSet s p d).2.nodes.length = s.nodes.length + 1 := by
      simp [makeSet]
    simp only [find, hlen, findRoot, compressPath, hg, if_true]
  · intro hwf z hz
    obtain ⟨_, _, _, hold⟩ := makeSet_ok hwf hp d
    refine ⟨hold z hz, ?_⟩
    rw [hold z hz]
    intro h
    exact hp (rootOf_mem_addrs h).2

/-- Instance of C15: a fourth node is created in the forest of three singleton classes. -/
theorem makeSet_fresh_singleton_witness :
    4 ∉ addrs threeSets ∧
    (makeSet threeSets 4 4).1 = 4 ∧ (makeSet threeSets 4 4).1 ∉ addrs threeSets ∧
    addrs (makeSet threeSets 4 4).2 = addrs threeSets ++ [4] ∧
    getNode (makeSet threeSets 4 4).2.nodes 4 =
      some { addr := 4, data := 4, parent := 4, rank := 0 } ∧
    (∀ z ∈ addrs threeSets,
      getNode (makeSet threeSets 4 4).2.nodes z = getNode threeSets.nodes z) ∧
    find (makeSet threeSets 4 4).2 (some 4) = .ret 4 (makeSet threeSets 4 4).2 ∧
    (WellFormed threeSets → ∀ z ∈ addrs threeSets,
      rootOf (makeSet threeSets 4 4).2 z = rootOf threeSets z ∧
        rootOf (makeSet threeSets 4 4).2 z ≠ some 4) :=
  ⟨by decide, makeSet_fresh_singleton threeSets 4 4 (by decide)⟩

end DisjointForest

namespace DisjointForest

variable {T : Type}

/-! ### Payloads -/

theorem dataOf_of_payloads {ns ns' : List (Node T)} (h : payloads ns' = payloads ns)
    (z : Nat) : dataOf ns' z = dataOf ns z := by
  induction ns generalizing ns' with
  | nil =>
    cases ns' with
    | nil => rfl
    | cons a rest => simp [payloads] at h
  | cons b rest ih =>
    cases ns' with
    | nil => simp [payloads] at h
    | cons a rest' =>
      simp only [payloads, List.map_cons, List.cons.injEq, Prod.mk.injEq] at h
      obtain ⟨⟨h1, h2⟩, h3⟩ := h
      have ih' := @ih rest' h3
      unfold dataOf getNode at ih' ⊢
      simp only [List.find?_cons, h1]
      by_cases hb : b.addr = z
      · simp [hb, h2]
      · simp only [hb, decide_False]
        exact ih'

theorem payloads_setParent (ns : List (Node T)) (p q : Nat) :
    payloads (setParent ns p q) = payloads ns := by
  unfold payloads setParent
  rw [List.map_map]
  apply List.map_congr_left
  intro n _
  by_cases h : n.addr = p <;> simp [h]

theorem payloads_setRank (ns : List (Node T)) (p : Nat) (r : Int) :
    payloads (setRank ns p r) = payloads ns := by
  unfold payloads setRank
  rw [List.map_map]
  apply List.map_congr_left
  intro n _
  by_cases h : n.addr = p <;> simp [h]

theorem compressPath_payloads (R : Nat) :
    ∀ (k : Nat) (ns : List (Node T)) (x : Nat) (ns' : List (Node T)),
      compressPath R k ns x = some ns' → payloads ns' = payloads ns := by
  intro k
  induction k with
  | zero => intro ns x ns' h; simp [compressPath] at h
  | succ k ih =>
    intro ns x ns' h
    rw [compressPath] at h
    split at h
    · cases h
    · split at h
      · cases h; rfl
      · rw [ih _ _ _ h, payloads_setParent]

theorem find_state_payloads {s s' : DisjointForest T} {h : Option Nat}
    (hs : (find s h).state? = some s') : payloads s'.nodes = payloads s.nodes := by
  unfold find at hs
  split at hs
  · cases hs; rfl
  · split at hs
    · cases hs
    · split at hs
      · cases hs
      · next ns hns =>
        cases hs
        exact compressPath_payloads _ _ _ _ _ hns

theorem updateRank_payloads {ns ns' : List (Node T)} {a b : Nat}
    (h : updateRank ns a b = some ns') : payloads ns' = payloads ns := by
  unfold updateRank at h
  split at h
  · split at h
    · cases h; exact payloads_setRank _ _ _
    · cases h; rfl
  · cases h

theorem unionSets_state_payloads {s s' : DisjointForest T} {h₁ h₂ : Option Nat}
    (hs : (unionSets s h₁ h₂).state? = some s') : payloads s'.nodes = payloads s.nodes := by
  unfold unionSets at hs
  split at hs
  · next x y =>
    split at hs
    · next root1 s1 hf1 =>
      have l1 : payloads s1.nodes = payloads s.nodes :=
        find_state_payloads (h := some x) (by rw [hf1]; rfl)
      split at hs
      · next root2 s2 hf2 =>
        have l2 : payloads s2.nodes = payloads s1.nodes :=
          find_state_payloads (h := some y) (by rw [hf2]; rfl)
        split at hs
        · cases hs; exact l2.trans l1
        · split at hs
          · simp only at hs
            split at hs
            · next ns hns =>
              cases hs
              simp only
              rw [updateRank_payloads hns, payloads_setParent]
              exact l2.trans l1
            · cases hs
          · cases hs
      · next e s2 hf2 =>
        have l2 : payloads s2.nodes = payloads s1.nodes :=
          find_state_payloads (h := some y) (by rw [hf2]; rfl)
        cases hs; exact l2.trans l1
      · cases hs
    · next e s1 hf1 =>
      have l1 : payloads s1.nodes = payloads s.nodes :=
        find_state_payloads (h := some x) (by rw [hf1]; rfl)
      cases hs; exact l1
    · cases hs
  · cases hs; rfl

theorem find?_eraseIdx_findIdx {α : Type} (p q : α → Bool) (l : List α)
    (hpq : ∀ a ∈ l, p a = true → q a = false) :
    (match l.findIdx? p with
      | some i => l.eraseIdx i
      | none => l).find? q = l.find? q := by
  induction l with
  | nil => rfl
  | cons b rest ih =>
    rw [List.findIdx?_cons]
    by_cases hb : p b = true
    · simp only [hb, if_true, List.eraseIdx_cons_zero, List.find?_cons]
      rw [hpq b (List.mem_cons_self _ _) hb]
    · simp only [hb, Bool.false_eq_true, if_false, List.findIdx?_succ, Nat.zero_add]
      have ih' := ih (fun a ha => hpq a (List.mem_cons_of_mem _ ha))
      cases hf : rest.findIdx? p with
      | none => simp
      | some i =>
        simp only [hf] at ih'
        simp only [Option.map_some', List.eraseIdx_cons_succ, List.find?_cons]
        rw [ih']

/-- The removal at the end of `contract` leaves every other node in place. -/
theorem getNode_eraseNode_ne (t : DisjointForest T) {x z : Nat} (hz : z ≠ x) :
    getNode (eraseNode t x).nodes z = getNode t.nodes z := by
  have h := find?_eraseIdx_findIdx (fun n : Node T => decide (n.addr = x))
    (fun n : Node T => decide (n.addr = z)) t.nodes (by
      intro a _ ha
      simp only [decide_eq_true_eq] at ha
      simp only [decide_eq_false_iff_not]
      rw [ha]
      exact fun h => hz h.symm)
  unfold getNode
  rw [← h]
  unfold eraseNode
  cases List.findIdx? (fun n : Node T => decide (n.addr = x)) t.nodes <;> rfl

theorem dataOf_reparentLoop (x q : Nat) (ns : List (Node T)) (y : Nat) :
    dataOf (reparentLoop x q ns) y = dataOf ns y := by
  unfold dataOf
  rw [getNode_reparentLoop]
  cases h : getNode ns y with
  | none => simp
  | some n => by_cases hc : n.addr ≠ x ∧ n.parent = x <;> simp [hc]

/-- The payloads after `contract`, on any forest. -/
theorem contract_state_data {s s' : DisjointForest T} {N : Nat}
    (hs : (contract s (some N)).state? = some s') {z : Nat} (hz : z ≠ N) :
    dataOf s'.nodes z = dataOf s.nodes z := by
  by_cases hN : N ∈ addrs s
  · rw [contract_eq hN] at hs
    cases hs
    unfold dataOf
    rw [getNode_eraseNode_ne _ hz]
    exact dataOf_reparentLoop N _ s.nodes z
  · have : getNode s.nodes N = none := getNode_eq_none_iff.2 hN
    simp [contract, this, Outcome.state?] at hs

end DisjointForest

namespace DisjointForest

variable {T : Type}

/-! ### `expand` -/

/-- The part of C16 that holds: on a positive amount `n`, as long as the sum of the capacity
and `n` fits in an `int`, `expand` returns, leaves the nodes, the ranks and `size()` as they
were, and `capacity()` grows by exactly `n`. -/
theorem expand_spec (s : DisjointForest T) (n : Int) (h0 : 0 < n)
    (h1 : (s.nodesCap : Int) + n < 2147483648) :
    ∃ s', expand s n = .ret () s' ∧ s'.nodes = s.nodes ∧ s'.ranks = s.ranks ∧
      size s' = size s ∧ getAllNodes s' = getAllNodes s ∧
      capacity s' = capacity s + n := by
  have hc : (0 : Int) ≤ (s.nodesCap : Int) := Int.ofNat_nonneg _
  have hx := toInt32_of_lt (x := (s.nodesCap : Int) + n) (by omega) h1
  have hs := toSizeT_of_nonneg (x := (s.nodesCap : Int) + n) (by omega) h1
  have h2 : ¬ toSizeT ((s.nodesCap : Int) + n) > maxSizeNodes := by
    unfold maxSizeNodes; omega
  have h3 : ¬ toSizeT ((s.nodesCap : Int) + n) > maxSizeRanks := by
    unfold maxSizeRanks; omega
  refine ⟨{ s with
      nodesCap := max s.nodesCap (toSizeT ((s.nodesCap : Int) + n))
      ranksCap := max s.ranksCap (toSizeT ((s.nodesCap : Int) + n)) }, ?_, rfl, rfl, rfl,
    rfl, ?_⟩
  · simp only [expand, not_le.2 h0, if_false, hx, h2, h3]
  · unfold capacity
    simp only
    have hmax : ((max s.nodesCap (toSizeT ((s.nodesCap : Int) + n)) : Nat) : Int) =
        (s.nodesCap : Int) + n := by
      have : s.nodesCap ≤ toSizeT ((s.nodesCap : Int) + n) := by omega
      rw [max_eq_right this, hs]
    rw [hmax, toInt32_of_lt (by omega) h1, toInt32_of_lt hc (by omega)]

/-- C16, the failing call. On the forest with one node, whose capacity is 1, the call
`expand(2147483647)` does not succeed: it throws `std::length_error`, and the capacity is
still 1 afterwards, not at least `1 + 2147483647`. -/
theorem expand_capacity_overflow :
    capacity oneSet = 1 ∧
    (expand oneSet 2147483647).state? = some oneSet ∧
    (∀ s', expand oneSet 2147483647 ≠ .ret () s') := by
  refine ⟨by decide, by decide, ?_⟩
  intro s' h
  have : expand oneSet 2147483647 = .throw .lengthError oneSet := by decide
  rw [this] at h
  cases h

/-! ### Payloads -/

/-- C18. The payload is never mutated: whatever state a call of `makeSet`, `find`,
`unionSets`, `expand` or `contract` leaves, every node that is live before and after the
call has the data it had; and on live handles of a well-formed forest `find`, `unionSets`
and `contract` do return such a state. -/
theorem payload_never_mutated :
    (∀ (s : DisjointForest T) (p : Nat) (d : T), ∀ z ∈ addrs s,
      dataOf (makeSet s p d).2.nodes z = dataOf s.nodes z) ∧
    (∀ (s s' : DisjointForest T) (h : Option Nat), (find s h).state? = some s' →
      ∀ z, dataOf s'.nodes z = dataOf s.nodes z) ∧
    (∀ (s s' : DisjointForest T) (h₁ h₂ : Option Nat),
      (unionSets s h₁ h₂).state? = some s' → ∀ z, dataOf s'.nodes z = dataOf s.nodes z) ∧
    (∀ (s s' : DisjointForest T) (n : Int), (expand s n).state? = some s' →
      ∀ z, dataOf s'.nodes z = dataOf s.nodes z) ∧
    (∀ (s s' : DisjointForest T) (N : Nat), (contract s (some N)).state? = some s' →
      ∀ z, z ≠ N → dataOf s'.nodes z = dataOf s.nodes z) ∧
    (∀ (s : DisjointForest T) (N : Nat), WellFormed s → N ∈ addrs s →
      ∃ R s', find s (some N) = .ret R s' ∧ ∀ z, dataOf s'.nodes z = dataOf s.nodes z) ∧
    (∀ (s : DisjointForest T) (A B : Nat), WellFormed s → A ∈ addrs s → B ∈ addrs s →
      ∃ s', unionSets s (some A) (some B) = .ret () s' ∧
        ∀ z, dataOf s'.nodes z = dataOf s.nodes z) ∧
    (∀ (s : DisjointForest T) (N : Nat), N ∈ addrs s →
      ∃ s', contract s (some N) = .ret () s' ∧
        ∀ z, z ≠ N → dataOf s'.nodes z = dataOf s.nodes z) := by
  refine ⟨?_, ?_, ?_, ?_, ?_, ?_, ?_, ?_⟩
  · intro s p d z hz
    unfold dataOf
    simp only [makeSet]
    rw [getNode_append_of_mem hz]
  · intro s s' h hs z
    exact dataOf_of_payloads (find_state_payloads hs) z
  · intro s s' h₁ h₂ hs z
    exact dataOf_of_payloads (unionSets_state_payloads hs) z
  · intro s s' n hs z
    rw [(expand_nodes hs).1]
  · intro s s' N hs z hz
    exact contract_state_data hs hz
  · intro s N hwf hN
    obtain ⟨R, s', hf, _, _, _, _, _, _, hd⟩ := find_ok_data hwf hN
    exact ⟨R, s', hf, hd⟩
  · intro s A B hwf hA hB
    obtain ⟨_, _, _, _, s', _, _, _, _, hu, _, _, _, hd, _⟩ := unionSets_detail hwf hA hB
    exact ⟨s', hu, hd⟩
  · intro s N hN
    refine ⟨_, contract_eq hN, ?_⟩
    intro z hz
    have hst : (contract s (some N)).state? =
        some (eraseNode { s with nodes := reparentLoop N (newParent s.nodes N) s.nodes } N) := by
      rw [contract_eq hN]; rfl
    exact contract_state_data hst hz

/-- Instance of C18 on the end-to-end scenario: `unionSets` on the nodes holding 2 and 3. -/
theorem payload_never_mutated_witness :
    WellFormed scenario ∧ 102 ∈ addrs scenario ∧ 103 ∈ addrs scenario ∧
    ∃ s', unionSets scenario (some 102) (some 103) = .ret () s' ∧
      ∀ z, dataOf s'.nodes z = dataOf scenario.nodes z :=
  ⟨by decide, by decide, by decide,
    (payload_never_mutated (T := Nat)).2.2.2.2.2.2.1 scenario 102 103 (by decide) (by decide)
      (by decide)⟩

/-! ### Rank and height -/

/-- C19, the failing forest. After the calls of the test `UnionSetsWithRank` (only
`makeSet` and `unionSets`) node 3 is the root with rank 0, while node 2 is two parent links
below it: the height of the tree rooted at node 3 is 2, which its rank does not bound. -/
theorem rank_below_height :
    run empty rankOps = some rankAfter ∧
    pathToRoot rankAfter.nodes rankAfter.nodes.length 2 = some [2, 1, 3] ∧
    stepsTo rankAfter.nodes 2 3 = some 2 ∧
    height rankAfter.nodes 3 = 2 ∧ rankOf rankAfter.nodes 3 = some 0 := by
  decide

end DisjointForest

namespace DisjointForest

variable {T : Type}

/-! ### `getAllNodes` -/

theorem state_of_ret {α σ : Type} {o : Outcome α σ} {v : α} {t s' : σ}
    (h : o = .ret v t) (hs : o.state? = some s') : s' = t := by
  rw [h] at hs
  exact (Option.some.inj hs).symm

/-- A tracked forest is well-formed and its live nodes are the tracked handles. -/
theorem Tracked.inv {s : DisjointForest T} {l : List Nat} (h : Tracked s l) :
    WellFormed s ∧ addrs s = l := by
  induction h with
  | empty => exact ⟨wellFormed_empty, rfl⟩
  | @makeSet s l p d _ hp ih =>
    refine ⟨(makeSet_ok ih.1 hp d).1, ?_⟩
    rw [addrs_makeSet, ih.2]
  | @find s s' l N _ hN hs ih =>
    obtain ⟨R, t, hf, _, hwf', haddr, _⟩ := find_ok ih.1 hN
    cases state_of_ret hf hs
    exact ⟨hwf', haddr.trans ih.2⟩
  | @unionSets s s' l A B _ hA hB hs ih =>
    obtain ⟨_, _, t, _, _, hu, hwf', haddr, _⟩ := unionSets_ok ih.1 hA hB
    cases state_of_ret hu hs
    exact ⟨hwf', haddr.trans ih.2⟩
  | @expand s s' l n _ hs ih =>
    refine ⟨wellFormed_of_nodes_eq (expand_nodes hs).1 ih.1, ?_⟩
    unfold addrs
    rw [(expand_nodes hs).1]
    exact ih.2
  | @contract s s' l N _ hN hs ih =>
    obtain ⟨t, hc, hwf', haddr, _⟩ := contract_ok ih.1 hN
    cases state_of_ret hc hs
    refine ⟨hwf', ?_⟩
    rw [haddr, ih.2]

/-- C17, amended. `getAllNodes` is a faithful snapshot: in a forest reached from the empty
forest by `makeSet`, `find`, `unionSets`, `expand` and `contract` calls it returns exactly
the handles that `makeSet` has returned and `contract` has not removed since, each once and
in creation order. Its length equals `size()` as long as there are fewer than `2 ^ 31`
nodes, and `isEmpty()` is true exactly when `size() == 0` as long as there are fewer than
`2 ^ 32` nodes. The accessors are functions of the state and return no new state. -/
theorem getAllNodes_snapshot (s : DisjointForest T) (l : List Nat) (h : Tracked s l) :
    getAllNodes s = l ∧ l.Nodup ∧
    (s.nodes.length < 2147483648 → ((getAllNodes s).length : Int) = size s) ∧
    (s.nodes.length < 4294967296 → (isEmpty s = true ↔ size s = 0)) := by
  obtain ⟨hwf, haddr⟩ := h.inv
  refine ⟨haddr, haddr ▸ hwf.1, ?_, ?_⟩
  · intro hlt
    rw [size_eq, toInt32_of_lt (by omega) (by omega)]
    simp [getAllNodes]
  · intro hlt
    rw [size_eq]
    unfold isEmpty toInt32
    rw [List.isEmpty_iff_length_eq_zero]
    omega

/-- Instance of C17, amended: two nodes are created and the first one is contracted; the
snapshot is the second handle alone. -/
theorem getAllNodes_snapshot_witness :
    Tracked twoSetsContracted [2] ∧
    getAllNodes twoSetsContracted = [2] ∧ [2].Nodup ∧
    (twoSetsContracted.nodes.length < 2147483648 →
      ((getAllNodes twoSetsContracted).length : Int) = size twoSetsContracted) ∧
    (twoSetsContracted.nodes.length < 4294967296 →
      (isEmpty twoSetsContracted = true ↔ size twoSetsContracted = 0)) :=
  have hT : Tracked twoSetsContracted [2] :=
    Tracked.contract (s := twoSets) (N := 1)
      (Tracked.makeSet (Tracked.makeSet Tracked.empty (by decide)) (by decide))
      (by decide) (by decide)
  ⟨hT, getAllNodes_snapshot twoSetsContracted [2] hT⟩

theorem manySets_addrs (n : Nat) : addrs (manySets n) = List.range n := by
  induction n with
  | zero => rfl
  | succ n ih => rw [manySets, addrs_makeSet, ih, List.range_succ]

theorem manySets_tracked (n : Nat) : Tracked (manySets n) (List.range n) := by
  induction n with
  | zero => exact Tracked.empty
  | succ n ih =>
    rw [manySets, List.range_succ]
    apply Tracked.makeSet ih
    rw [manySets_addrs]
    simp

theorem manySets_length (n : Nat) : (manySets n).nodes.length = n := by
  have h := congrArg List.length (manySets_addrs n)
  simpa [addrs] using h

theorem getAllNodes_length (s : DisjointForest T) :
    (getAllNodes s).length = s.nodes.length := by
  simp [getAllNodes]

/-- C17 as stated fails: the forest of `2 ^ 31` nodes is reached by `makeSet` calls alone,
`getAllNodes` returns `2 ^ 31` handles, and `size()` is `-2147483648`. -/
theorem getAllNodes_length_ne_size :
    Tracked (manySets 2147483648) (List.range 2147483648) ∧
    (getAllNodes (manySets 2147483648)).length = 2147483648 ∧
    size (manySets 2147483648) = -2147483648 := by
  refine ⟨manySets_tracked _, ?_, ?_⟩
  · rw [getAllNodes_length, manySets_length]
  · rw [size_eq, manySets_length]
    decide

end DisjointForest

namespace DisjointForest

variable {T : Type}

/-! ### Rank monotonicity -/

theorem rankOf_of_mem {ns : List (Node T)} {z : Nat} (hz : z ∈ ns.map (fun n => n.addr)) :
    ∃ k, rankOf ns z = some k := by
  obtain ⟨n, hn⟩ := Option.isSome_iff_exists.1 (getNode_isSome_iff.2 hz)
  exact ⟨n.rank, by simp [rankOf, hn]⟩

/-- The ranks after `unionSets` on live nodes of a well-formed forest: there is a node `a`
such that every other node keeps its rank, and the rank of `a` is kept or, `a` being the
root of the first argument, incremented as an `int`. -/
theorem unionSets_ranks {s : DisjointForest T} (hwf : WellFormed s) {x y : Nat}
    (hx : x ∈ addrs s) (hy : y ∈ addrs s) :
    ∃ s' a, unionSets s (some x) (some y) = .ret () s' ∧ addrs s' = addrs s ∧
      (∀ z, z ≠ a → rankOf s'.nodes z = rankOf s.nodes z) ∧
      (rankOf s'.nodes a = rankOf s.nodes a ∨
        ∃ k, rootOf s x = some a ∧ rankOf s.nodes a = some k ∧
          rankOf s'.nodes a = some (toInt32 (k + 1))) := by
  obtain ⟨rx, ry, kx, ky, s', hrx, _, hkx, _, hu, _, haddr, _, _, hsame, hdiff⟩ :=
    unionSets_detail hwf hx hy
  by_cases hxy : rx = ry
  · exact ⟨s', rx, hu, haddr, fun z _ => (hsame hxy).2 z, Or.inl ((hsame hxy).2 rx)⟩
  · obtain ⟨_, _, _, hrank⟩ := hdiff hxy _ _ rfl rfl
    refine ⟨s', (if kx > ky then ry else rx), hu, haddr, ?_, ?_⟩
    · intro z hz
      rw [hrank z]
      simp [hz]
    · rw [hrank]
      by_cases hk : kx = ky
      · right
        subst hk
        have hgt : ¬ kx > kx := by omega
        simp only [hgt, if_false, and_self, if_true]
        exact ⟨kx, hrx, hkx, rfl⟩
      · left
        simp [hk]

/-- C21 as stated fails: in the well-formed forest `maxRank` the call `unionSets(1, 2)`
takes the rank of node 1 from 2147483647 to `-2147483648`: the rank after the call is
smaller than the rank before, and it has not changed by `+1`. -/
theorem rank_drops_at_int_max :
    WellFormed maxRank ∧ 1 ∈ addrs maxRank ∧ 2 ∈ addrs maxRank ∧
    unionSets maxRank (some 1) (some 2) = .ret () maxRankUnited ∧
    1 ∈ addrs maxRankUnited ∧
    rankOf maxRank.nodes 1 = some 2147483647 ∧
    rankOf maxRankUnited.nodes 1 = some (-2147483648) ∧
    ¬ ((2147483647 : Int) ≤ -2147483648) ∧ (-2147483648 : Int) ≠ 2147483647 + 1 := by
  decide

/-- C21, amended. Rank is monotonically non-decreasing. On a well-formed forest, `makeSet`,
`find`, `expand` and `contract` with valid arguments leave the rank of every node that stays
live exactly as it was; `unionSets` on live nodes returns and changes the rank of at most
one node; and as long as the rank of the root of its first argument is an `int` below the
largest `int`, it leaves every rank greater than or equal to what it was and the one change
is by exactly one. -/
theorem rank_monotone (s : DisjointForest T) (hwf : WellFormed s) :
    (∀ (p : Nat) (d : T), p ∉ addrs s → ∀ z ∈ addrs s,
      rankOf (makeSet s p d).2.nodes z = rankOf s.nodes z) ∧
    (∀ N ∈ addrs s, ∃ R s', find s (some N) = .ret R s' ∧ addrs s' = addrs s ∧
      ∀ z ∈ addrs s, rankOf s'.nodes z = rankOf s.nodes z) ∧
    (∀ (n : Int) (s' : DisjointForest T), (expand s n).state? = some s' →
      addrs s' = addrs s ∧ ∀ z ∈ addrs s, rankOf s'.nodes z = rankOf s.nodes z) ∧
    (∀ N ∈ addrs s, ∃ s', contract s (some N) = .ret () s' ∧
      addrs s' = (addrs s).filter (fun a => decide (a ≠ N)) ∧
      ∀ z ∈ addrs s', rankOf s'.nodes z = rankOf s.nodes z) ∧
    (∀ A ∈ addrs s, ∀ B ∈ addrs s,
      ∃ s', unionSets s (some A) (some B) = .ret () s' ∧ addrs s' = addrs s ∧
        (∃ a, ∀ z, z ≠ a → rankOf s'.nodes z = rankOf s.nodes z) ∧
        ((∀ r k, rootOf s A = some r → rankOf s.nodes r = some k →
            -2147483648 ≤ k ∧ k < 2147483647) →
          ∀ z ∈ addrs s, ∃ k k', rankOf s.nodes z = some k ∧ rankOf s'.nodes z = some k' ∧
            k ≤ k' ∧ (k' = k ∨ k' = k + 1))) := by
  refine ⟨?_, ?_, ?_, ?_, ?_⟩
  · intro p d _ z hz
    exact rankOf_makeSet_old hz
  · intro N hN
    obtain ⟨R, s', hf, _, _, haddr, _, _, hranks⟩ := find_ok hwf hN
    exact ⟨R, s', hf, haddr, fun z _ => hranks z⟩
  · intro n s' hs
    have hn := (expand_nodes hs).1
    refine ⟨by unfold addrs; rw [hn], fun z _ => by rw [hn]⟩
  · intro N hN
    obtain ⟨s', hc, _, haddr, hnodes, _⟩ := contract_ok hwf hN
    refine ⟨s', hc, haddr, ?_⟩
    intro z hz
    rw [haddr] at hz
    have hzN : z ≠ N := by simpa using (List.mem_filter.1 hz).2
    exact rankOf_contract hnodes hzN
  · intro A hA B hB
    obtain ⟨s', a, hu, haddr, hother, hself⟩ := unionSets_ranks hwf hA hB
    refine ⟨s', hu, haddr, ⟨a, hother⟩, ?_⟩
    intro hbound z hz
    have hlive : z ∈ s.nodes.map (fun n => n.addr) := hz
    obtain ⟨k, hk⟩ := rankOf_of_mem hlive
    by_cases hza : z = a
    · subst hza
      rcases hself with h | ⟨k₀, hroot, h1, h2⟩
      · exact ⟨k, k, hk, h.trans hk, le_refl _, Or.inl rfl⟩
      · rw [hk] at h1
        cases Option.some.inj h1
        obtain ⟨hlo, hhi⟩ := hbound z k hroot hk
        rw [toInt32_of_int (by omega) (by omega)] at h2
        exact ⟨k, k + 1, hk, h2, by omega, Or.inr rfl⟩
    · exact ⟨k, k, hk, (hother z hza).trans hk, le_refl _, Or.inl rfl⟩

/-- Instance of C21, amended, on three singleton classes: after `unionSets(1, 2)` every
rank is at least what it was, and at most one rank has changed, by one. -/
theorem rank_monotone_witness :
    WellFormed threeSets ∧ 1 ∈ addrs threeSets ∧ 2 ∈ addrs threeSets ∧
    (∀ r k, rootOf threeSets 1 = some r → rankOf threeSets.nodes r = some k →
      -2147483648 ≤ k ∧ k < 2147483647) ∧
    ∃ s', unionSets threeSets (some 1) (some 2) = .ret () s' ∧ addrs s' = addrs threeSets ∧
      (∃ a, ∀ z, z ≠ a → rankOf s'.nodes z = rankOf threeSets.nodes z) ∧
      ∀ z ∈ addrs threeSets, ∃ k k', rankOf threeSets.nodes z = some k ∧
        rankOf s'.nodes z = some k' ∧ k ≤ k' ∧ (k' = k ∨ k' = k + 1) := by
  have hb : ∀ r k, rootOf threeSets 1 = some r → rankOf threeSets.nodes r = some k →
      -2147483648 ≤ k ∧ k < 2147483647 := by
    intro r k hr hk
    have h1 : rootOf threeSets 1 = some 1 := by decide
    rw [h1] at hr
    cases Option.some.inj hr
    have h2 : rankOf threeSets.nodes 1 = some 0 := by decide
    rw [h2] at hk
    cases Option.some.inj hk
    decide
  obtain ⟨s', h1, h2, h3, h4⟩ :=
    (rank_monotone threeSets (by decide)).2.2.2.2 1 (by decide) 2 (by decide)
  exact ⟨by decide, by decide, by decide, hb, s', h1, h2, h3, h4 hb⟩

/-- The equal-rank union of the test `UnionSets` evaluated: the rank of node 1 goes from 0
to 1 and the ranks of the nodes 2 and 3 stay 0. -/
theorem unionSets_threeSets_ranks :
    ∃ s', unionSets threeSets (some 1) (some 2) = .ret () s' ∧
      rankOf s'.nodes 1 = some 1 ∧ rankOf s'.nodes 2 = some 0 ∧
      rankOf s'.nodes 3 = some 0 := by
  refine ⟨_, rfl, ?_, ?_, ?_⟩ <;> decide

end DisjointForest
